import Mathlib

/-!
Verification of the better-debate core against its specification.

The Rust source is shallowly embedded: strings are lists of `Char`,
fallible operations return `Except`, and the handful of Unicode character
classification functions from Rust's standard library
(`char::is_alphanumeric`, `char::to_lowercase`, `char::is_whitespace`)
are abstracted into a `CharModel` parameter, with an ASCII instantiation
(`asciiModel`, exact for ASCII inputs) and an instantiation
(`unicodeRefModel`) additionally recording the documented Unicode
behaviour at U+0130 / U+0307.
-/

namespace BetterDebate

/-- Abstraction of Rust's `char` classification functions.
`isAlnum` models `char::is_alphanumeric`, `lowerChars` models
`char::to_lowercase` (which yields one or more characters), and `isWs`
models `char::is_whitespace`. -/
structure CharModel where
  isAlnum : Char → Bool
  lowerChars : Char → List Char
  isWs : Char → Bool

instance {ε α : Type} [DecidableEq ε] [DecidableEq α] : DecidableEq (Except ε α) := fun a b =>
  match a, b with
  | .error e, .error f =>
    if h : e = f then .isTrue (congrArg Except.error h)
    else .isFalse fun he => h (Except.error.inj he)
  | .ok x, .ok y =>
    if h : x = y then .isTrue (congrArg Except.ok h)
    else .isFalse fun he => h (Except.ok.inj he)
  | .error _, .ok _ => .isFalse fun he => Except.noConfusion he
  | .ok _, .error _ => .isFalse fun he => Except.noConfusion he

/-- Rust `char::is_whitespace` restricted to ASCII: space and U+0009..U+000D. -/
def asciiWs (c : Char) : Bool :=
  c = ' ' || ('\t' ≤ c && c ≤ '\x0d')

/-- Character model that is exact on ASCII characters (Rust's Unicode
tables agree with the ASCII tables there) and treats every non-ASCII
character as non-alphanumeric, self-lowercasing, non-whitespace. -/
def asciiModel : CharModel where
  isAlnum := Char.isAlphanum
  lowerChars c := [c.toLower]
  isWs := asciiWs

/-- LATIN CAPITAL LETTER I WITH DOT ABOVE (U+0130). -/
def capitalIDot : Char := Char.ofNat 0x130

/-- COMBINING DOT ABOVE (U+0307). -/
def combiningDot : Char := Char.ofNat 0x307

/-- `asciiModel` extended with the documented Rust/Unicode behaviour at
U+0130 and U+0307: U+0130 is alphabetic and `char::to_lowercase` maps it
to the two characters `i`, U+0307; U+0307 (category Mn, not
Other_Alphabetic) is not alphanumeric and lowercases to itself. -/
def unicodeRefModel : CharModel where
  isAlnum c := if c = capitalIDot then true else c.isAlphanum
  lowerChars c := if c = capitalIDot then ['i', combiningDot] else [c.toLower]
  isWs := asciiWs

/-- `str::trim_start`: drop leading whitespace. -/
def trimLeft (M : CharModel) (l : List Char) : List Char :=
  l.dropWhile M.isWs

/-- `str::trim_end`: drop trailing whitespace. -/
def trimRight (M : CharModel) (l : List Char) : List Char :=
  (l.reverse.dropWhile M.isWs).reverse

/-- `str::trim`: drop leading and trailing whitespace. -/
def trimChars (M : CharModel) (l : List Char) : List Char :=
  trimRight M (trimLeft M l)

/-- The character loop of `normalize_for_search` (search.rs): alphanumeric
characters are pushed lowercased, any run of other characters becomes a
single space; the Boolean argument is the `previous_space` flag. -/
def normalizeCore (M : CharModel) : List Char → Bool → List Char
  | [], _ => []
  | c :: rest, prevSpace =>
    if M.isAlnum c then
      M.lowerChars c ++ normalizeCore M rest false
    else if prevSpace then
      normalizeCore M rest true
    else
      ' ' :: normalizeCore M rest true

/-- `normalize_for_search` (search.rs): loop over the characters with
`previous_space = false`, then trim the result. -/
def normalize_for_search (M : CharModel) (text : List Char) : List Char :=
  trimChars M (normalizeCore M text false)

/-- `str::split_whitespace(..).count()`: number of maximal runs of
non-whitespace characters; the Boolean is "currently inside a word". -/
def wordCountAux (M : CharModel) : List Char → Bool → Nat
  | [], _ => 0
  | c :: rest, inWord =>
    if M.isWs c then wordCountAux M rest false
    else (if inWord then 0 else 1) + wordCountAux M rest true

def wordCount (M : CharModel) (l : List Char) : Nat :=
  wordCountAux M l false

/-- The tokens of `text.split(|c| !c.is_ascii_digit())` (util.rs,
`contains_year_token`): the pieces between non-ASCII-digit separators,
including empty pieces, with `acc` the current (reversed) piece. -/
def digitTokens : List Char → List Char → List (List Char)
  | [], acc => [acc.reverse]
  | c :: rest, acc =>
    if c.isDigit then digitTokens rest (c :: acc)
    else acc.reverse :: digitTokens rest []

/-- Numeric value of a list of ASCII digit characters (the successful
`token.parse::<i32>()` of a 4-digit token). -/
def digitsValue (l : List Char) : Nat :=
  l.foldl (fun a c => 10 * a + (c.toNat - 48)) 0

/-- `contains_year_token` (util.rs): some length-4 digit token parses to a
year in `[1900, 2099]`. -/
def contains_year_token (text : List Char) : Bool :=
  (digitTokens text []).any fun token =>
    token.length = 4 && (1900 ≤ digitsValue token && digitsValue token ≤ 2099)

/-- `str::contains(pat)`: substring occurrence test. -/
def containsSeq (hay pat : List Char) : Bool :=
  match hay with
  | [] => pat.isEmpty
  | _ :: rest => pat.isPrefixOf hay || containsSeq rest pat

/-- `is_probable_author_line` (util.rs). Note that `comma_count` is taken
on the raw `text`, while every other feature is taken on the normalized
form. -/
def is_probable_author_line (M : CharModel) (text : List Char) : Bool :=
  let normalized := normalize_for_search M text
  if normalized.isEmpty then false
  else
    let word_count := wordCount M normalized
    if !(3 ≤ word_count && word_count ≤ 90) then false
    else if !contains_year_token normalized then false
    else
      let comma_count := text.count ','
      let has_source_marker :=
        containsSeq normalized "journal".data || containsSeq normalized "university".data ||
        containsSeq normalized "postdoctoral".data || containsSeq normalized "vol ".data ||
        containsSeq normalized "edition".data || containsSeq normalized "press".data ||
        containsSeq normalized "retrieved".data || containsSeq normalized "archive".data
      let looks_like_url_line :=
        containsSeq normalized "http".data || containsSeq normalized "doi".data
      (2 ≤ comma_count || has_source_marker || looks_like_url_line) && 5 ≤ word_count

/-! ### Well-formedness predicates for the normalizer (used for claim C4) -/

/-- A character is benign for the normalizer: if it counts as alphanumeric,
its lowercase expansion is nonempty and consists of alphanumeric,
lowercase-stable, non-whitespace characters. Every ASCII character is
benign; the Unicode character U+0130 is not. -/
def GoodChar (M : CharModel) (c : Char) : Prop :=
  M.isAlnum c = true →
    M.lowerChars c ≠ [] ∧
    ∀ d ∈ M.lowerChars c,
      M.isAlnum d = true ∧ M.lowerChars d = [d] ∧ M.isWs d = false

instance (M : CharModel) (c : Char) : Decidable (GoodChar M c) := by
  unfold GoodChar; infer_instance

/-- Output discipline of the normalizer core: no two consecutive spaces
(the Boolean index means "a space is not allowed now"), every non-space
character alphanumeric, lowercase-stable and non-whitespace. Trailing
spaces are allowed. -/
def okCore (M : CharModel) : Bool → List Char → Prop
  | _, [] => True
  | b, c :: rest =>
    if c = ' ' then b = false ∧ okCore M true rest
    else M.isAlnum c = true ∧ M.lowerChars c = [c] ∧ M.isWs c = false ∧ okCore M false rest

/-- `okCore` strengthened with "no trailing space": the shape of a fully
normalized string. -/
def okFull (M : CharModel) : Bool → List Char → Prop
  | _, [] => True
  | b, c :: rest =>
    if c = ' ' then b = false ∧ rest ≠ [] ∧ okFull M true rest
    else M.isAlnum c = true ∧ M.lowerChars c = [c] ∧ M.isWs c = false ∧ okFull M false rest

/-! ### Path handling for `normalize_capture_target_path` (util.rs) -/

def DEFAULT_CAPTURE_TARGET : List Char := "BlockFile-Captures.docx".data

/-- A Unix path is absolute iff it starts with a slash. -/
def isAbsolutePath (raw : List Char) : Bool :=
  match raw with
  | [] => false
  | c :: _ => c = '/'

/-- Split a path string on slashes; pieces never contain a slash and may
be empty (for repeated or leading/trailing separators). -/
def splitOnSlash : List Char → List Char → List (List Char)
  | [], acc => [acc.reverse]
  | c :: rest, acc =>
    if c = '/' then acc.reverse :: splitOnSlash rest []
    else splitOnSlash rest (c :: acc)

/-- `Path::components()` on a relative Unix path, fed through the match in
`normalize_capture_target_path`: empty and `.` pieces are skipped
(`Component::CurDir`), a `..` piece is `Component::ParentDir` and yields
the error; everything else is `Component::Normal` and is pushed. On Unix
a relative path contains no `RootDir`/`Prefix` component, so the error
message mentioning those can only be triggered by `..` here. -/
def relComponents : List (List Char) → Except String (List (List Char))
  | [] => .ok []
  | seg :: rest =>
    if seg = [] ∨ seg = ['.'] then relComponents rest
    else if seg = ['.', '.'] then
      .error "Capture target path cannot use parent-dir or root-prefix components when relative."
    else
      match relComponents rest with
      | .error e => .error e
      | .ok segs => .ok (seg :: segs)

/-- Rust `rsplit_file_at_dot`: split a file name into `(file_stem,
extension)`. The extension is the part after the last dot, except that a
name with no dot, a leading-dot name like `.docx`, and the name `..`
have no extension. -/
def splitFileAtDot (name : List Char) : List Char × Option (List Char) :=
  if name = ['.', '.'] then (name, none)
  else if (name.reverse.takeWhile (· ≠ '.')).length = name.length then (name, none)
  else if name.take (name.length - (name.reverse.takeWhile (· ≠ '.')).length - 1) = [] then
    (name, none)
  else
    (name.take (name.length - (name.reverse.takeWhile (· ≠ '.')).length - 1),
     some (name.reverse.takeWhile (· ≠ '.')).reverse)

/-- `str::eq_ignore_ascii_case`. -/
def eqIgnoreAsciiCase (a b : List Char) : Bool :=
  a.map Char.toLower == b.map Char.toLower

/-- `PathBuf::set_extension` on a single file name: file stem plus a dot
plus the new extension. -/
def setExtensionSeg (name ext : List Char) : List Char :=
  (splitFileAtDot name).1 ++ '.' :: ext

/-- Does this file name already carry the wanted extension
(ASCII-case-insensitively)? -/
def hasExtSeg (name ext : List Char) : Bool :=
  match (splitFileAtDot name).2 with
  | none => false
  | some e => eqIgnoreAsciiCase e ext

/-- Index of the last nonempty piece of a slash-split path, if any. -/
def lastNonemptyIdx (parts : List (List Char)) : Option Nat :=
  match parts.reverse.findIdx? (· ≠ []) with
  | none => none
  | some k => some (parts.length - 1 - k)

/-- `PathBuf::set_extension` semantics on a whole path string `raw` when
the new extension differs from the current one: the file name (last
nonempty slash-piece) is replaced by its stem plus the extension, and
anything after it (trailing slashes) is truncated; a path with no file
name (e.g. `/`) is returned unchanged. Trailing `.`/`..` segments of
Rust `Path::file_name` are not modelled; no theorem depends on them. -/
def withExtensionPath (raw ext : List Char) : List Char :=
  let parts := splitOnSlash raw []
  match lastNonemptyIdx parts with
  | none => raw
  | some k =>
      List.intercalate ['/']
        ((parts.take k) ++ [setExtensionSeg ((parts.drop k).headD []) ext])

/-- The file name of a path: its last nonempty slash-piece (empty when
there is none). -/
def lastSegOf (raw : List Char) : List Char :=
  let parts := splitOnSlash raw []
  match lastNonemptyIdx parts with
  | none => []
  | some k => (parts.drop k).headD []

/-- Extension normalization applied by `normalize_capture_target_path`:
if the file name extension is not `docx` (ASCII-case-insensitively),
`set_extension("docx")`. -/
def ensureDocxPath (raw : List Char) : List Char :=
  let parts := splitOnSlash raw []
  match lastNonemptyIdx parts with
  | none => raw
  | some k =>
      if hasExtSeg ((parts.drop k).headD []) "docx".data then raw
      else withExtensionPath raw "docx".data

/-- The body of `normalize_capture_target_path` after the trim/default
step: an absolute path skips the component check and is kept as-is; a
relative path is rebuilt from its `Normal` components with `..` rejected;
the result must be nonempty and gets a `docx` extension unless it already
has one. -/
def normalizeCaptureCore (raw : List Char) : Except String (List Char) :=
  if isAbsolutePath raw then Except.ok (ensureDocxPath raw)
  else
    match relComponents (splitOnSlash raw []) with
    | .error e => .error e
    | .ok segs =>
      if segs = [] then .error "Capture target path cannot be empty."
      else .ok (ensureDocxPath (List.intercalate ['/'] segs))

/-- `normalize_capture_target_path` (util.rs): trim, default to
`BlockFile-Captures.docx` when absent or empty, then normalize. -/
def normalize_capture_target_path (M : CharModel) (target_path : Option (List Char)) :
    Except String (List Char) :=
  normalizeCaptureCore
    (match target_path with
     | some s => if trimChars M s = [] then DEFAULT_CAPTURE_TARGET else trimChars M s
     | none => DEFAULT_CAPTURE_TARGET)

/-! ### Paragraphs and heading ranges (types.rs, docx_parse.rs) -/

structure ParsedParagraph where
  order : Int
  text : List Char
  heading_level : Option Int
  style_label : Option (List Char)
  is_f8_cite : Bool
deriving DecidableEq

structure HeadingRange where
  order : Int
  level : Int
  start_index : Nat
  end_index : Nat
deriving DecidableEq

def headingLevelAt (paragraphs : List ParsedParagraph) (i : Nat) : Option Int :=
  (paragraphs.get? i).bind (·.heading_level)

def textAt (paragraphs : List ParsedParagraph) (i : Nat) : List Char :=
  ((paragraphs.get? i).map (·.text)).getD []

def orderAt (paragraphs : List ParsedParagraph) (i : Nat) : Int :=
  ((paragraphs.get? i).map (·.order)).getD 0

/-- The `heading_indices` vector of `build_heading_ranges`: indices of
paragraphs with a heading level, in order. -/
def headingIndices (paragraphs : List ParsedParagraph) : List Nat :=
  (List.range paragraphs.length).filter fun i => (headingLevelAt paragraphs i).isSome

/-- The inner scan of `build_heading_ranges`: walk the later heading
indices; a candidate whose text is a probable author line is skipped; the
first remaining candidate with level `≤ level` ends the range; otherwise
the range runs to the end of the file. -/
def rangeEnd (M : CharModel) (paragraphs : List ParsedParagraph) (level : Int) :
    List Nat → Nat
  | [] => paragraphs.length
  | j :: rest =>
    match headingLevelAt paragraphs j with
    | none => rangeEnd M paragraphs level rest
    | some candidate_level =>
      if is_probable_author_line M (textAt paragraphs j) then rangeEnd M paragraphs level rest
      else if candidate_level ≤ level then j
      else rangeEnd M paragraphs level rest

/-- Body of the outer loop of `build_heading_ranges`, processing the
heading indices in order; the list argument after `i` is exactly
`heading_indices.iter().skip(heading_position + 1)`. -/
def buildRangesGo (M : CharModel) (paragraphs : List ParsedParagraph) :
    List Nat → List HeadingRange
  | [] => []
  | i :: rest =>
    match headingLevelAt paragraphs i with
    | none => buildRangesGo M paragraphs rest
    | some level =>
      { order := orderAt paragraphs i, level := level,
        start_index := i, end_index := rangeEnd M paragraphs level rest } ::
      buildRangesGo M paragraphs rest

/-- `build_heading_ranges` (docx_parse.rs). -/
def build_heading_ranges (M : CharModel) (paragraphs : List ParsedParagraph) :
    List HeadingRange :=
  buildRangesGo M paragraphs (headingIndices paragraphs)

/-- A paragraph index that ends the range of a heading with level `L`:
it is itself a heading, its text is not a probable author line, and its
level is at most `L`. -/
def IsBoundary (M : CharModel) (paragraphs : List ParsedParagraph) (L : Int) (j : Nat) : Prop :=
  ∃ cl, headingLevelAt paragraphs j = some cl ∧
    is_probable_author_line M (textAt paragraphs j) = false ∧ cl ≤ L

/-! ### Chunking (chunking.rs) -/

structure ChunkProfile where
  min_chars : Nat
  max_chars : Nat
  overlap_chars : Nat
deriving DecidableEq

def MAX_CHUNKS_PER_SECTION : Nat := 384

/-- `chunk_profile` (chunking.rs). `usize::div_ceil`/`saturating_mul` are
modelled on ideal naturals; saturation is unreachable for inputs below
`2^64` and no theorem depends on it. -/
def chunk_profile (total_chars : Nat) : ChunkProfile :=
  let profile : ChunkProfile :=
    if total_chars ≥ 180000 then ⟨1800, 3600, 420⟩
    else if total_chars ≥ 40000 then ⟨1200, 2600, 320⟩
    else ⟨700, 1600, 220⟩
  let estimated_chunks := (total_chars + profile.max_chars - 1) / profile.max_chars
  let profile :=
    if estimated_chunks > MAX_CHUNKS_PER_SECTION then
      let scale :=
        max ((estimated_chunks + MAX_CHUNKS_PER_SECTION - 1) / MAX_CHUNKS_PER_SECTION) 1
      { min_chars := profile.min_chars * scale,
        max_chars := profile.max_chars * scale,
        overlap_chars := min (profile.overlap_chars * scale) (profile.max_chars * scale - 64) }
    else profile
  if profile.min_chars ≥ profile.max_chars then
    { profile with min_chars := max (profile.max_chars - 64) 64 }
  else profile

/-- The reverse whitespace scan `for index in (min_end..max_end).rev()`:
with `n = max_end - min_end`, test indices `min_end + n - 1` down to
`min_end` and return the first whitespace position. -/
def lastWsIn (M : CharModel) (chars : List Char) (min_end : Nat) : Nat → Option Nat
  | 0 => none
  | n + 1 =>
    if ((chars.get? (min_end + n)).map M.isWs).getD false then some (min_end + n)
    else lastWsIn M chars min_end n

/-- The `cut` position computed by one iteration of the loop in
`split_text_into_chunks`: the last whitespace in `[min_end, max_end)`,
else `max_end`; a cut not after `start` falls back to `max_end`. -/
def loopCut (M : CharModel) (chars : List Char) (profile : ChunkProfile) (start : Nat) : Nat :=
  let max_end := min (start + profile.max_chars) chars.length
  let min_end := min (start + profile.min_chars) max_end
  let cut0 :=
    match lastWsIn M chars min_end (max_end - min_end) with
    | some i => i
    | none => max_end
  if cut0 ≤ start then max_end else cut0

/-- The chunk text of one iteration: `chars[start..cut]`, trimmed. -/
def loopChunkText (M : CharModel) (chars : List Char) (profile : ChunkProfile)
    (start : Nat) : List Char :=
  trimChars M ((chars.drop start).take (loopCut M chars profile start - start))

/-- The next `start`: `cut − overlap`, where the overlap is capped at
`advanced − 1`, falling back to `cut` when that would not advance. -/
def loopNextStart (M : CharModel) (chars : List Char) (profile : ChunkProfile)
    (start : Nat) : Nat :=
  let cut := loopCut M chars profile start
  let advanced := cut - start
  let overlap := min profile.overlap_chars (advanced - 1)
  let next_start := cut - overlap
  if next_start ≤ start then cut else next_start

/-- One-iteration-per-fuel embedding of the `while` loop of
`split_text_into_chunks`; returns the accumulated chunks and the final
`start`. `start` strictly increases every iteration, so fuel
`chars.length + 1` never runs out. -/
def splitLoop (M : CharModel) (chars : List Char) (profile : ChunkProfile) :
    Nat → List (List Char) → Nat → List (List Char) × Nat
  | start, chunks, 0 => (chunks, start)
  | start, chunks, fuel + 1 =>
    if start < chars.length ∧ chunks.length < MAX_CHUNKS_PER_SECTION then
      let cut := loopCut M chars profile start
      let chunk_text := loopChunkText M chars profile start
      let chunks' := if chunk_text = [] then chunks else chunks ++ [chunk_text]
      if cut ≥ chars.length then (chunks', start)
      else splitLoop M chars profile (loopNextStart M chars profile start) chunks' fuel
    else (chunks, start)

/-- The trailing-tail handling after the loop of
`split_text_into_chunks`. -/
def splitTailFix (M : CharModel) (chars : List Char) (state : List (List Char) × Nat) :
    List (List Char) :=
  let (chunks, start) := state
  if start < chars.length then
    let tail := trimChars M (chars.drop start)
    if tail = [] then chunks
    else if chunks.length ≥ MAX_CHUNKS_PER_SECTION then
      match chunks.getLast? with
      | none => chunks
      | some last =>
        if tail.isSuffixOf last then chunks
        else chunks.dropLast ++ [last ++ '\n' :: tail]
    else chunks ++ [tail]
  else chunks

/-- `split_text_into_chunks` (chunking.rs). -/
def split_text_into_chunks (M : CharModel) (text : List Char) : List (List Char) :=
  let trimmed := trimChars M text
  if trimmed = [] then []
  else
    let chars := trimmed
    let profile := chunk_profile chars.length
    if chars.length ≤ profile.max_chars then [trimmed]
    else splitTailFix M chars (splitLoop M chars profile 0 [] (chars.length + 1))

structure ParsedChunk where
  chunk_order : Int
  heading_order : Option Int
  heading_level : Option Int
  heading_text : Option (List Char)
  author_text : Option (List Char)
  chunk_text : List Char
deriving DecidableEq

/-- The `flush_section` closure of `build_chunks`: join the accumulated
section lines and emit one `ParsedChunk` per split chunk, advancing
`chunk_order`. -/
def flush_section (M : CharModel) (chunks : List ParsedChunk) (chunk_order : Int)
    (lines : List (List Char)) (heading_order heading_level : Option Int)
    (heading_text author_text : Option (List Char)) : List ParsedChunk × Int :=
  if lines = [] then (chunks, chunk_order)
  else
    let section_text := List.intercalate ['\n'] lines
    (split_text_into_chunks M section_text).foldl
      (fun (state : List ParsedChunk × Int) chunk_text =>
        (state.1 ++ [{ chunk_order := state.2, heading_order := heading_order,
                       heading_level := heading_level, heading_text := heading_text,
                       author_text := author_text, chunk_text := chunk_text }],
         state.2 + 1))
      (chunks, chunk_order)

/-- The paragraph loop of `build_chunks`; the state mirrors the mutable
locals of the Rust function. -/
def buildChunksGo (M : CharModel) :
    List ParsedParagraph → List ParsedChunk → Int → Option Int → Option Int →
    Option (List Char) → Option (List Char) → List (List Char) → List ParsedChunk
  | [], chunks, chunk_order, ho, hl, ht, author, lines =>
    (flush_section M chunks chunk_order lines ho hl ht author).1
  | p :: rest, chunks, chunk_order, ho, hl, ht, author, lines =>
    let text := trimChars M p.text
    if text = [] then
      buildChunksGo M rest chunks chunk_order ho hl ht author lines
    else
      match p.heading_level with
      | some level =>
        let flushed := flush_section M chunks chunk_order lines ho hl ht author
        let chunks := flushed.1 ++
          [{ chunk_order := flushed.2, heading_order := some p.order,
             heading_level := some level, heading_text := some text,
             author_text := none, chunk_text := text }]
        buildChunksGo M rest chunks (flushed.2 + 1)
          (some p.order) (some level) (some text) none []
      | none =>
        let author :=
          if author.isNone ∧ is_probable_author_line M text then some text else author
        buildChunksGo M rest chunks chunk_order ho hl ht author (lines ++ [text])

/-- `build_chunks` (chunking.rs). -/
def build_chunks (M : CharModel) (paragraphs : List ParsedParagraph) : List ParsedChunk :=
  buildChunksGo M paragraphs [] 1 none none none none []

/-- The chunk id `"{root}:{file}:{chunk_order}"` derived in
commands.rs. -/
def chunk_id (root_id file_id : Int) (chunk_order : Int) : String :=
  toString root_id ++ ":" ++ toString file_id ++ ":" ++ toString chunk_order

/-! ### Query engine (query_engine.rs, search.rs) -/

def MAX_QUERY_CHARS : Nat := 512

def VECTOR_MIN_QUERY_CHARS : Nat := 3

/-- `normalize_query` (query_engine.rs): `query.trim().chars().take(512)`.
Note the trim happens before the truncation. -/
def normalize_query (M : CharModel) (query : List Char) : List Char :=
  (trimChars M query).take MAX_QUERY_CHARS

/-- UTF-8 byte length of a string, as Rust `str::len()` computes it. -/
def utf8Len (l : List Char) : Nat :=
  (l.map Char.utf8Size).sum

/-- The search hit record (types.rs); the `f64` score is modelled with
exact rationals. -/
structure SearchHit where
  source : String
  kind : String
  file_id : Int
  file_name : String
  relative_path : String
  absolute_path : String
  heading_level : Option Int
  heading_text : Option String
  heading_order : Option Int
  score : ℚ
deriving DecidableEq

/-- `search_lexical` (query_engine.rs) up to its guards; everything after
them (root resolution, cache, the index search, budget logging) is the
oracle `onSearch`, which receives the cleaned query. -/
def search_lexical (M : CharModel)
    (onSearch : List Char → Except String (List SearchHit)) (query : List Char) :
    Except String (List SearchHit) :=
  let capped_query := normalize_query M query
  let cleaned_query := trimChars M capped_query
  if utf8Len cleaned_query < 2 then .ok []
  else if (normalize_for_search M cleaned_query).isEmpty then .ok []
  else onSearch cleaned_query

/-- `search_semantic` (query_engine.rs) up to its guards; the length test
counts codepoints (`chars().count()`), bound `VECTOR_MIN_QUERY_CHARS`. -/
def search_semantic (M : CharModel)
    (onSearch : List Char → Except String (List SearchHit)) (query : List Char) :
    Except String (List SearchHit) :=
  let capped_query := normalize_query M query
  let cleaned_query := trimChars M capped_query
  if cleaned_query.length < VECTOR_MIN_QUERY_CHARS then .ok []
  else if (normalize_for_search M cleaned_query).isEmpty then .ok []
  else onSearch cleaned_query

/-- `search_hybrid` (query_engine.rs) up to its guards (identical to the
lexical ones); the dispatch on `file_name_only`/`semantic_enabled`, the
cache, and the fusion are the oracle. -/
def search_hybrid (M : CharModel)
    (onSearch : List Char → Except String (List SearchHit)) (query : List Char) :
    Except String (List SearchHit) :=
  let capped_query := normalize_query M query
  let cleaned_query := trimChars M capped_query
  if utf8Len cleaned_query < 2 then .ok []
  else if (normalize_for_search M cleaned_query).isEmpty then .ok []
  else onSearch cleaned_query

/-- The query cleaning step in the order the claim states it (truncate to
512 codepoints, then trim); compare with `normalize_query` followed by
the second trim, which trims before truncating. -/
def claimCleanedQuery (M : CharModel) (query : List Char) : List Char :=
  trimChars M (query.take MAX_QUERY_CHARS)

/-! ### Reciprocal-rank fusion (query_engine.rs) -/

def assocLookup {α : Type} : List (String × α) → String → Option α
  | [], _ => none
  | (k, v) :: rest, key => if k = key then some v else assocLookup rest key

/-- `dedupe_key` (query_engine.rs). -/
def dedupe_key (hit : SearchHit) : String :=
  hit.kind ++ ":" ++ toString hit.file_id ++ ":" ++ toString (hit.heading_order.getD 0) ++
  ":" ++ hit.heading_text.getD "" ++ ":" ++ hit.relative_path

/-- `scores.entry(key).and_modify(+v).or_insert(v)` over an association
list kept in first-insertion order. -/
def addScore : List (String × ℚ) → String → ℚ → List (String × ℚ)
  | [], key, v => [(key, v)]
  | (k, s) :: rest, key, v =>
    if k = key then (k, s + v) :: rest else (k, s) :: addScore rest key v

/-- `by_key.entry(key).or_insert_with(hit)`. -/
def orInsertHit : List (String × SearchHit) → String → SearchHit → List (String × SearchHit)
  | [], key, h => [(key, h)]
  | (k, e) :: rest, key, h =>
    if k = key then (k, e) :: rest else (k, e) :: orInsertHit rest key h

/-- The semantic pass over `by_key`:
`and_modify(source lexical → hybrid).or_insert_with(hit)`. -/
def semUpdateHit : List (String × SearchHit) → String → SearchHit → List (String × SearchHit)
  | [], key, h => [(key, h)]
  | (k, e) :: rest, key, h =>
    if k = key then
      (k, if e.source = "lexical" then { e with source := "hybrid" } else e) :: rest
    else (k, e) :: semUpdateHit rest key h

/-- `seen_lexical.insert(key, true)` — a `HashMap<String, bool>` holding
only `true` values is a key set. -/
def insertSeen (seen : List String) (key : String) : List String :=
  if key ∈ seen then seen else seen ++ [key]

structure RrfAcc where
  scores : List (String × ℚ)
  by_key : List (String × SearchHit)
  seen_lexical : List String
  seen_semantic : List String

/-- The two accumulation passes of `fuse_rrf`: `rank` is the 0-based
`enumerate` index and each occurrence contributes
`1 / (60 + (rank + 1))`. -/
def rrfAcc (lexical_hits semantic_hits : List SearchHit) : RrfAcc :=
  let afterLex := lexical_hits.enum.foldl
    (fun (a : RrfAcc) (p : Nat × SearchHit) =>
      let key := dedupe_key p.2
      { scores := addScore a.scores key (1 / (60 + ((p.1 : ℚ) + 1))),
        by_key := orInsertHit a.by_key key p.2,
        seen_lexical := insertSeen a.seen_lexical key,
        seen_semantic := a.seen_semantic })
    ⟨[], [], [], []⟩
  semantic_hits.enum.foldl
    (fun (a : RrfAcc) (p : Nat × SearchHit) =>
      let key := dedupe_key p.2
      { scores := addScore a.scores key (1 / (60 + ((p.1 : ℚ) + 1))),
        by_key := semUpdateHit a.by_key key p.2,
        seen_lexical := a.seen_lexical,
        seen_semantic := insertSeen a.seen_semantic key })
    afterLex

/-- The `ranked` list of `fuse_rrf` before sorting: per scored key, the
stored hit with `source` forced to `hybrid` when the key was seen in both
lists and external score `1000 − 1000·sum`. -/
def rrfRanked (lexical_hits semantic_hits : List SearchHit) : List SearchHit :=
  let acc := rrfAcc lexical_hits semantic_hits
  acc.scores.filterMap fun p =>
    match assocLookup acc.by_key p.1 with
    | none => none
    | some hit =>
      let hit :=
        if p.1 ∈ acc.seen_lexical ∧ p.1 ∈ acc.seen_semantic then
          { hit with source := "hybrid" }
        else hit
      some { hit with score := 1000 - p.2 * 1000 }

/-- The sort comparator of `fuse_rrf`: score, then relative path, then
heading order (`∥0`), then kind; `partial_cmp` never meets a NaN in the
rational model. -/
def hitLe (a b : SearchHit) : Bool :=
  if a.score ≠ b.score then a.score ≤ b.score
  else if a.relative_path ≠ b.relative_path then a.relative_path < b.relative_path
  else if a.heading_order.getD 0 ≠ b.heading_order.getD 0 then
    a.heading_order.getD 0 ≤ b.heading_order.getD 0
  else !(b.kind < a.kind)

/-- `fuse_rrf` (query_engine.rs). -/
def fuse_rrf (lexical_hits semantic_hits : List SearchHit) (limit : Nat) : List SearchHit :=
  ((rrfRanked lexical_hits semantic_hits).mergeSort hitLe).take limit

/-- Specification-side per-key fused score: the sum of `1/(60 + rank)`
(1-based rank) over the key's occurrences in both lists. -/
def rrfSum (lexical_hits semantic_hits : List SearchHit) (key : String) : ℚ :=
  ((lexical_hits.enum.filter fun p => dedupe_key p.2 = key).map
    (fun p => (1 : ℚ) / (60 + ((p.1 : ℚ) + 1)))).sum +
  ((semantic_hits.enum.filter fun p => dedupe_key p.2 = key).map
    (fun p => (1 : ℚ) / (60 + ((p.1 : ℚ) + 1)))).sum

/-! ### Zip rewrite (docx_capture.rs) -/

/-- A zip archive part: name, directory flag, payload bytes. -/
structure ZipEntry where
  name : String
  is_dir : Bool
  data : List Nat
deriving DecidableEq

/-- The file system visible to `rewrite_docx_with_parts`: paths to parsed
zip archives (`none` = no file). -/
def Fs : Type := String → Option (List ZipEntry)

def Fs.set (fs : Fs) (p : String) (v : Option (List ZipEntry)) : Fs :=
  fun q => if q = p then v else fs q

/-- Which fallible operations fail during one run of
`rewrite_docx_with_parts`; each flag stands for the I/O outcome of the
corresponding call. -/
structure FailurePlan where
  zip_parse_fails : Bool
  create_temp_fails : Bool
  /-- `by_index` / `start_file` / `read_to_end` / `write_all` for the
  i-th source entry. -/
  entry_fails : Nat → Bool
  /-- `start_file` / `write_all` for the i-th replacement while appending
  parts absent from the source. -/
  append_fails : Nat → Bool
  finish_fails : Bool
  rename_fails : Bool
  remove_fails : Bool
  rename2_fails : Bool

/-- The temporary file path `capture_path.with_extension("docx.tmp")`. -/
def temp_path_of (p : String) : String :=
  ⟨withExtensionPath p.data "docx.tmp".data⟩

/-- The copy loop of `rewrite_docx_with_parts`: stream each source entry
to the temp file, substituting replacement payloads by name; directories
are skipped; returns `(error?, entries written so far, copied names)`. -/
def processEntries (plan : FailurePlan) (replacements : List (String × List Nat)) :
    List ZipEntry → Nat → List ZipEntry → List String →
    Option String × List ZipEntry × List String
  | [], _, written, copied => (none, written, copied)
  | e :: rest, idx, written, copied =>
    if plan.entry_fails idx then
      (some ("Could not write capture zip entry " ++ e.name), written, copied)
    else if e.is_dir then processEntries plan replacements rest (idx + 1) written copied
    else
      let data :=
        match assocLookup replacements e.name with
        | some bytes => bytes
        | none => e.data
      processEntries plan replacements rest (idx + 1)
        (written ++ [{ name := e.name, is_dir := false, data := data }])
        (copied ++ [e.name])

/-- The second loop of `rewrite_docx_with_parts`: append replacement
parts that were not present in the source archive. -/
def appendMissing (plan : FailurePlan) (copied : List String) :
    List (String × List Nat) → Nat → List ZipEntry → Option String × List ZipEntry
  | [], _, written => (none, written)
  | (name, bytes) :: rest, idx, written =>
    if name ∈ copied then appendMissing plan copied rest (idx + 1) written
    else if plan.append_fails idx then
      (some ("Could not add capture zip entry " ++ name), written)
    else
      appendMissing plan copied rest (idx + 1)
        (written ++ [{ name := name, is_dir := false, data := bytes }])

/-- `rewrite_docx_with_parts` (docx_capture.rs): open and parse the
original, stream everything into the temp file, then rename the temp file
over the original, falling back to remove-then-rename when the first
rename fails. Returns the command result and the final file system. -/
def rewrite_docx_with_parts (plan : FailurePlan) (fs : Fs) (capture_path : String)
    (replacements : List (String × List Nat)) : Except String Unit × Fs :=
  match fs capture_path with
  | none => (.error "Could not open capture docx for update", fs)
  | some entries =>
    if plan.zip_parse_fails then (.error "Could not read capture docx for update", fs)
    else
      let temp_path := temp_path_of capture_path
      if plan.create_temp_fails then (.error "Could not create temporary capture file", fs)
      else
        match processEntries plan replacements entries 0 [] [] with
        | (some e, written, _) => (.error e, fs.set temp_path (some written))
        | (none, written, copied) =>
          match appendMissing plan copied replacements 0 written with
          | (some e, written') => (.error e, fs.set temp_path (some written'))
          | (none, written') =>
            let fsTemp := fs.set temp_path (some written')
            if plan.finish_fails then (.error "Could not finish capture zip rewrite", fsTemp)
            else if !plan.rename_fails then
              (.ok (), (fsTemp.set capture_path (some written')).set temp_path none)
            else if plan.remove_fails then
              (.error "Could not replace capture docx", fsTemp)
            else
              let fsRemoved := fsTemp.set capture_path none
              if plan.rename2_fails then
                (.error "Could not move updated capture docx into place", fsRemoved)
              else
                (.ok (), (fsRemoved.set capture_path (some written')).set temp_path none)

/-! ### Capture preview and `move_capture_heading` (commands.rs) -/

structure FileHeading where
  id : Int
  order : Int
  level : Int
  text : String
  copy_text : String
deriving DecidableEq

structure CaptureTargetPreview where
  relative_path : String
  absolute_path : String
  /-- the `exists` field of the Rust struct. -/
  exists_flag : Bool
  heading_count : Int
  headings : List FileHeading
deriving DecidableEq

/-- File-system observations made by a command. -/
inductive FsEvent where
  | stat (p : String)
  | openRead (p : String)
  | writeFile (p : String)
deriving DecidableEq

/-- `capture_docx_path` (util.rs): `root.join(target_relative_path)` for a
canonical root (no trailing slash) and a relative target. -/
def capture_docx_path (root target_relative_path : String) : String :=
  root ++ "/" ++ target_relative_path

/-- `capture_target_preview_for_path` (commands.rs). The target file is
stat-ed; when present it is opened and parsed (`extract_preview_content`,
abstracted by the `extract` oracle, with errors defaulting to no
headings) and the headings are sorted by order. Returns the preview and
the observation trace. -/
def capture_target_preview_for_path
    (extract : List ZipEntry → Option (List FileHeading)) (fs : Fs)
    (canonical_root normalized_target : String) : CaptureTargetPreview × List FsEvent :=
  let absolute_path := capture_docx_path canonical_root normalized_target
  match fs absolute_path with
  | none =>
    ({ relative_path := normalized_target, absolute_path := absolute_path,
       exists_flag := false, heading_count := 0, headings := [] },
     [.stat absolute_path])
  | some zip =>
    let headings := ((extract zip).getD []).mergeSort fun l r => l.order ≤ r.order
    ({ relative_path := normalized_target, absolute_path := absolute_path,
       exists_flag := true, heading_count := headings.length, headings := headings },
     [.stat absolute_path, .openRead absolute_path])

/-- `move_capture_heading` (commands.rs). `canon` is the
`canonicalize_folder` oracle (an OS call on the root folder), `extract`
the preview parser, and `rest` the whole body after the
`source_heading_order == target_heading_order` early return (never
entered by the claim under study). Returns the command result, the
observation trace and the final file system. -/
def move_capture_heading (M : CharModel) (canon : String → Except String String)
    (extract : List ZipEntry → Option (List FileHeading))
    (rest : String → String → Fs → Except String CaptureTargetPreview × List FsEvent × Fs)
    (fs : Fs) (root_path target_path : String)
    (source_heading_order target_heading_order : Int) :
    Except String CaptureTargetPreview × List FsEvent × Fs :=
  match canon root_path with
  | .error e => (.error e, [], fs)
  | .ok canonical_root =>
    match normalize_capture_target_path M (some target_path.data) with
    | .error e => (.error e, [], fs)
    | .ok normalized_target =>
      if source_heading_order = target_heading_order then
        let result :=
          capture_target_preview_for_path extract fs canonical_root ⟨normalized_target⟩
        (.ok result.1, result.2, fs)
      else rest canonical_root ⟨normalized_target⟩ fs

/-! ### Claim-side predicate for the author detector (C5) -/

/-- The author classifier exactly as the claim words it: every feature,
including the comma count, is taken on the normalized form of the text.
Compare with `is_probable_author_line`, which counts commas on the raw
text. -/
def author_line_claim (M : CharModel) (text : List Char) : Bool :=
  let normalized := normalize_for_search M text
  let word_count := wordCount M normalized
  (3 ≤ word_count && word_count ≤ 90) &&
  contains_year_token normalized &&
  (5 ≤ word_count &&
    (2 ≤ normalized.count ',' ||
     (containsSeq normalized "journal".data || containsSeq normalized "university".data ||
      containsSeq normalized "postdoctoral".data || containsSeq normalized "vol ".data ||
      containsSeq normalized "edition".data || containsSeq normalized "press".data ||
      containsSeq normalized "retrieved".data || containsSeq normalized "archive".data) ||
     (containsSeq normalized "http".data || containsSeq normalized "doi".data)))

/-- The author classifier as amended: identical to the claim except that
commas are counted on the raw input text, as the code does. -/
def author_line_amended (M : CharModel) (text : List Char) : Bool :=
  let normalized := normalize_for_search M text
  let word_count := wordCount M normalized
  (3 ≤ word_count && word_count ≤ 90) &&
  contains_year_token normalized &&
  (5 ≤ word_count &&
    (2 ≤ text.count ',' ||
     (containsSeq normalized "journal".data || containsSeq normalized "university".data ||
      containsSeq normalized "postdoctoral".data || containsSeq normalized "vol ".data ||
      containsSeq normalized "edition".data || containsSeq normalized "press".data ||
      containsSeq normalized "retrieved".data || containsSeq normalized "archive".data) ||
     (containsSeq normalized "http".data || containsSeq normalized "doi".data)))

/-! ## Theorems

Helper lemmas first, then one theorem per claim (with witnesses and
counterexamples where required). -/

theorem trimRight_nil (M : CharModel) : trimRight M [] = [] := rfl

theorem trimRight_cons (M : CharModel) (c : Char) (l : List Char) :
    trimRight M (c :: l) =
      if trimRight M l = [] then (if M.isWs c then [] else [c])
      else c :: trimRight M l := by
  unfold trimRight
  rw [List.reverse_cons, List.dropWhile_append]
  by_cases h : (l.reverse.dropWhile M.isWs) = []
  · simp only [h, List.isEmpty_nil, if_true, List.reverse_nil, if_pos rfl,
      List.dropWhile_cons, List.dropWhile_nil]
    by_cases hw : M.isWs c
    · simp [hw]
    · simp [hw]
  · have h' : (l.reverse.dropWhile M.isWs).reverse ≠ [] := by
      simpa using h
    simp only [List.isEmpty_eq_true, h, if_false, if_neg h', List.reverse_append,
      List.reverse_cons, List.reverse_nil, List.nil_append, List.singleton_append]

theorem goodAppend (M : CharModel) {w t : List Char}
    (hw : w ≠ [])
    (hgood : ∀ d ∈ w, M.isAlnum d = true ∧ M.lowerChars d = [d] ∧ M.isWs d = false ∧ d ≠ ' ')
    (ht : okCore M false t) : ∀ b, okCore M b (w ++ t) := by
  induction w with
  | nil => exact absurd rfl hw
  | cons d w ih =>
    intro b
    obtain ⟨ha, hf, hws, hd⟩ := hgood d (List.mem_cons_self d w)
    have tail : okCore M false (w ++ t) := by
      cases w with
      | nil => simpa using ht
      | cons e w' =>
        exact ih (by simp) (fun x hx => hgood x (List.mem_cons_of_mem d hx)) false
    simpa [okCore, if_neg hd] using ⟨ha, hf, hws, tail⟩

theorem coreOk (M : CharModel) (h1 : M.isAlnum ' ' = false) :
    ∀ (x : List Char), (∀ c ∈ x, GoodChar M c) → ∀ b, okCore M b (normalizeCore M x b) := by
  intro x
  induction x with
  | nil => intro _ b; simp [normalizeCore, okCore]
  | cons c rest ih =>
    intro hx b
    have hrest : ∀ d ∈ rest, GoodChar M d := fun d hd => hx d (List.mem_cons_of_mem c hd)
    by_cases ha : M.isAlnum c = true
    · have hg := hx c (List.mem_cons_self c rest) ha
      have hgood : ∀ d ∈ M.lowerChars c,
          M.isAlnum d = true ∧ M.lowerChars d = [d] ∧ M.isWs d = false ∧ d ≠ ' ' := by
        intro d hd
        obtain ⟨hda, hdf, hdw⟩ := hg.2 d hd
        refine ⟨hda, hdf, hdw, ?_⟩
        intro he; rw [he] at hda; rw [hda] at h1; simp at h1
      have : normalizeCore M (c :: rest) b = M.lowerChars c ++ normalizeCore M rest false := by
        simp [normalizeCore, ha]
      rw [this]
      exact goodAppend M hg.1 hgood (ih hrest false) b
    · cases b with
      | true =>
        have : normalizeCore M (c :: rest) true = normalizeCore M rest true := by
          simp [normalizeCore, ha]
        rw [this]; exact ih hrest true
      | false =>
        have : normalizeCore M (c :: rest) false = ' ' :: normalizeCore M rest true := by
          simp [normalizeCore, ha]
        rw [this]
        simpa [okCore] using ih hrest true

theorem trimLeft_ok (M : CharModel) (h2 : M.isWs ' ' = true) :
    ∀ {l : List Char} {b : Bool}, okCore M b l → okCore M true (trimLeft M l) := by
  intro l b h
  cases l with
  | nil => simpa [trimLeft] using h
  | cons c rest =>
    by_cases hc : c = ' '
    · subst hc
      rw [okCore, if_pos rfl] at h
      rw [trimLeft, List.dropWhile_cons, if_pos h2]
      cases rest with
      | nil => simp [okCore]
      | cons d rest' =>
        by_cases hd : d = ' '
        · subst hd
          rw [okCore, if_pos rfl] at h
          exact absurd h.2.1 (by simp)
        · rw [okCore, if_neg hd] at h
          obtain ⟨hda, hdf, hdw, hrest⟩ := h.2
          rw [List.dropWhile_cons, if_neg (by simp [hdw])]
          rw [okCore, if_neg hd]
          exact ⟨hda, hdf, hdw, hrest⟩
    · rw [okCore, if_neg hc] at h
      obtain ⟨ha, hf, hw, hrest⟩ := h
      rw [trimLeft, List.dropWhile_cons, if_neg (by simp [hw])]
      rw [okCore, if_neg hc]
      exact ⟨ha, hf, hw, hrest⟩

theorem trimRight_okFull (M : CharModel) (h2 : M.isWs ' ' = true) :
    ∀ (l : List Char) (b : Bool), okCore M b l → okFull M b (trimRight M l) := by
  intro l
  induction l with
  | nil => intro b _; simp [trimRight, okFull]
  | cons c rest ih =>
    intro b h
    rw [trimRight_cons]
    by_cases hr : trimRight M rest = []
    · rw [if_pos hr]
      by_cases hc : c = ' '
      · subst hc
        rw [if_pos h2]; simp [okFull]
      · rw [okCore, if_neg hc] at h
        obtain ⟨ha, hf, hw, _⟩ := h
        rw [if_neg (by simp [hw])]
        rw [okFull, if_neg hc]
        exact ⟨ha, hf, hw, trivial⟩
    · rw [if_neg hr]
      by_cases hc : c = ' '
      · subst hc
        rw [okCore, if_pos rfl] at h
        rw [okFull, if_pos rfl]
        exact ⟨h.1, hr, ih true h.2⟩
      · rw [okCore, if_neg hc] at h
        obtain ⟨ha, hf, hw, hrest⟩ := h
        rw [okFull, if_neg hc]
        exact ⟨ha, hf, hw, ih false hrest⟩

theorem core_fix (M : CharModel) (h1 : M.isAlnum ' ' = false) :
    ∀ (l : List Char) (b : Bool), okFull M b l → normalizeCore M l b = l := by
  intro l
  induction l with
  | nil => intro b _; rfl
  | cons c rest ih =>
    intro b h
    by_cases hc : c = ' '
    · subst hc
      rw [okFull, if_pos rfl] at h
      obtain ⟨hb, -, hrest⟩ := h
      subst hb
      simp only [normalizeCore, h1, Bool.false_eq_true, if_false, if_neg (by simp : ¬False)]
      rw [ih true hrest]
    · rw [okFull, if_neg hc] at h
      obtain ⟨ha, hf, _, hrest⟩ := h
      simp only [normalizeCore, ha, if_true]
      rw [hf, ih false hrest]
      rfl

theorem trimRight_fix (M : CharModel) :
    ∀ (l : List Char) (b : Bool), okFull M b l → trimRight M l = l := by
  intro l
  induction l with
  | nil => intro b _; rfl
  | cons c rest ih =>
    intro b h
    rw [trimRight_cons]
    by_cases hc : c = ' '
    · subst hc
      rw [okFull, if_pos rfl] at h
      obtain ⟨-, hne, hrest⟩ := h
      rw [ih true hrest, if_neg hne]
    · rw [okFull, if_neg hc] at h
      obtain ⟨-, -, hw, hrest⟩ := h
      rw [ih false hrest]
      cases rest with
      | nil => simp [hw]
      | cons d rest' => simp

theorem trim_fix (M : CharModel) {l : List Char}
    (h : okFull M true l) : trimChars M l = l := by
  have hleft : trimLeft M l = l := by
    cases l with
    | nil => rfl
    | cons c rest =>
      by_cases hc : c = ' '
      · subst hc
        rw [okFull, if_pos rfl] at h
        exact absurd h.1 (by simp)
      · rw [okFull, if_neg hc] at h
        rw [trimLeft, List.dropWhile_cons, if_neg (by simp [h.2.2.1])]
  rw [trimChars, hleft]
  exact trimRight_fix M l true h

theorem okFull_any_b (M : CharModel) {l : List Char}
    (h : okFull M true l) : ∀ b, okFull M b l := by
  intro b
  cases l with
  | nil => trivial
  | cons c rest =>
    by_cases hc : c = ' '
    · subst hc
      rw [okFull, if_pos rfl] at h
      exact absurd h.1 (by simp)
    · rw [okFull, if_neg hc] at h ⊢
      exact h

/-- The shape of the normalizer output. -/
theorem normalize_okFull (M : CharModel) (h1 : M.isAlnum ' ' = false)
    (h2 : M.isWs ' ' = true) (x : List Char) (hx : ∀ c ∈ x, GoodChar M c) :
    okFull M true (normalize_for_search M x) := by
  unfold normalize_for_search trimChars
  exact trimRight_okFull M h2 _ true (trimLeft_ok M h2 (coreOk M h1 x hx false))

theorem okFull_chars (M : CharModel) :
    ∀ (l : List Char) (b : Bool), okFull M b l →
      ∀ c ∈ l, c = ' ' ∨ (M.isAlnum c = true ∧ M.lowerChars c = [c] ∧ M.isWs c = false) := by
  intro l
  induction l with
  | nil => intro b _ c hc; cases hc
  | cons d rest ih =>
    intro b h c hc
    by_cases hd : d = ' '
    · subst hd
      rw [okFull, if_pos rfl] at h
      rcases List.mem_cons.mp hc with hc | hc
      · exact Or.inl hc
      · exact ih true h.2.2 c hc
    · rw [okFull, if_neg hd] at h
      rcases List.mem_cons.mp hc with hc | hc
      · subst hc; exact Or.inr ⟨h.1, h.2.1, h.2.2.1⟩
      · exact ih false h.2.2.2 c hc

theorem okFull_no_double_space (M : CharModel) :
    ∀ (l : List Char) (b : Bool), okFull M b l → ¬ ([' ', ' '] <:+: l) := by
  intro l
  induction l with
  | nil => intro b _ h; simpa using h.length_le
  | cons c rest ih =>
    intro b h hinf
    rcases List.infix_cons_iff.mp hinf with hpre | hinf'
    · rcases List.cons_prefix_cons.mp hpre with ⟨hc, hpre'⟩
      subst hc
      rw [okFull, if_pos rfl] at h
      obtain ⟨t, ht⟩ := hpre'
      rw [List.singleton_append] at ht
      rw [← ht] at h
      have := h.2.2
      rw [okFull, if_pos rfl] at this
      exact absurd this.1 (by simp)
    · by_cases hc : c = ' '
      · subst hc
        rw [okFull, if_pos rfl] at h
        exact ih true h.2.2 hinf'
      · rw [okFull, if_neg hc] at h
        exact ih false h.2.2.2 hinf'

theorem okFull_head (M : CharModel) {l : List Char}
    (h : okFull M true l) : ∀ c, l.head? = some c → M.isWs c = false := by
  intro c hc
  cases l with
  | nil => cases hc
  | cons d rest =>
    have hd : d = c := by simpa using hc
    subst hd
    by_cases hd' : d = ' '
    · subst hd'
      rw [okFull, if_pos rfl] at h
      exact absurd h.1 (by simp)
    · rw [okFull, if_neg hd'] at h
      exact h.2.2.1

theorem okFull_getLast (M : CharModel) :
    ∀ (l : List Char) (b : Bool), okFull M b l →
      ∀ c, l.getLast? = some c → M.isWs c = false := by
  intro l
  induction l with
  | nil => intro b _ c hc; cases hc
  | cons d rest ih =>
    intro b h c hc
    cases rest with
    | nil =>
      have hd : d = c := by simpa using hc
      subst hd
      by_cases hd' : d = ' '
      · subst hd'
        rw [okFull, if_pos rfl] at h
        exact absurd h.2.1 (fun he => he rfl)
      · rw [okFull, if_neg hd'] at h
        exact h.2.2.1
    | cons e rest' =>
      have hc' : (e :: rest').getLast? = some c := by
        simpa [List.getLast?_cons_cons] using hc
      by_cases hd' : d = ' '
      · subst hd'
        rw [okFull, if_pos rfl] at h
        exact ih true h.2.2 c hc'
      · rw [okFull, if_neg hd'] at h
        exact ih false h.2.2.2 c hc'

/-- C4 (amended): on every string whose characters are benign for the
normalizer (`GoodChar`; all ASCII strings qualify), `normalize_for_search`
is idempotent and its output consists only of lower-cased (stable under
lowercasing) alphanumeric characters and single spaces, with no double
space and no leading or trailing whitespace. The unrestricted claim fails
on U+0130 (see the counterexample). -/
theorem normalize_idempotent_shape (M : CharModel)
    (h1 : M.isAlnum ' ' = false) (h2 : M.isWs ' ' = true)
    (x : List Char) (hx : ∀ c ∈ x, GoodChar M c) :
    normalize_for_search M (normalize_for_search M x) = normalize_for_search M x ∧
    (∀ c ∈ normalize_for_search M x,
      c = ' ' ∨ (M.isAlnum c = true ∧ M.lowerChars c = [c])) ∧
    ¬ ([' ', ' '] <:+: normalize_for_search M x) ∧
    (∀ c, (normalize_for_search M x).head? = some c → M.isWs c = false) ∧
    (∀ c, (normalize_for_search M x).getLast? = some c → M.isWs c = false) := by
  have hok := normalize_okFull M h1 h2 x hx
  refine ⟨?_, ?_, ?_, ?_, ?_⟩
  · have hdef : normalize_for_search M (normalize_for_search M x) =
        trimChars M (normalizeCore M (normalize_for_search M x) false) := rfl
    rw [hdef, core_fix M h1 _ false (okFull_any_b M hok false)]
    exact trim_fix M hok
  · intro c hc
    rcases okFull_chars M _ true hok c hc with h | h
    · exact Or.inl h
    · exact Or.inr ⟨h.1, h.2.1⟩
  · exact okFull_no_double_space M _ true hok
  · exact okFull_head M hok
  · exact okFull_getLast M _ true hok

/-- Witness for C4's amended theorem at the spec's own example input. -/
theorem normalize_idempotent_witness :
    (∀ c ∈ "  Hello, WORLD!!  ".data, GoodChar asciiModel c) ∧
    normalize_for_search asciiModel
        (normalize_for_search asciiModel "  Hello, WORLD!!  ".data) =
      normalize_for_search asciiModel "  Hello, WORLD!!  ".data :=
  ⟨by decide,
   (normalize_idempotent_shape asciiModel (by decide) (by decide) _ (by decide)).1⟩

/-- C4 counterexample: with the documented Unicode behaviour at U+0130
(`to_lowercase` yields `i` followed by the non-alphanumeric combining
dot above U+0307), the normalizer is not idempotent and its output is
not limited to alphanumerics and spaces. -/
theorem normalize_idempotent_counterexample :
    normalize_for_search unicodeRefModel
        (normalize_for_search unicodeRefModel [capitalIDot]) ≠
      normalize_for_search unicodeRefModel [capitalIDot] ∧
    ∃ c ∈ normalize_for_search unicodeRefModel [capitalIDot],
      ¬ (c = ' ' ∨ unicodeRefModel.isAlnum c = true) := by
  constructor
  · decide
  · exact ⟨combiningDot, by decide, by decide⟩

/-- C5 (amended): `is_probable_author_line` agrees everywhere with the
claimed characterization once the comma count is taken on the raw text
(the code's behaviour) instead of the normalized line; in particular a
line without a 4-digit year token in [1900, 2099] is never classified as
an author. -/
theorem author_line_characterization (M : CharModel) (text : List Char) :
    is_probable_author_line M text = author_line_amended M text ∧
    (contains_year_token (normalize_for_search M text) = false →
      is_probable_author_line M text = false) := by
  constructor
  · unfold is_probable_author_line author_line_amended
    by_cases hempty : normalize_for_search M text = []
    · simp [hempty, wordCount, wordCountAux]
    · rw [if_neg (by simpa [List.isEmpty_iff] using hempty)]
      cases hb3 : decide (3 ≤ wordCount M (normalize_for_search M text)) <;>
      cases hb90 : decide (wordCount M (normalize_for_search M text) ≤ 90) <;>
      cases hy : contains_year_token (normalize_for_search M text) <;>
      cases h5 : decide (5 ≤ wordCount M (normalize_for_search M text)) <;>
      cases hcm : decide (2 ≤ List.count ',' text) <;>
        simp [hb3, hb90, hy, h5, hcm, Bool.and_comm]
  · intro hy
    unfold is_probable_author_line
    by_cases hempty : normalize_for_search M text = []
    · simp [hempty]
    · rw [if_neg (by simpa [List.isEmpty_iff] using hempty)]
      cases hb3 : decide (3 ≤ wordCount M (normalize_for_search M text)) <;>
      cases hb90 : decide (wordCount M (normalize_for_search M text) ≤ 90) <;>
        simp [hb3, hb90, hy]

/-- Witness for C5's amended theorem: a plain line with no year is not an
author line. -/
theorem author_line_witness :
    contains_year_token (normalize_for_search asciiModel "Plain heading paragraph".data) =
      false ∧
    is_probable_author_line asciiModel "Plain heading paragraph".data = false :=
  ⟨by decide, (author_line_characterization asciiModel _).2 (by decide)⟩

/-- C5 counterexample: a line whose commas appear only in the raw text is
classified as an author by the code but not by the claim as stated (the
normalized line contains no comma). -/
theorem author_line_counterexample :
    is_probable_author_line asciiModel "a, b, c, d 1999".data = true ∧
    author_line_claim asciiModel "a, b, c, d 1999".data = false := by
  constructor <;> decide

theorem mem_headingIndices {paragraphs : List ParsedParagraph} {j : Nat} :
    j ∈ headingIndices paragraphs ↔
      j < paragraphs.length ∧ (headingLevelAt paragraphs j).isSome := by
  simp [headingIndices, List.mem_filter, List.mem_range]

theorem headingIndices_sorted (paragraphs : List ParsedParagraph) :
    (headingIndices paragraphs).Pairwise (· < ·) :=
  (List.pairwise_lt_range _).filter _

/-- Structure of the inner scan: either no candidate is a boundary and the
scan falls through to the file length, or the result is the first
boundary candidate. -/
theorem rangeEnd_spec (M : CharModel) (paragraphs : List ParsedParagraph) (L : Int) :
    ∀ cands : List Nat,
      (rangeEnd M paragraphs L cands = paragraphs.length ∧
        ∀ j ∈ cands, ¬ IsBoundary M paragraphs L j) ∨
      (∃ pre post, cands = pre ++ rangeEnd M paragraphs L cands :: post ∧
        IsBoundary M paragraphs L (rangeEnd M paragraphs L cands) ∧
        ∀ j ∈ pre, ¬ IsBoundary M paragraphs L j) := by
  intro cands
  induction cands with
  | nil => exact Or.inl ⟨rfl, by simp⟩
  | cons j rest ih =>
    by_cases hlv : ∃ cl, headingLevelAt paragraphs j = some cl
    · obtain ⟨cl, hcl⟩ := hlv
      by_cases hauth : is_probable_author_line M (textAt paragraphs j) = true
      · have hnb : ¬ IsBoundary M paragraphs L j := by
          rintro ⟨cl', hcl', hna, -⟩
          rw [hauth] at hna; cases hna
        have heq : rangeEnd M paragraphs L (j :: rest) = rangeEnd M paragraphs L rest := by
          simp [rangeEnd, hcl, hauth]
        rw [heq]
        rcases ih with ⟨h1, h2⟩ | ⟨pre, post, hsplit, hb, hpre⟩
        · refine Or.inl ⟨h1, ?_⟩
          intro x hx
          rcases List.mem_cons.mp hx with hx | hx
          · subst hx; exact hnb
          · exact h2 x hx
        · exact Or.inr ⟨j :: pre, post, by rw [List.cons_append, ← hsplit],
            hb, by
              intro x hx
              rcases List.mem_cons.mp hx with hx | hx
              · subst hx; exact hnb
              · exact hpre x hx⟩
      · rw [Bool.not_eq_true] at hauth
        by_cases hle : cl ≤ L
        · have heq : rangeEnd M paragraphs L (j :: rest) = j := by
            simp [rangeEnd, hcl, hauth, hle]
          rw [heq]
          exact Or.inr ⟨[], rest, rfl, ⟨cl, hcl, hauth, hle⟩, by simp⟩
        · have hnb : ¬ IsBoundary M paragraphs L j := by
            rintro ⟨cl', hcl', -, hle'⟩
            rw [hcl] at hcl'
            exact hle (Option.some_inj.mp hcl' ▸ hle')
          have heq : rangeEnd M paragraphs L (j :: rest) = rangeEnd M paragraphs L rest := by
            simp [rangeEnd, hcl, hauth, hle]
          rw [heq]
          rcases ih with ⟨h1, h2⟩ | ⟨pre, post, hsplit, hb, hpre⟩
          · refine Or.inl ⟨h1, ?_⟩
            intro x hx
            rcases List.mem_cons.mp hx with hx | hx
            · subst hx; exact hnb
            · exact h2 x hx
          · exact Or.inr ⟨j :: pre, post, by rw [List.cons_append, ← hsplit],
              hb, by
                intro x hx
                rcases List.mem_cons.mp hx with hx | hx
                · subst hx; exact hnb
                · exact hpre x hx⟩
    · have hnone : headingLevelAt paragraphs j = none := by
        cases h : headingLevelAt paragraphs j with
        | none => rfl
        | some cl => exact absurd ⟨cl, h⟩ hlv
      have hnb : ¬ IsBoundary M paragraphs L j := by
        rintro ⟨cl', hcl', -, -⟩
        rw [hnone] at hcl'; cases hcl'
      have heq : rangeEnd M paragraphs L (j :: rest) = rangeEnd M paragraphs L rest := by
        simp [rangeEnd, hnone]
      rw [heq]
      rcases ih with ⟨h1, h2⟩ | ⟨pre, post, hsplit, hb, hpre⟩
      · refine Or.inl ⟨h1, ?_⟩
        intro x hx
        rcases List.mem_cons.mp hx with hx | hx
        · subst hx; exact hnb
        · exact h2 x hx
      · exact Or.inr ⟨j :: pre, post, by rw [List.cons_append, ← hsplit],
          hb, by
            intro x hx
            rcases List.mem_cons.mp hx with hx | hx
            · subst hx; exact hnb
            · exact hpre x hx⟩

theorem buildRangesGo_starts (M : CharModel) (paragraphs : List ParsedParagraph) :
    ∀ cands : List Nat, (∀ j ∈ cands, (headingLevelAt paragraphs j).isSome) →
      (buildRangesGo M paragraphs cands).map (·.start_index) = cands := by
  intro cands
  induction cands with
  | nil => intro _; rfl
  | cons i rest ih =>
    intro h
    obtain ⟨L, hL⟩ := Option.isSome_iff_exists.mp (h i (List.mem_cons_self i rest))
    have heq : buildRangesGo M paragraphs (i :: rest) =
        { order := orderAt paragraphs i, level := L, start_index := i,
          end_index := rangeEnd M paragraphs L rest } ::
        buildRangesGo M paragraphs rest := by
      simp [buildRangesGo, hL]
    rw [heq, List.map_cons, ih (fun j hj => h j (List.mem_cons_of_mem i hj))]

theorem buildRangesGo_mem (M : CharModel) (paragraphs : List ParsedParagraph) :
    ∀ cands : List Nat, ∀ r ∈ buildRangesGo M paragraphs cands,
      ∃ pre post, cands = pre ++ r.start_index :: post ∧
        headingLevelAt paragraphs r.start_index = some r.level ∧
        r.order = orderAt paragraphs r.start_index ∧
        r.end_index = rangeEnd M paragraphs r.level post := by
  intro cands
  induction cands with
  | nil => intro r hr; cases hr
  | cons i rest ih =>
    intro r hr
    cases hL : headingLevelAt paragraphs i with
    | none =>
      have heq : buildRangesGo M paragraphs (i :: rest) = buildRangesGo M paragraphs rest := by
        simp [buildRangesGo, hL]
      rw [heq] at hr
      obtain ⟨pre, post, hsplit, h1, h2, h3⟩ := ih r hr
      exact ⟨i :: pre, post, by rw [List.cons_append, ← hsplit], h1, h2, h3⟩
    | some L =>
      have heq : buildRangesGo M paragraphs (i :: rest) =
          { order := orderAt paragraphs i, level := L, start_index := i,
            end_index := rangeEnd M paragraphs L rest } ::
          buildRangesGo M paragraphs rest := by
        simp [buildRangesGo, hL]
      rw [heq] at hr
      rcases List.mem_cons.mp hr with hr | hr
      · subst hr
        exact ⟨[], rest, rfl, hL, rfl, rfl⟩
      · obtain ⟨pre, post, hsplit, h1, h2, h3⟩ := ih r hr
        exact ⟨i :: pre, post, by rw [List.cons_append, ← hsplit], h1, h2, h3⟩

/-- C1 (amended): `build_heading_ranges` emits one range per heading
paragraph, in order (their start indices are exactly the heading
indices); every range satisfies `start_index < end_index ≤ length`, and
`end_index` is the first later heading index whose level is `≤` the
range's level and whose text is not a probable author line, or the
sequence length when none exists. Under the parser invariant that no
heading paragraph is itself a probable author line, ranges at the same
level never overlap; without that invariant they can (see the
counterexample). -/
theorem heading_ranges_spec (M : CharModel) (paragraphs : List ParsedParagraph) :
    (build_heading_ranges M paragraphs).map (·.start_index) = headingIndices paragraphs ∧
    (∀ r ∈ build_heading_ranges M paragraphs,
      headingLevelAt paragraphs r.start_index = some r.level ∧
      r.order = orderAt paragraphs r.start_index ∧
      r.start_index < r.end_index ∧ r.end_index ≤ paragraphs.length ∧
      ((r.end_index = paragraphs.length ∧
          ∀ j, r.start_index < j → j < paragraphs.length →
            ¬ IsBoundary M paragraphs r.level j) ∨
        (IsBoundary M paragraphs r.level r.end_index ∧
          ∀ j, r.start_index < j → j < r.end_index →
            ¬ IsBoundary M paragraphs r.level j))) ∧
    ((∀ p ∈ paragraphs, p.heading_level.isSome → is_probable_author_line M p.text = false) →
      ∀ r1 ∈ build_heading_ranges M paragraphs, ∀ r2 ∈ build_heading_ranges M paragraphs,
        r1.level = r2.level → r1 ≠ r2 →
        r1.end_index ≤ r2.start_index ∨ r2.end_index ≤ r1.start_index) := by
  have hall : ∀ j ∈ headingIndices paragraphs, (headingLevelAt paragraphs j).isSome :=
    fun j hj => (mem_headingIndices.mp hj).2
  have hstarts := buildRangesGo_starts M paragraphs _ hall
  have hsorted := headingIndices_sorted paragraphs
  have hfacts : ∀ r ∈ build_heading_ranges M paragraphs,
      headingLevelAt paragraphs r.start_index = some r.level ∧
      r.order = orderAt paragraphs r.start_index ∧
      r.start_index < r.end_index ∧ r.end_index ≤ paragraphs.length ∧
      ((r.end_index = paragraphs.length ∧
          ∀ j, r.start_index < j → j < paragraphs.length →
            ¬ IsBoundary M paragraphs r.level j) ∨
        (IsBoundary M paragraphs r.level r.end_index ∧
          ∀ j, r.start_index < j → j < r.end_index →
            ¬ IsBoundary M paragraphs r.level j)) := by
    intro r hr
    obtain ⟨pre, post, hsplit, hlvl, horder, hend⟩ := buildRangesGo_mem M paragraphs _ r hr
    have hstart_mem : r.start_index ∈ headingIndices paragraphs := by
      rw [hsplit]; exact List.mem_append_right pre (List.mem_cons_self _ _)
    have hstart_lt : r.start_index < paragraphs.length := (mem_headingIndices.mp hstart_mem).1
    have hsplit_pw := hsplit ▸ hsorted
    have hpost_gt : ∀ j ∈ post, r.start_index < j := by
      intro j hj
      have := (List.pairwise_append.mp hsplit_pw).2.1
      exact (List.pairwise_cons.mp this).1 j hj
    have hpost_pw : post.Pairwise (· < ·) :=
      (List.pairwise_cons.mp (List.pairwise_append.mp hsplit_pw).2.1).2
    have hmem_post : ∀ j, r.start_index < j → j < paragraphs.length →
        (headingLevelAt paragraphs j).isSome → j ∈ post := by
      intro j hgt hlt hsome
      have hj : j ∈ headingIndices paragraphs := mem_headingIndices.mpr ⟨hlt, hsome⟩
      rw [hsplit] at hj
      rcases List.mem_append.mp hj with hj | hj
      · have := (List.pairwise_append.mp hsplit_pw).2.2 j hj r.start_index
          (List.mem_cons_self _ _)
        omega
      · rcases List.mem_cons.mp hj with hj | hj
        · omega
        · exact hj
    refine ⟨hlvl, horder, ?_⟩
    set e := rangeEnd M paragraphs r.level post with he
    rcases rangeEnd_spec M paragraphs r.level post with ⟨heq, hnone⟩ | ⟨pre', post', hsplit', hbound, hpre'⟩
    · rw [← he] at heq
      rw [hend, heq]
      refine ⟨hstart_lt, le_refl _, Or.inl ⟨rfl, ?_⟩⟩
      intro j hgt hlt hb
      rcases id hb with ⟨cl, hcl, -, -⟩
      exact hnone j (hmem_post j hgt hlt (by simp [hcl])) hb
    · rw [← he] at hsplit' hbound
      have hend_mem_post : e ∈ post := by
        rw [hsplit']; exact List.mem_append_right pre' (List.mem_cons_self _ _)
      have hend_mem : e ∈ headingIndices paragraphs := by
        rw [hsplit]
        exact List.mem_append_right pre (List.mem_cons_of_mem _ hend_mem_post)
      have hend_lt : e < paragraphs.length :=
        (mem_headingIndices.mp hend_mem).1
      have hstart_lt_end : r.start_index < e :=
        hpost_gt _ hend_mem_post
      rw [hend]
      refine ⟨hstart_lt_end, le_of_lt hend_lt, Or.inr ⟨hbound, ?_⟩⟩
      intro j hgt hlt hb
      rcases id hb with ⟨cl, hcl, -, -⟩
      have hj_post : j ∈ post :=
        hmem_post j hgt (lt_trans hlt hend_lt) (by simp [hcl])
      rw [hsplit'] at hj_post
      rcases List.mem_append.mp hj_post with hj | hj
      · exact hpre' j hj hb
      · rcases List.mem_cons.mp hj with hj | hj
        · omega
        · have hpw := hsplit' ▸ hpost_pw
          have := (List.pairwise_cons.mp (List.pairwise_append.mp hpw).2.1).1 j hj
          omega
  refine ⟨hstarts, hfacts, ?_⟩
  intro H r1 hr1 r2 hr2 hlv hne
  have hnodup : (headingIndices paragraphs).Nodup := hsorted.nodup
  have hinj := List.inj_on_of_nodup_map (f := fun r : HeadingRange => r.start_index)
    (l := build_heading_ranges M paragraphs) (hstarts ▸ hnodup)
  have hkey : ∀ ra ∈ build_heading_ranges M paragraphs,
      ∀ rb ∈ build_heading_ranges M paragraphs, ra.level = rb.level →
      ra.start_index < rb.start_index → ra.end_index ≤ rb.start_index := by
    intro ra hra rb hrb hlvab hlt
    obtain ⟨hlvlb, -, -, -, -⟩ := hfacts rb hrb
    have hb_mem : rb.start_index ∈ headingIndices paragraphs := by
      apply mem_headingIndices.mpr
      refine ⟨?_, by simp [hlvlb]⟩
      obtain ⟨-, -, -, hle, -⟩ := hfacts rb hrb
      obtain ⟨-, -, hlt', -, -⟩ := hfacts rb hrb
      omega
    obtain ⟨p, hp⟩ : ∃ p, paragraphs.get? rb.start_index = some p := by
      cases h : paragraphs.get? rb.start_index with
      | none =>
        rw [headingLevelAt, h] at hlvlb
        cases hlvlb
      | some p => exact ⟨p, rfl⟩
    have hp_lvl : p.heading_level = some rb.level := by
      rw [headingLevelAt, hp] at hlvlb
      exact hlvlb
    have hp_mem : p ∈ paragraphs := List.get?_mem hp
    have hp_auth : is_probable_author_line M p.text = false :=
      H p hp_mem (by simp [hp_lvl])
    have hb_bound : IsBoundary M paragraphs ra.level rb.start_index := by
      refine ⟨rb.level, hlvlb, ?_, le_of_eq hlvab.symm⟩
      rw [textAt, hp]
      simpa using hp_auth
    obtain ⟨-, -, -, -, hchar⟩ := hfacts ra hra
    rcases hchar with ⟨heq, hnone⟩ | ⟨-, hnone⟩
    · exact absurd hb_bound (hnone _ hlt (mem_headingIndices.mp hb_mem).1)
    · by_contra hcon
      exact hnone _ hlt (lt_of_not_le hcon) hb_bound
  rcases lt_trichotomy r1.start_index r2.start_index with h | h | h
  · exact Or.inl (hkey r1 hr1 r2 hr2 hlv h)
  · exact absurd (hinj hr1 hr2 h) hne
  · exact Or.inr (hkey r2 hr2 r1 hr1 hlv.symm h)

/-- Witness for C1's amended theorem: a two-heading file with no
author-like heading has disjoint level-1 ranges. -/
theorem heading_ranges_witness :
    (∀ p ∈ [(⟨1, "One".data, some 1, none, false⟩ : ParsedParagraph),
            ⟨2, "Body".data, none, none, false⟩,
            ⟨3, "Two".data, some 1, none, false⟩],
        p.heading_level.isSome → is_probable_author_line asciiModel p.text = false) ∧
    ((⟨1, 1, 0, 2⟩ : HeadingRange).end_index ≤ (⟨3, 1, 2, 3⟩ : HeadingRange).start_index ∨
      (⟨3, 1, 2, 3⟩ : HeadingRange).end_index ≤ (⟨1, 1, 0, 2⟩ : HeadingRange).start_index) :=
  ⟨by decide,
   (heading_ranges_spec asciiModel
      [⟨1, "One".data, some 1, none, false⟩,
       ⟨2, "Body".data, none, none, false⟩,
       ⟨3, "Two".data, some 1, none, false⟩]).2.2
     (by decide) ⟨1, 1, 0, 2⟩ (by decide) ⟨3, 1, 2, 3⟩ (by decide) rfl (by decide)⟩

/-- C1 counterexample: for a paragraph sequence (not produced by the
parser) in which a heading paragraph is itself a probable author line,
two level-1 ranges overlap: the ranges are `[0,2)` and `[1,2)`. -/
theorem heading_ranges_counterexample :
    ∃ r1 ∈ build_heading_ranges asciiModel
        [⟨1, "Intro".data, some 1, none, false⟩,
         ⟨2, "a, b, c, d 1999".data, some 1, none, false⟩],
      ∃ r2 ∈ build_heading_ranges asciiModel
        [⟨1, "Intro".data, some 1, none, false⟩,
         ⟨2, "a, b, c, d 1999".data, some 1, none, false⟩],
      r1.level = r2.level ∧ r1 ≠ r2 ∧
      ¬ (r1.end_index ≤ r2.start_index ∨ r2.end_index ≤ r1.start_index) := by
  decide

theorem splitOnSlash_no_slash :
    ∀ (l acc : List Char), (∀ c ∈ acc, c ≠ '/') →
      ∀ seg ∈ splitOnSlash l acc, ∀ c ∈ seg, c ≠ '/' := by
  intro l
  induction l with
  | nil =>
    intro acc hacc seg hseg c hc
    rcases List.mem_cons.mp hseg with h | h
    · subst h; exact hacc c (List.mem_reverse.mp hc)
    · cases h
  | cons d rest ih =>
    intro acc hacc seg hseg c hc
    by_cases hd : d = '/'
    · rw [splitOnSlash, if_pos hd] at hseg
      rcases List.mem_cons.mp hseg with h | h
      · subst h; exact hacc c (List.mem_reverse.mp hc)
      · exact ih [] (by simp) seg h c hc
    · rw [splitOnSlash, if_neg hd] at hseg
      refine ih (d :: acc) ?_ seg hseg c hc
      intro x hx
      rcases List.mem_cons.mp hx with hx | hx
      · subst hx; exact hd
      · exact hacc x hx

theorem relComponents_mem :
    ∀ (parts segs : List (List Char)), relComponents parts = .ok segs →
      ∀ seg ∈ segs, seg ∈ parts ∧ seg ≠ [] := by
  intro parts
  induction parts with
  | nil =>
    intro segs h seg hseg
    rw [relComponents] at h
    cases h
    cases hseg
  | cons p rest ih =>
    intro segs h seg hseg
    by_cases hskip : p = [] ∨ p = ['.']
    · rw [relComponents, if_pos hskip] at h
      obtain ⟨hmem, hne⟩ := ih segs h seg hseg
      exact ⟨List.mem_cons_of_mem p hmem, hne⟩
    · by_cases hdd : p = ['.', '.']
      · rw [relComponents, if_neg hskip, if_pos hdd] at h
        cases h
      · rw [relComponents, if_neg hskip, if_neg hdd] at h
        cases hrec : relComponents rest with
        | error e => rw [hrec] at h; cases h
        | ok segs' =>
          rw [hrec] at h
          cases h
          rcases List.mem_cons.mp hseg with hs | hs
          · subst hs
            refine ⟨List.mem_cons_self _ _, ?_⟩
            intro he
            exact hskip (Or.inl he)
          · obtain ⟨hmem, hne⟩ := ih segs' hrec seg hs
            exact ⟨List.mem_cons_of_mem p hmem, hne⟩

theorem relComponents_error_of_parent :
    ∀ parts : List (List Char), (∃ seg ∈ parts, seg = ['.', '.']) →
      ∃ e, relComponents parts = .error e := by
  intro parts
  induction parts with
  | nil => rintro ⟨seg, hmem, -⟩; cases hmem
  | cons p rest ih =>
    rintro ⟨seg, hmem, hdd⟩
    subst hdd
    by_cases hskip : p = [] ∨ p = ['.']
    · rcases List.mem_cons.mp hmem with h | h
      · rcases hskip with h' | h' <;> (rw [h'] at h; cases h)
      · obtain ⟨e, he⟩ := ih ⟨_, h, rfl⟩
        exact ⟨e, by rw [relComponents, if_pos hskip, he]⟩
    · by_cases hdd' : p = ['.', '.']
      · exact ⟨_, by rw [relComponents, if_neg hskip, if_pos hdd']⟩
      · rcases List.mem_cons.mp hmem with h | h
        · exact absurd h.symm hdd'
        · obtain ⟨e, he⟩ := ih ⟨_, h, rfl⟩
          refine ⟨e, ?_⟩
          rw [relComponents, if_neg hskip, if_neg hdd', he]

theorem splitOnSlash_append_free :
    ∀ (x l acc : List Char), (∀ c ∈ x, c ≠ '/') →
      splitOnSlash (x ++ l) acc = splitOnSlash l (x.reverse ++ acc) := by
  intro x
  induction x with
  | nil => intro l acc _; simp
  | cons c x ih =>
    intro l acc hx
    have hc : c ≠ '/' := hx c (List.mem_cons_self c x)
    rw [List.cons_append, splitOnSlash, if_neg hc,
      ih l (c :: acc) (fun d hd => hx d (List.mem_cons_of_mem c hd))]
    simp

theorem splitOnSlash_intercalate :
    ∀ segs : List (List Char), segs ≠ [] →
      (∀ seg ∈ segs, seg ≠ [] ∧ ∀ c ∈ seg, c ≠ '/') →
      splitOnSlash (List.intercalate ['/'] segs) [] = segs := by
  intro segs
  induction segs with
  | nil => intro h _; exact absurd rfl h
  | cons x rest ih =>
    intro _ hall
    cases rest with
    | nil =>
      have hx := hall x (List.mem_cons_self x [])
      have hinter : List.intercalate ['/'] [x] = x := by
        simp [List.intercalate]
      rw [hinter]
      have := splitOnSlash_append_free x [] [] hx.2
      rw [List.append_nil] at this
      rw [this]
      simp [splitOnSlash]
    | cons y rest' =>
      have hx := hall x (List.mem_cons_self x _)
      have hinter : List.intercalate ['/'] (x :: y :: rest') =
          x ++ '/' :: List.intercalate ['/'] (y :: rest') := by
        simp [List.intercalate, List.intersperse]
      rw [hinter, splitOnSlash_append_free x _ [] hx.2, List.append_nil,
        splitOnSlash, if_pos rfl, List.reverse_reverse]
      rw [ih (by simp) (fun seg hseg => hall seg (List.mem_cons_of_mem x hseg))]

theorem lastNonemptyIdx_concat (t : List (List Char)) (a : List Char) (ha : a ≠ []) :
    lastNonemptyIdx (t ++ [a]) = some ((t ++ [a]).length - 1) ∧
    ((t ++ [a]).drop ((t ++ [a]).length - 1)).headD [] = a := by
  have hrev : (t ++ [a]).reverse = a :: t.reverse := by simp
  constructor
  · rw [lastNonemptyIdx, hrev, List.findIdx?_cons]
    simp [ha]
  · have hlen : (t ++ [a]).length - 1 = t.length := by simp
    rw [hlen, List.drop_left]
    rfl

theorem splitFileAtDot_fst_ne {name : List Char} (h : name ≠ []) :
    (splitFileAtDot name).1 ≠ [] := by
  unfold splitFileAtDot
  split_ifs with h1 h2 h3
  · exact h1 ▸ (by simp)
  · exact h
  · exact h
  · exact h3

theorem splitFileAtDot_fst_sub (name : List Char) :
    ∀ c ∈ (splitFileAtDot name).1, c ∈ name := by
  unfold splitFileAtDot
  split_ifs with h1 h2 h3 <;> intro c hc
  · exact hc
  · exact hc
  · exact hc
  · exact List.take_subset _ _ hc

theorem splitFileAtDot_fst_headq {name : List Char} (h : name ≠ []) :
    (splitFileAtDot name).1.head? = name.head? := by
  unfold splitFileAtDot
  split_ifs with h1 h2 h3
  · rfl
  · rfl
  · rfl
  · cases hk : name.length - (name.reverse.takeWhile (· ≠ '.')).length - 1 with
    | zero => rw [hk] at h3; exact absurd rfl h3
    | succ k =>
      cases name with
      | nil => exact absurd rfl h
      | cons c cs => rfl

theorem setExtensionSeg_splits {name : List Char} (h : name ≠ []) :
    splitFileAtDot (setExtensionSeg name "docx".data) =
      ((splitFileAtDot name).1, some "docx".data) := by
  have hstem : (splitFileAtDot name).1 ≠ [] := splitFileAtDot_fst_ne h
  set stem := (splitFileAtDot name).1 with hs
  have hform : setExtensionSeg name "docx".data = stem ++ ['.', 'd', 'o', 'c', 'x'] := rfl
  rw [hform]
  have hlen5 : (stem ++ ['.', 'd', 'o', 'c', 'x']).length = stem.length + 5 := by simp
  have hnotdd : stem ++ ['.', 'd', 'o', 'c', 'x'] ≠ ['.', '.'] := by
    intro he
    have := congrArg List.length he
    rw [hlen5] at this
    simp at this
  have hrev : (stem ++ ['.', 'd', 'o', 'c', 'x']).reverse =
      ['x', 'c', 'o', 'd', '.'] ++ stem.reverse := by
    simp
  have htake : (['x', 'c', 'o', 'd', '.'] ++ stem.reverse).takeWhile (· ≠ '.') =
      ['x', 'c', 'o', 'd'] := by
    simp [List.takeWhile_cons]
  unfold splitFileAtDot
  rw [if_neg hnotdd, hrev, htake]
  have hne4 : ¬ ((['x', 'c', 'o', 'd'] : List Char).length =
      (stem ++ ['.', 'd', 'o', 'c', 'x']).length) := by
    rw [hlen5]
    simp
  rw [if_neg hne4]
  have htake2 : (stem ++ ['.', 'd', 'o', 'c', 'x']).take
      ((stem ++ ['.', 'd', 'o', 'c', 'x']).length -
        (['x', 'c', 'o', 'd'] : List Char).length - 1) = stem := by
    rw [hlen5]
    have : stem.length + 5 - (['x', 'c', 'o', 'd'] : List Char).length - 1 = stem.length := by
      simp
    rw [this]
    exact List.take_left stem _
  rw [htake2, if_neg hstem]
  rfl

theorem setExtensionSeg_hasExt {name : List Char} (h : name ≠ []) :
    hasExtSeg (setExtensionSeg name "docx".data) "docx".data = true := by
  rw [hasExtSeg, setExtensionSeg_splits h]
  show eqIgnoreAsciiCase "docx".data "docx".data = true
  decide

theorem setExtensionSeg_headq {name : List Char} (ext : List Char) (h : name ≠ []) :
    (setExtensionSeg name ext).head? = name.head? := by
  rw [setExtensionSeg]
  have hstem : (splitFileAtDot name).1 ≠ [] := splitFileAtDot_fst_ne h
  cases hc : (splitFileAtDot name).1 with
  | nil => exact absurd hc hstem
  | cons c cs =>
    have := splitFileAtDot_fst_headq h
    rw [hc] at this
    rw [← this]
    rfl

theorem setExtensionSeg_ne {name : List Char} (ext : List Char) :
    setExtensionSeg name ext ≠ [] := by
  rw [setExtensionSeg]
  intro he
  have := congrArg List.length he
  simp at this

theorem setExtensionSeg_no_slash {name ext : List Char}
    (hn : ∀ c ∈ name, c ≠ '/') (he : ∀ c ∈ ext, c ≠ '/') :
    ∀ c ∈ setExtensionSeg name ext, c ≠ '/' := by
  intro c hc
  rw [setExtensionSeg] at hc
  rcases List.mem_append.mp hc with hc | hc
  · exact hn c (splitFileAtDot_fst_sub name c hc)
  · rcases List.mem_cons.mp hc with hc | hc
    · subst hc; decide
    · exact he c hc

theorem isAbsolutePath_of_headq {l : List Char} {c : Char}
    (h : l.head? = some c) (hc : c ≠ '/') : isAbsolutePath l = false := by
  cases l with
  | nil => cases h
  | cons d rest =>
    have : d = c := by simpa using h
    subst this
    simp [isAbsolutePath, hc]

theorem intercalate_headq (x : List Char) (rest : List (List Char)) (hx : x ≠ []) :
    (List.intercalate ['/'] (x :: rest)).head? = x.head? := by
  cases rest with
  | nil =>
    have : List.intercalate ['/'] [x] = x := by simp [List.intercalate]
    rw [this]
  | cons y rest' =>
    have hinter : List.intercalate ['/'] (x :: y :: rest') =
        x ++ '/' :: List.intercalate ['/'] (y :: rest') := by
      simp [List.intercalate, List.intersperse]
    rw [hinter]
    cases x with
    | nil => exact absurd rfl hx
    | cons c cs => rfl

theorem ensureDocxPath_eq (raw : List Char) (t : List (List Char)) (a : List Char)
    (h : splitOnSlash raw [] = t ++ [a]) (ha : a ≠ []) :
    ensureDocxPath raw =
      (if hasExtSeg a "docx".data then raw else withExtensionPath raw "docx".data) ∧
    withExtensionPath raw "docx".data =
      List.intercalate ['/'] (t ++ [setExtensionSeg a "docx".data]) ∧
    lastSegOf raw = a := by
  obtain ⟨hidx, hhead⟩ := lastNonemptyIdx_concat t a ha
  have htake : (t ++ [a]).take ((t ++ [a]).length - 1) = t := by
    have hlen : (t ++ [a]).length - 1 = t.length := by simp
    rw [hlen]
    exact List.take_left t [a]
  have hdrop : ((t ++ [a]).drop ((t ++ [a]).length - 1)).headD [] = a := hhead
  refine ⟨?_, ?_, ?_⟩
  · show (match lastNonemptyIdx (splitOnSlash raw []) with
      | none => raw
      | some k =>
        if hasExtSeg (((splitOnSlash raw []).drop k).headD []) "docx".data then raw
        else withExtensionPath raw "docx".data) = _
    rw [h, hidx]
    show (if hasExtSeg (((t ++ [a]).drop ((t ++ [a]).length - 1)).headD []) "docx".data
        then raw else withExtensionPath raw "docx".data) = _
    rw [hdrop]
  · show (match lastNonemptyIdx (splitOnSlash raw []) with
      | none => raw
      | some k =>
        List.intercalate ['/']
          (((splitOnSlash raw []).take k) ++
            [setExtensionSeg (((splitOnSlash raw []).drop k).headD []) "docx".data])) = _
    rw [h, hidx]
    show List.intercalate ['/']
        (((t ++ [a]).take ((t ++ [a]).length - 1)) ++
          [setExtensionSeg (((t ++ [a]).drop ((t ++ [a]).length - 1)).headD [])
            "docx".data]) = _
    rw [hdrop, htake]
  · show (match lastNonemptyIdx (splitOnSlash raw []) with
      | none => []
      | some k => ((splitOnSlash raw []).drop k).headD []) = _
    rw [h, hidx]
    show ((t ++ [a]).drop ((t ++ [a]).length - 1)).headD [] = _
    rw [hdrop]

theorem intercalate_not_abs (l : List (List Char)) (hne : l ≠ [])
    (hall : ∀ seg ∈ l, seg ≠ [] ∧ ∀ c ∈ seg, c ≠ '/') :
    isAbsolutePath (List.intercalate ['/'] l) = false := by
  cases l with
  | nil => exact absurd rfl hne
  | cons x rest =>
    obtain ⟨hx, hxs⟩ := hall x (List.mem_cons_self _ _)
    cases x with
    | nil => exact absurd rfl hx
    | cons c cs =>
      have hh : (List.intercalate ['/'] ((c :: cs) :: rest)).head? = some c := by
        rw [intercalate_headq _ _ (by simp)]; rfl
      exact isAbsolutePath_of_headq hh (hxs c (List.mem_cons_self _ _))

theorem ensureDocx_join (segs : List (List Char)) (hne : segs ≠ [])
    (hall : ∀ seg ∈ segs, seg ≠ [] ∧ ∀ c ∈ seg, c ≠ '/') :
    isAbsolutePath (ensureDocxPath (List.intercalate ['/'] segs)) = false ∧
    hasExtSeg (lastSegOf (ensureDocxPath (List.intercalate ['/'] segs))) "docx".data = true := by
  cases hrev : segs.reverse with
  | nil =>
    exact absurd (by simpa using congrArg List.reverse hrev) hne
  | cons a trev =>
    have hsegs : segs = trev.reverse ++ [a] := by
      have := congrArg List.reverse hrev
      simpa using this
    have hamem : a ∈ segs := by
      rw [hsegs]; exact List.mem_append_right _ (by simp)
    have ha := hall a hamem
    have hsplit : splitOnSlash (List.intercalate ['/'] segs) [] = trev.reverse ++ [a] := by
      rw [← hsegs]
      exact splitOnSlash_intercalate segs hne hall
    obtain ⟨hed, hwith, hlast⟩ := ensureDocxPath_eq _ trev.reverse a hsplit ha.1
    by_cases hdx : hasExtSeg a "docx".data = true
    · rw [hed, if_pos hdx]
      exact ⟨intercalate_not_abs segs hne hall, by rw [hlast]; exact hdx⟩
    · rw [hed, if_neg hdx, hwith]
      have hsegs' : ∀ seg ∈ trev.reverse ++ [setExtensionSeg a "docx".data],
          seg ≠ [] ∧ ∀ c ∈ seg, c ≠ '/' := by
        intro seg hseg
        rcases List.mem_append.mp hseg with hseg | hseg
        · exact hall seg (by rw [hsegs]; exact List.mem_append_left _ hseg)
        · have hseg' : seg = setExtensionSeg a "docx".data := by simpa using hseg
          subst hseg'
          exact ⟨setExtensionSeg_ne _, setExtensionSeg_no_slash ha.2 (by decide)⟩
      refine ⟨intercalate_not_abs _ (by simp) hsegs', ?_⟩
      have hsplit2 : splitOnSlash
          (List.intercalate ['/'] (trev.reverse ++ [setExtensionSeg a "docx".data])) [] =
          trev.reverse ++ [setExtensionSeg a "docx".data] :=
        splitOnSlash_intercalate _ (by simp) hsegs'
      obtain ⟨-, -, hlast2⟩ :=
        ensureDocxPath_eq _ trev.reverse (setExtensionSeg a "docx".data) hsplit2
          (setExtensionSeg_ne _)
      rw [hlast2]
      exact setExtensionSeg_hasExt ha.1

/-- C2 (amended): the normalizer returns the default
`BlockFile-Captures.docx` for an absent or trimmed-empty input; for a
relative input it errors when a `..` path segment occurs, and every
successful result is itself relative with a `docx` extension
(case-insensitively); an absolute input, however, skips the component
check entirely and is returned as-is apart from extension normalization
(the claim wrongly requires an error there), and an existing non-docx
extension is replaced, not appended to. -/
theorem capture_target_path_spec (M : CharModel) :
    normalize_capture_target_path M none = .ok DEFAULT_CAPTURE_TARGET ∧
    (∀ s, trimChars M s = [] →
      normalize_capture_target_path M (some s) = .ok DEFAULT_CAPTURE_TARGET) ∧
    (∀ s, isAbsolutePath (trimChars M s) = false →
      (∃ seg ∈ splitOnSlash (trimChars M s) [], seg = ['.', '.']) →
      ∃ e, normalize_capture_target_path M (some s) = .error e) ∧
    (∀ s out, isAbsolutePath (trimChars M s) = false →
      normalize_capture_target_path M (some s) = .ok out →
      isAbsolutePath out = false ∧ hasExtSeg (lastSegOf out) "docx".data = true) ∧
    (∀ s, trimChars M s ≠ [] → isAbsolutePath (trimChars M s) = true →
      normalize_capture_target_path M (some s) =
        .ok (ensureDocxPath (trimChars M s))) := by
  have hdefault : normalizeCaptureCore DEFAULT_CAPTURE_TARGET = .ok DEFAULT_CAPTURE_TARGET := by
    rfl
  refine ⟨hdefault, ?_, ?_, ?_, ?_⟩
  · intro s h
    rw [normalize_capture_target_path, if_pos h]
    exact hdefault
  · intro s habs hseg
    by_cases hts : trimChars M s = []
    · rw [hts] at hseg
      obtain ⟨seg, hmem, hdd⟩ := hseg
      have : seg = [] := by
        rcases List.mem_cons.mp hmem with h | h
        · exact h
        · cases h
      rw [this] at hdd
      cases hdd
    · obtain ⟨e, he⟩ := relComponents_error_of_parent _ hseg
      refine ⟨e, ?_⟩
      rw [normalize_capture_target_path, if_neg hts, normalizeCaptureCore, if_neg (by simp [habs]),
        he]
  · intro s out habs hok
    by_cases hts : trimChars M s = []
    · rw [normalize_capture_target_path, if_pos hts, hdefault] at hok
      cases hok
      constructor <;> decide
    · rw [normalize_capture_target_path, if_neg hts, normalizeCaptureCore,
        if_neg (by simp [habs])] at hok
      cases hrc : relComponents (splitOnSlash (trimChars M s) []) with
      | error e => rw [hrc] at hok; cases hok
      | ok segs =>
        rw [hrc] at hok
        have hok' : (if segs = [] then
            (Except.error "Capture target path cannot be empty." : Except String (List Char))
          else Except.ok (ensureDocxPath (List.intercalate ['/'] segs))) = Except.ok out := hok
        by_cases hsege : segs = []
        · rw [if_pos hsege] at hok'; cases hok'
        · rw [if_neg hsege] at hok'
          cases hok'
          apply ensureDocx_join segs hsege
          intro seg hseg
          obtain ⟨hmem, hne'⟩ := relComponents_mem _ _ hrc seg hseg
          exact ⟨hne', splitOnSlash_no_slash _ [] (by simp) seg hmem⟩
  · intro s hts habs
    rw [normalize_capture_target_path, if_neg hts, normalizeCaptureCore, if_pos habs]

/-- Witness for C2's amended theorem at the spec's own example
`nested/final-notes`. -/
theorem capture_target_path_witness :
    isAbsolutePath (trimChars asciiModel "nested/final-notes".data) = false ∧
    normalize_capture_target_path asciiModel (some "nested/final-notes".data) =
      .ok "nested/final-notes.docx".data ∧
    (isAbsolutePath "nested/final-notes.docx".data = false ∧
      hasExtSeg (lastSegOf "nested/final-notes.docx".data) "docx".data = true) :=
  ⟨by decide, by decide,
   (capture_target_path_spec asciiModel).2.2.2.1 "nested/final-notes".data
     "nested/final-notes.docx".data (by decide) (by decide)⟩

/-- C2 counterexample: an absolute input is accepted and returned
absolute (the claim requires an error for any root component and a
relative result), and a non-docx extension is replaced rather than
appended to. -/
theorem capture_target_path_counterexample :
    normalize_capture_target_path asciiModel (some "/escape.docx".data) =
      .ok "/escape.docx".data ∧
    isAbsolutePath "/escape.docx".data = true ∧
    normalize_capture_target_path asciiModel (some "file.txt".data) =
      .ok "file.docx".data ∧
    "file.docx".data ≠ ("file.txt".data ++ ".docx".data) := by
  refine ⟨by decide, by decide, by decide, by decide⟩

theorem trimChars_length_le (M : CharModel) (l : List Char) :
    (trimChars M l).length ≤ l.length := by
  have h1 : (trimLeft M l).length ≤ l.length := (List.dropWhile_sublist _).length_le
  have h2 : (trimRight M (trimLeft M l)).length ≤ (trimLeft M l).length := by
    rw [trimRight, List.length_reverse]
    calc ((trimLeft M l).reverse.dropWhile M.isWs).length
        ≤ (trimLeft M l).reverse.length := (List.dropWhile_sublist _).length_le
      _ = (trimLeft M l).length := List.length_reverse _
  exact le_trans h2 h1

theorem dropWhile_replicate_no (p : Char → Bool) (a : Char) (h : p a = false) :
    ∀ n, List.dropWhile p (List.replicate n a) = List.replicate n a := by
  intro n
  cases n with
  | zero => rfl
  | succ n => simp [List.replicate_succ, List.dropWhile_cons, h]

theorem trimChars_replicate (M : CharModel) (a : Char) (h : M.isWs a = false) (n : Nat) :
    trimChars M (List.replicate n a) = List.replicate n a := by
  rw [trimChars, trimLeft, dropWhile_replicate_no _ _ h, trimRight,
    List.reverse_replicate, dropWhile_replicate_no _ _ h, List.reverse_replicate]

theorem lastWsIn_no_ws (M : CharModel) (chars : List Char)
    (h : ∀ c ∈ chars, M.isWs c = false) :
    ∀ (cnt min_end : Nat), lastWsIn M chars min_end cnt = none := by
  intro cnt
  induction cnt with
  | zero => intro _; rfl
  | succ n ih =>
    intro min_end
    rw [lastWsIn]
    have : (((chars.get? (min_end + n)).map M.isWs).getD false) = false := by
      cases hg : chars.get? (min_end + n) with
      | none => rfl
      | some c => simp [h c (List.get?_mem hg)]
    rw [this]
    simp only [Bool.false_eq_true, if_false]
    exact ih min_end

theorem lastWsIn_some_range (M : CharModel) (chars : List Char) (min_end : Nat) :
    ∀ (cnt i : Nat), lastWsIn M chars min_end cnt = some i →
      min_end ≤ i ∧ i < min_end + cnt := by
  intro cnt
  induction cnt with
  | zero => intro i h; cases h
  | succ n ih =>
    intro i h
    rw [lastWsIn] at h
    by_cases hw : (((chars.get? (min_end + n)).map M.isWs).getD false) = true
    · rw [if_pos hw] at h
      cases h
      omega
    · rw [if_neg hw] at h
      have := ih i h
      omega

theorem loopCut_le (M : CharModel) (chars : List Char) (P : ChunkProfile) (start : Nat) :
    loopCut M chars P start ≤ min (start + P.max_chars) chars.length := by
  rw [loopCut]
  cases hws : lastWsIn M chars (min (start + P.min_chars) (min (start + P.max_chars) chars.length))
      ((min (start + P.max_chars) chars.length) -
        (min (start + P.min_chars) (min (start + P.max_chars) chars.length))) with
  | none => simp
  | some i =>
    have := lastWsIn_some_range M chars _ _ i hws
    by_cases hle : i ≤ start
    · simp [hle]
    · simp only [hle, if_false]
      omega

theorem loopCut_gt (M : CharModel) (chars : List Char) (P : ChunkProfile) (start : Nat)
    (hlt : start < chars.length) (hpos : 0 < P.max_chars) :
    start < loopCut M chars P start := by
  rw [loopCut]
  cases hws : lastWsIn M chars (min (start + P.min_chars) (min (start + P.max_chars) chars.length))
      ((min (start + P.max_chars) chars.length) -
        (min (start + P.min_chars) (min (start + P.max_chars) chars.length))) with
  | none =>
    simp only
    split_ifs <;> omega
  | some i =>
    by_cases hle : i ≤ start
    · simp only [hle, if_true]
      omega
    · simp only [hle, if_false]
      omega

theorem loopChunkText_le (M : CharModel) (chars : List Char) (P : ChunkProfile)
    (start : Nat) : (loopChunkText M chars P start).length ≤ P.max_chars := by
  rw [loopChunkText]
  calc (trimChars M ((chars.drop start).take (loopCut M chars P start - start))).length
      ≤ ((chars.drop start).take (loopCut M chars P start - start)).length :=
        trimChars_length_le M _
    _ ≤ loopCut M chars P start - start := List.length_take_le _ _
    _ ≤ P.max_chars := by
        have := loopCut_le M chars P start
        omega

theorem splitLoop_length_le (M : CharModel) (chars : List Char) (P : ChunkProfile) :
    ∀ (fuel start : Nat) (acc : List (List Char)),
      acc.length ≤ MAX_CHUNKS_PER_SECTION →
      (splitLoop M chars P start acc fuel).1.length ≤ MAX_CHUNKS_PER_SECTION := by
  intro fuel
  induction fuel with
  | zero => intro start acc h; exact h
  | succ f ih =>
    intro start acc h
    rw [splitLoop]
    by_cases hc : start < chars.length ∧ acc.length < MAX_CHUNKS_PER_SECTION
    · rw [if_pos hc]
      have hlen' : (if loopChunkText M chars P start = [] then acc
          else acc ++ [loopChunkText M chars P start]).length ≤ MAX_CHUNKS_PER_SECTION := by
        split_ifs
        · exact h
        · rw [List.length_append]
          simp only [List.length_cons, List.length_nil]
          omega
      show (if loopCut M chars P start ≥ chars.length then
          ((if loopChunkText M chars P start = [] then acc
            else acc ++ [loopChunkText M chars P start]), start)
        else splitLoop M chars P (loopNextStart M chars P start)
          (if loopChunkText M chars P start = [] then acc
            else acc ++ [loopChunkText M chars P start]) f).1.length ≤
        MAX_CHUNKS_PER_SECTION
      set chunks2 := (if loopChunkText M chars P start = [] then acc
        else acc ++ [loopChunkText M chars P start]) with hch2
      split_ifs with hbrk
      · exact hlen'
      · exact ih _ _ hlen'
    · rw [if_neg hc]
      exact h

theorem splitLoop_mem (M : CharModel) (chars : List Char) (P : ChunkProfile) :
    ∀ (fuel start : Nat) (acc : List (List Char)),
      ∀ c ∈ (splitLoop M chars P start acc fuel).1,
        c ∈ acc ∨ (c ≠ [] ∧ c.length ≤ P.max_chars) := by
  intro fuel
  induction fuel with
  | zero => intro start acc c hc; exact Or.inl hc
  | succ f ih =>
    intro start acc c hc
    rw [splitLoop] at hc
    by_cases hcond : start < chars.length ∧ acc.length < MAX_CHUNKS_PER_SECTION
    · rw [if_pos hcond] at hc
      have hstep : ∀ x ∈ (if loopChunkText M chars P start = [] then acc
          else acc ++ [loopChunkText M chars P start]),
          x ∈ acc ∨ (x ≠ [] ∧ x.length ≤ P.max_chars) := by
        intro x hx
        split_ifs at hx with hemp
        · exact Or.inl hx
        · rcases List.mem_append.mp hx with hx | hx
          · exact Or.inl hx
          · have : x = loopChunkText M chars P start := by simpa using hx
            subst this
            exact Or.inr ⟨hemp, loopChunkText_le M chars P start⟩
      replace hc : c ∈ (if loopCut M chars P start ≥ chars.length then
          ((if loopChunkText M chars P start = [] then acc
            else acc ++ [loopChunkText M chars P start]), start)
        else splitLoop M chars P (loopNextStart M chars P start)
          (if loopChunkText M chars P start = [] then acc
            else acc ++ [loopChunkText M chars P start]) f).1 := hc
      set chunks2 := (if loopChunkText M chars P start = [] then acc
        else acc ++ [loopChunkText M chars P start]) with hch2
      split_ifs at hc with hbrk
      · exact hstep c hc
      · rcases ih _ _ c hc with hin | hgood
        · exact hstep c hin
        · exact Or.inr hgood
    · rw [if_neg hcond] at hc
      exact Or.inl hc

theorem splitTailFix_mem (M : CharModel) (chars : List Char)
    (chunks : List (List Char)) (start : Nat) :
    ∀ c ∈ splitTailFix M chars (chunks, start),
      c ∈ chunks ∨ c ≠ [] ∨ ∃ last tail, last ∈ chunks ∧ c = last ++ '\n' :: tail := by
  intro c hc
  rw [splitTailFix] at hc
  by_cases h1 : start < chars.length
  · rw [if_pos h1] at hc
    by_cases h2 : trimChars M (chars.drop start) = []
    · rw [if_pos h2] at hc
      exact Or.inl hc
    · rw [if_neg h2] at hc
      by_cases h3 : chunks.length ≥ MAX_CHUNKS_PER_SECTION
      · rw [if_pos h3] at hc
        cases hlast : chunks.getLast? with
        | none => rw [hlast] at hc; exact Or.inl hc
        | some last =>
          rw [hlast] at hc
          replace hc : c ∈ (if (trimChars M (chars.drop start)).isSuffixOf last = true
              then chunks
              else chunks.dropLast ++ [last ++ '\n' :: trimChars M (chars.drop start)]) := hc
          by_cases h4 : (trimChars M (chars.drop start)).isSuffixOf last = true
          · rw [if_pos h4] at hc; exact Or.inl hc
          · rw [if_neg h4] at hc
            rcases List.mem_append.mp hc with hc | hc
            · exact Or.inl (List.dropLast_prefix chunks |>.subset hc)
            · have : c = last ++ '\n' :: trimChars M (chars.drop start) := by simpa using hc
              refine Or.inr (Or.inr ⟨last, trimChars M (chars.drop start), ?_, this⟩)
              exact List.mem_of_mem_getLast? hlast
      · rw [if_neg h3] at hc
        rcases List.mem_append.mp hc with hc | hc
        · exact Or.inl hc
        · have : c = trimChars M (chars.drop start) := by simpa using hc
          exact Or.inr (Or.inl (this ▸ h2))
  · rw [if_neg h1] at hc
    exact Or.inl hc

theorem split_chunks_ne (M : CharModel) (text : List Char) :
    ∀ c ∈ split_text_into_chunks M text, c ≠ [] := by
  intro c hc
  rw [split_text_into_chunks] at hc
  by_cases h0 : trimChars M text = []
  · rw [if_pos h0] at hc; cases hc
  · rw [if_neg h0] at hc
    by_cases h1 : (trimChars M text).length ≤
        (chunk_profile (trimChars M text).length).max_chars
    · rw [if_pos h1] at hc
      have : c = trimChars M text := by simpa using hc
      exact this ▸ h0
    · rw [if_neg h1] at hc
      rcases hstate : splitLoop M (trimChars M text)
          (chunk_profile (trimChars M text).length) 0 []
          ((trimChars M text).length + 1) with ⟨chunks, start⟩
      rw [hstate] at hc
      have hloopmem : ∀ x ∈ chunks, x ≠ [] := by
        intro x hx
        have := splitLoop_mem M (trimChars M text)
          (chunk_profile (trimChars M text).length) _ _ _ x (by rw [hstate]; exact hx)
        rcases this with h | h
        · cases h
        · exact h.1
      rcases splitTailFix_mem M (trimChars M text) chunks start c hc with h | h | ⟨last, tail, -, heq⟩
      · exact hloopmem c h
      · exact h
      · subst heq
        simp

theorem splitTailFix_length (M : CharModel) (chars : List Char)
    (chunks : List (List Char)) (start : Nat)
    (h : chunks.length ≤ MAX_CHUNKS_PER_SECTION) :
    (splitTailFix M chars (chunks, start)).length ≤ MAX_CHUNKS_PER_SECTION := by
  rw [splitTailFix]
  by_cases h1 : start < chars.length
  · rw [if_pos h1]
    by_cases h2 : trimChars M (chars.drop start) = []
    · rw [if_pos h2]; exact h
    · rw [if_neg h2]
      by_cases h3 : chunks.length ≥ MAX_CHUNKS_PER_SECTION
      · rw [if_pos h3]
        cases hlast : chunks.getLast? with
        | none => exact h
        | some last =>
          have hne : chunks ≠ [] := by
            intro he; rw [he] at hlast; cases hlast
          show (if (trimChars M (chars.drop start)).isSuffixOf last = true then chunks
            else chunks.dropLast ++ [last ++ '\n' :: trimChars M (chars.drop start)]).length ≤
              MAX_CHUNKS_PER_SECTION
          split_ifs
          · exact h
          · rw [List.length_append, List.length_dropLast]
            simp only [List.length_cons, List.length_nil]
            have hpos := List.length_pos.mpr hne
            simp only [MAX_CHUNKS_PER_SECTION] at h ⊢
            omega
      · rw [if_neg h3]
        rw [List.length_append]
        simp only [List.length_cons, List.length_nil]
        simp only [MAX_CHUNKS_PER_SECTION] at h3 ⊢
        omega
  · rw [if_neg h1]; exact h

theorem splitTailFix_dropLast_mem (M : CharModel) (chars : List Char)
    (chunks : List (List Char)) (start : Nat) :
    ∀ c ∈ (splitTailFix M chars (chunks, start)).dropLast, c ∈ chunks := by
  intro c hc
  rw [splitTailFix] at hc
  by_cases h1 : start < chars.length
  · rw [if_pos h1] at hc
    by_cases h2 : trimChars M (chars.drop start) = []
    · rw [if_pos h2] at hc
      exact (List.dropLast_prefix chunks).subset hc
    · rw [if_neg h2] at hc
      by_cases h3 : chunks.length ≥ MAX_CHUNKS_PER_SECTION
      · rw [if_pos h3] at hc
        cases hlast : chunks.getLast? with
        | none =>
          rw [hlast] at hc
          exact (List.dropLast_prefix chunks).subset hc
        | some last =>
          rw [hlast] at hc
          replace hc : c ∈ (if (trimChars M (chars.drop start)).isSuffixOf last = true
              then chunks
              else chunks.dropLast ++
                [last ++ '\n' :: trimChars M (chars.drop start)]).dropLast := hc
          split_ifs at hc
          · exact (List.dropLast_prefix chunks).subset hc
          · rw [List.dropLast_concat] at hc
            exact (List.dropLast_prefix chunks).subset hc
      · rw [if_neg h3, List.dropLast_concat] at hc
        exact hc
  · rw [if_neg h1] at hc
    exact (List.dropLast_prefix chunks).subset hc

/-- C3 (amended): `split_text_into_chunks` never returns more than 384
chunks; every chunk except possibly the last is at most the profile's
`max_chars` long; and when the 384-chunk cap halts the loop while text
remains, the remaining tail is merged into the last chunk with a newline
separator — unless the last chunk already ends with the tail, in which
case the result is left unchanged — and is never emitted as an
additional chunk. -/
theorem split_chunks_spec (M : CharModel) (text : List Char) :
    (split_text_into_chunks M text).length ≤ MAX_CHUNKS_PER_SECTION ∧
    (∀ c ∈ (split_text_into_chunks M text).dropLast,
      c.length ≤ (chunk_profile (trimChars M text).length).max_chars) ∧
    (∀ chunks start,
      (chunk_profile (trimChars M text).length).max_chars < (trimChars M text).length →
      splitLoop M (trimChars M text) (chunk_profile (trimChars M text).length) 0 []
        ((trimChars M text).length + 1) = (chunks, start) →
      start < (trimChars M text).length →
      MAX_CHUNKS_PER_SECTION ≤ chunks.length →
      trimChars M ((trimChars M text).drop start) ≠ [] →
      ∀ last, chunks.getLast? = some last →
        split_text_into_chunks M text =
          chunks.dropLast ++
            [if (trimChars M ((trimChars M text).drop start)).isSuffixOf last then last
             else last ++ '\n' :: trimChars M ((trimChars M text).drop start)]) := by
  refine ⟨?_, ?_, ?_⟩
  · rw [split_text_into_chunks]
    by_cases h0 : trimChars M text = []
    · rw [if_pos h0]; decide
    · rw [if_neg h0]
      by_cases h1 : (trimChars M text).length ≤
          (chunk_profile (trimChars M text).length).max_chars
      · rw [if_pos h1]
        show (1 : Nat) ≤ MAX_CHUNKS_PER_SECTION
        decide
      · rw [if_neg h1]
        rcases hstate : splitLoop M (trimChars M text)
            (chunk_profile (trimChars M text).length) 0 []
            ((trimChars M text).length + 1) with ⟨chunks, start⟩
        have hlen : chunks.length ≤ MAX_CHUNKS_PER_SECTION := by
          have := splitLoop_length_le M (trimChars M text)
            (chunk_profile (trimChars M text).length)
            ((trimChars M text).length + 1) 0 [] (by decide)
          rw [hstate] at this
          exact this
        exact splitTailFix_length M _ chunks start hlen
  · rw [split_text_into_chunks]
    by_cases h0 : trimChars M text = []
    · rw [if_pos h0]; intro c hc; cases hc
    · rw [if_neg h0]
      by_cases h1 : (trimChars M text).length ≤
          (chunk_profile (trimChars M text).length).max_chars
      · rw [if_pos h1]; intro c hc; cases hc
      · rw [if_neg h1]
        rcases hstate : splitLoop M (trimChars M text)
            (chunk_profile (trimChars M text).length) 0 []
            ((trimChars M text).length + 1) with ⟨chunks, start⟩
        intro c hc
        have hin : c ∈ chunks := splitTailFix_dropLast_mem M _ chunks start c hc
        have := splitLoop_mem M (trimChars M text)
          (chunk_profile (trimChars M text).length) _ _ _ c (by rw [hstate]; exact hin)
        rcases this with h | h
        · cases h
        · exact h.2
  · intro chunks start hbig hstate hlt hcap htail last hlast
    rw [split_text_into_chunks, if_neg ?hne, if_neg (not_le.mpr hbig), hstate]
    case hne =>
      intro he
      rw [he] at hbig
      simp at hbig
    rw [splitTailFix, if_pos hlt, if_neg htail, if_pos hcap, hlast]
    replace hlast' : (match some last with
        | none => chunks
        | some last =>
          if (trimChars M ((trimChars M text).drop start)).isSuffixOf last = true
          then chunks
          else chunks.dropLast ++
            [last ++ '\n' :: trimChars M ((trimChars M text).drop start)]) =
        (if (trimChars M ((trimChars M text).drop start)).isSuffixOf last = true
          then chunks
          else chunks.dropLast ++
            [last ++ '\n' :: trimChars M ((trimChars M text).drop start)]) := rfl
    rw [hlast']
    have hchne : chunks ≠ [] := by
      intro he; rw [he] at hlast; cases hlast
    by_cases hsfx : (trimChars M ((trimChars M text).drop start)).isSuffixOf last = true
    · rw [if_pos hsfx, if_pos hsfx]
      have hlasteq : chunks.getLast hchne = last :=
        (List.getLast_eq_iff_getLast?_eq_some hchne).mpr hlast
      conv_lhs => rw [← List.dropLast_concat_getLast hchne]
      rw [hlasteq]
    · rw [if_neg hsfx, if_neg hsfx]

theorem splitLoop_guard_stop (M : CharModel) (chars : List Char) (P : ChunkProfile)
    (start : Nat) (acc : List (List Char)) (f : Nat)
    (h : ¬ (start < chars.length ∧ acc.length < MAX_CHUNKS_PER_SECTION)) :
    splitLoop M chars P start acc f = (acc, start) := by
  cases f with
  | zero => rfl
  | succ f => rw [splitLoop, if_neg h]

theorem splitLoop_succ_advance (M : CharModel) (chars : List Char) (P : ChunkProfile)
    (start : Nat) (acc : List (List Char)) (f : Nat)
    (hcond : start < chars.length ∧ acc.length < MAX_CHUNKS_PER_SECTION)
    (hnbrk : ¬ loopCut M chars P start ≥ chars.length)
    (hne : ¬ loopChunkText M chars P start = []) :
    splitLoop M chars P start acc (f + 1) =
      splitLoop M chars P (loopNextStart M chars P start)
        (acc ++ [loopChunkText M chars P start]) f := by
  rw [splitLoop, if_pos hcond]
  show (if loopCut M chars P start ≥ chars.length then
      ((if loopChunkText M chars P start = [] then acc
        else acc ++ [loopChunkText M chars P start]), start)
    else splitLoop M chars P (loopNextStart M chars P start)
      (if loopChunkText M chars P start = [] then acc
        else acc ++ [loopChunkText M chars P start]) f) = _
  rw [if_neg hnbrk, if_neg hne]

theorem loopCut_no_ws (M : CharModel) (chars : List Char) (P : ChunkProfile) (start : Nat)
    (h : ∀ c ∈ chars, M.isWs c = false) :
    loopCut M chars P start = min (start + P.max_chars) chars.length := by
  rw [loopCut, lastWsIn_no_ws M chars h]
  show (if min (start + P.max_chars) chars.length ≤ start
      then min (start + P.max_chars) chars.length
      else min (start + P.max_chars) chars.length) = _
  split_ifs <;> rfl

theorem replicate_a_no_ws :
    ∀ c ∈ List.replicate 1222000 'a', asciiModel.isWs c = false := by
  intro c hc
  rw [List.eq_of_mem_replicate hc]
  decide

theorem loopCut_replicate (start : Nat) (hmax : start + 3600 ≤ 1222000) :
    loopCut asciiModel (List.replicate 1222000 'a') ⟨1800, 3600, 420⟩ start = start + 3600 := by
  rw [loopCut_no_ws _ _ _ _ replicate_a_no_ws, List.length_replicate]
  exact Nat.min_eq_left hmax

theorem loopChunkText_replicate (start : Nat) (hmax : start + 3600 ≤ 1222000) :
    loopChunkText asciiModel (List.replicate 1222000 'a') ⟨1800, 3600, 420⟩ start =
      List.replicate 3600 'a' := by
  rw [loopChunkText, loopCut_replicate start hmax]
  have h1 : start + 3600 - start = 3600 := by omega
  rw [h1, List.drop_replicate, List.take_replicate]
  have h2 : min 3600 (1222000 - start) = 3600 := Nat.min_eq_left (by omega)
  rw [h2]
  exact trimChars_replicate asciiModel 'a' (by decide) 3600

theorem loopNextStart_replicate (start : Nat) (hmax : start + 3600 ≤ 1222000) :
    loopNextStart asciiModel (List.replicate 1222000 'a') ⟨1800, 3600, 420⟩ start =
      start + 3180 := by
  rw [loopNextStart, loopCut_replicate start hmax]
  show (if start + 3600 - min 420 (start + 3600 - start - 1) ≤ start then start + 3600
    else start + 3600 - min 420 (start + 3600 - start - 1)) = _
  have h1 : start + 3600 - start - 1 = 3599 := by omega
  rw [h1]
  have h2 : min 420 3599 = 420 := by decide
  rw [h2, if_neg (by omega)]
  omega

theorem splitLoop_replicate_run :
    ∀ (d : Nat), d ≤ 384 → ∀ (acc : List (List Char)) (f : Nat),
      acc.length = 384 - d → d ≤ f →
      splitLoop asciiModel (List.replicate 1222000 'a') ⟨1800, 3600, 420⟩
        ((384 - d) * 3180) acc f =
      (acc ++ List.replicate d (List.replicate 3600 'a'), 384 * 3180) := by
  intro d
  induction d with
  | zero =>
    intro _ acc f hlen _
    rw [splitLoop_guard_stop]
    · simp
    · intro hcond
      rw [hlen] at hcond
      exact absurd hcond.2 (by decide)
  | succ d ih =>
    intro hd acc f hlen hf
    have hd' : d ≤ 383 := by omega
    cases f with
    | zero => omega
    | succ g =>
      have hstart : (384 - (d + 1)) * 3180 = (383 - d) * 3180 := by omega
      have hmax : (383 - d) * 3180 + 3600 ≤ 1222000 := by
        have : (383 - d) * 3180 ≤ 383 * 3180 := Nat.mul_le_mul_right _ (by omega)
        omega
      rw [hstart]
      rw [splitLoop_succ_advance]
      · rw [loopNextStart_replicate _ hmax, loopChunkText_replicate _ hmax]
        have hnext : (383 - d) * 3180 + 3180 = (384 - d) * 3180 := by
          have : 383 - d + 1 = 384 - d := by omega
          calc (383 - d) * 3180 + 3180 = (383 - d + 1) * 3180 := by ring
            _ = (384 - d) * 3180 := by rw [this]
        rw [hnext]
        rw [ih (by omega) (acc ++ [List.replicate 3600 'a']) g
          (by rw [List.length_append, hlen, List.length_singleton]; omega) (by omega)]
        rw [List.append_assoc, List.singleton_append]
        rw [show List.replicate (d + 1) (List.replicate 3600 'a') =
          List.replicate 3600 'a' :: List.replicate d (List.replicate 3600 'a')
          from List.replicate_succ _ _]
      · constructor
        · rw [List.length_replicate]
          omega
        · rw [hlen]
          show 384 - (d + 1) < MAX_CHUNKS_PER_SECTION
          show 384 - (d + 1) < 384
          omega
      · rw [loopCut_replicate _ hmax, List.length_replicate]
        omega
      · rw [loopChunkText_replicate _ hmax]
        intro h
        have h2 := congrArg List.length h
        rw [List.length_replicate] at h2
        exact absurd h2 (by norm_num)

theorem bigText_trim :
    trimChars asciiModel (List.replicate 1222000 'a') = List.replicate 1222000 'a' :=
  trimChars_replicate asciiModel 'a' (by decide) 1222000

theorem bigText_profile : chunk_profile 1222000 = ⟨1800, 3600, 420⟩ := by decide

theorem bigText_loop :
    splitLoop asciiModel (List.replicate 1222000 'a') ⟨1800, 3600, 420⟩ 0 [] 1222001 =
      (List.replicate 384 (List.replicate 3600 'a'), 1221120) := by
  have h := splitLoop_replicate_run 384 (le_refl _) [] 1222001 rfl (by norm_num)
  have h0 : (384 - 384) * 3180 = 0 := by norm_num
  have h1 : 384 * 3180 = 1221120 := by norm_num
  rw [h0, h1, List.nil_append] at h
  exact h

theorem bigText_tail :
    trimChars asciiModel ((List.replicate 1222000 'a').drop 1221120) =
      List.replicate 880 'a' := by
  rw [List.drop_replicate]
  have : (1222000 : Nat) - 1221120 = 880 := by norm_num
  rw [this]
  exact trimChars_replicate asciiModel 'a' (by decide) 880

theorem bigText_chunk_concat :
    List.replicate 384 (List.replicate 3600 'a') =
      List.replicate 383 (List.replicate 3600 'a') ++ [List.replicate 3600 'a'] := by
  rw [show (384 : Nat) = 383 + 1 from rfl, List.replicate_add]
  rfl

theorem bigText_getLast :
    (List.replicate 384 (List.replicate 3600 'a')).getLast? =
      some (List.replicate 3600 'a') := by
  rw [bigText_chunk_concat]
  exact List.getLast?_concat _

theorem bigText_suffix :
    (List.replicate 880 'a').isSuffixOf (List.replicate 3600 'a') = true := by
  rw [List.isSuffixOf_iff_suffix]
  exact ⟨List.replicate 2720 'a', by rw [← List.replicate_add]⟩

theorem bigText_ne_nil : List.replicate 1222000 'a' ≠ [] := by
  intro h
  have := congrArg List.length h
  rw [List.length_replicate] at this
  exact absurd this (by norm_num)

theorem tail880_ne_nil : ¬ List.replicate 880 'a' = [] := by
  intro h
  have := congrArg List.length h
  rw [List.length_replicate] at this
  exact absurd this (by norm_num)

theorem bigText_split :
    split_text_into_chunks asciiModel (List.replicate 1222000 'a') =
      List.replicate 384 (List.replicate 3600 'a') := by
  rw [split_text_into_chunks, bigText_trim]
  rw [if_neg bigText_ne_nil]
  show (if (List.replicate 1222000 'a').length ≤
        (chunk_profile (List.replicate 1222000 'a').length).max_chars
      then [List.replicate 1222000 'a']
      else splitTailFix asciiModel (List.replicate 1222000 'a')
        (splitLoop asciiModel (List.replicate 1222000 'a')
          (chunk_profile (List.replicate 1222000 'a').length) 0 []
          ((List.replicate 1222000 'a').length + 1))) =
      List.replicate 384 (List.replicate 3600 'a')
  rw [List.length_replicate, bigText_profile]
  rw [if_neg (by norm_num :
    ¬ (1222000 : Nat) ≤ ChunkProfile.max_chars ⟨1800, 3600, 420⟩)]
  rw [show (1222000 : Nat) + 1 = 1222001 from rfl, bigText_loop]
  rw [splitTailFix]
  rw [if_pos (by rw [List.length_replicate]; norm_num : (1221120 : Nat) <
    (List.replicate 1222000 'a').length)]
  rw [bigText_tail]
  rw [if_neg tail880_ne_nil]
  rw [if_pos (by rw [List.length_replicate]; decide :
    (List.replicate 384 (List.replicate 3600 'a')).length ≥ MAX_CHUNKS_PER_SECTION)]
  rw [bigText_getLast]
  show (if (List.replicate 880 'a').isSuffixOf (List.replicate 3600 'a') = true
      then List.replicate 384 (List.replicate 3600 'a')
      else (List.replicate 384 (List.replicate 3600 'a')).dropLast ++
        [List.replicate 3600 'a' ++ '\n' :: List.replicate 880 'a']) = _
  rw [if_pos bigText_suffix]

/-- C3 counterexample: on 1 222 000 copies of `a` the loop halts at the
384-chunk cap with `start = 1221120 < 1222000` and a nonempty remaining
tail of 880 characters, yet because the last chunk (3600 `a`s) already
ends with the tail, nothing is appended: the output's last chunk is the
unmodified 3600-character chunk, contradicting the claim that the tail
is always appended with a newline separator. -/
theorem split_chunks_counterexample :
    splitLoop asciiModel (List.replicate 1222000 'a') ⟨1800, 3600, 420⟩ 0 [] 1222001 =
      (List.replicate 384 (List.replicate 3600 'a'), 1221120) ∧
    (1221120 : Nat) < 1222000 ∧
    trimChars asciiModel ((List.replicate 1222000 'a').drop 1221120) =
      List.replicate 880 'a' ∧
    split_text_into_chunks asciiModel (List.replicate 1222000 'a') =
      List.replicate 384 (List.replicate 3600 'a') ∧
    (split_text_into_chunks asciiModel (List.replicate 1222000 'a')).getLast? =
      some (List.replicate 3600 'a') ∧
    List.replicate 3600 'a' ≠
      List.replicate 3600 'a' ++ '\n' :: List.replicate 880 'a' := by
  refine ⟨bigText_loop, by norm_num, bigText_tail, bigText_split, ?_, ?_⟩
  · rw [bigText_split]
    exact bigText_getLast
  · intro h
    have := congrArg List.length h
    rw [List.length_replicate, List.length_append, List.length_replicate,
      List.length_cons, List.length_replicate] at this
    omega

/-- Witness for C3's amended theorem at the cap-halting input: the
cap-halt branch produces exactly the suffix-guarded merge. -/
theorem split_chunks_witness :
    split_text_into_chunks asciiModel (List.replicate 1222000 'a') =
      (List.replicate 384 (List.replicate 3600 'a')).dropLast ++
        [if (List.replicate 880 'a').isSuffixOf (List.replicate 3600 'a')
         then List.replicate 3600 'a'
         else List.replicate 3600 'a' ++ '\n' :: List.replicate 880 'a'] := by
  have h := (split_chunks_spec asciiModel (List.replicate 1222000 'a')).2.2
    (List.replicate 384 (List.replicate 3600 'a')) 1221120
    (by rw [bigText_trim, List.length_replicate, bigText_profile]; norm_num)
    (by rw [bigText_trim, List.length_replicate,
      show (1222000 : Nat) + 1 = 1222001 from rfl, bigText_profile]; exact bigText_loop)
    (by rw [bigText_trim, List.length_replicate]; norm_num)
    (by rw [List.length_replicate]; decide)
    (by rw [bigText_trim, bigText_tail]; exact tail880_ne_nil)
    (List.replicate 3600 'a') bigText_getLast
  rw [bigText_trim, bigText_tail] at h
  exact h

/-! ### C6: query-engine guards -/

/-- A concrete hit for the search oracles of witnesses and
counterexamples. -/
def sampleHit : SearchHit :=
  { source := "lexical", kind := "chunk", file_id := 1, file_name := "f",
    relative_path := "p", absolute_path := "ap", heading_level := none,
    heading_text := none, heading_order := none, score := 0 }

theorem search_lexical_eq (M : CharModel)
    (onSearch : List Char → Except String (List SearchHit)) (query : List Char) :
    search_lexical M onSearch query =
      if utf8Len (trimChars M (normalize_query M query)) < 2 then .ok []
      else if (normalize_for_search M (trimChars M (normalize_query M query))).isEmpty then
        .ok []
      else onSearch (trimChars M (normalize_query M query)) := rfl

theorem search_hybrid_eq (M : CharModel)
    (onSearch : List Char → Except String (List SearchHit)) (query : List Char) :
    search_hybrid M onSearch query =
      if utf8Len (trimChars M (normalize_query M query)) < 2 then .ok []
      else if (normalize_for_search M (trimChars M (normalize_query M query))).isEmpty then
        .ok []
      else onSearch (trimChars M (normalize_query M query)) := rfl

theorem search_semantic_eq (M : CharModel)
    (onSearch : List Char → Except String (List SearchHit)) (query : List Char) :
    search_semantic M onSearch query =
      if (trimChars M (normalize_query M query)).length < VECTOR_MIN_QUERY_CHARS then .ok []
      else if (normalize_for_search M (trimChars M (normalize_query M query))).isEmpty then
        .ok []
      else onSearch (trimChars M (normalize_query M query)) := rfl

/-- C6 (amended): the engine trims the raw query, truncates the result to
512 codepoints and trims again; `search_lexical` and `search_hybrid`
return an empty hit list (not an error) whenever the cleaned query's
UTF-8 byte length is below 2 or its normalized form is empty, and
`search_semantic` returns an empty hit list whenever the cleaned query
has fewer than 3 codepoints or its normalized form is empty. -/
theorem query_guard_spec (M : CharModel)
    (onSearch : List Char → Except String (List SearchHit)) (query : List Char) :
    (utf8Len (trimChars M (normalize_query M query)) < 2 ∨
        (normalize_for_search M (trimChars M (normalize_query M query))).isEmpty = true →
      search_lexical M onSearch query = .ok [] ∧
      search_hybrid M onSearch query = .ok []) ∧
    ((trimChars M (normalize_query M query)).length < VECTOR_MIN_QUERY_CHARS ∨
        (normalize_for_search M (trimChars M (normalize_query M query))).isEmpty = true →
      search_semantic M onSearch query = .ok []) := by
  constructor
  · rintro (h | h)
    · rw [search_lexical_eq, search_hybrid_eq, if_pos h]
      exact ⟨rfl, rfl⟩
    · rw [search_lexical_eq, search_hybrid_eq]
      by_cases h2 : utf8Len (trimChars M (normalize_query M query)) < 2
      · rw [if_pos h2]
        exact ⟨rfl, rfl⟩
      · rw [if_neg h2, if_pos h]
        exact ⟨rfl, rfl⟩
  · rintro (h | h)
    · rw [search_semantic_eq, if_pos h]
    · rw [search_semantic_eq]
      by_cases h2 : (trimChars M (normalize_query M query)).length < VECTOR_MIN_QUERY_CHARS
      · rw [if_pos h2]
      · rw [if_neg h2, if_pos h]

/-- Witness for C6 at concrete queries: a one-byte query empties the
lexical and hybrid searches, a two-codepoint query empties the semantic
search. -/
theorem query_guard_witness :
    search_lexical asciiModel (fun _ => .ok [sampleHit]) "a".data = .ok [] ∧
    search_hybrid asciiModel (fun _ => .ok [sampleHit]) "a".data = .ok [] ∧
    search_semantic asciiModel (fun _ => .ok [sampleHit]) "ab".data = .ok [] := by
  refine ⟨?_, ?_, ?_⟩
  · exact ((query_guard_spec asciiModel (fun _ => .ok [sampleHit]) "a".data).1
      (Or.inl (by decide))).1
  · exact ((query_guard_spec asciiModel (fun _ => .ok [sampleHit]) "a".data).1
      (Or.inl (by decide))).2
  · exact (query_guard_spec asciiModel (fun _ => .ok [sampleHit]) "ab".data).2
      (Or.inl (by decide))

set_option maxRecDepth 8000 in
/-- C6 counterexample: the claim's cleaning order (truncate to 512
codepoints, then trim) is not the code's (trim, then truncate, then
trim). On 600 spaces followed by `ab`, the claim's cleaned query is
empty — so the claim demands an empty hit list — yet `search_lexical`
runs the search and returns the oracle's hits. -/
theorem query_guard_counterexample :
    claimCleanedQuery asciiModel (List.replicate 600 ' ' ++ "ab".data) = [] ∧
    (claimCleanedQuery asciiModel (List.replicate 600 ' ' ++ "ab".data)).length < 2 ∧
    search_lexical asciiModel (fun _ => .ok [sampleHit])
      (List.replicate 600 ' ' ++ "ab".data) = .ok [sampleHit] ∧
    (Except.ok [sampleHit] : Except String (List SearchHit)) ≠ .ok [] := by
  refine ⟨by decide, by decide, by decide, ?_⟩
  intro h
  exact List.cons_ne_nil sampleHit [] (Except.ok.inj h)

/-! ### C7: reciprocal-rank fusion -/

/-- The lexical pass body of `fuse_rrf`, as a named step function. -/
def lexStep (a : RrfAcc) (p : Nat × SearchHit) : RrfAcc :=
  { scores := addScore a.scores (dedupe_key p.2) (1 / (60 + ((p.1 : ℚ) + 1))),
    by_key := orInsertHit a.by_key (dedupe_key p.2) p.2,
    seen_lexical := insertSeen a.seen_lexical (dedupe_key p.2),
    seen_semantic := a.seen_semantic }

/-- The semantic pass body of `fuse_rrf`, as a named step function. -/
def semStep (a : RrfAcc) (p : Nat × SearchHit) : RrfAcc :=
  { scores := addScore a.scores (dedupe_key p.2) (1 / (60 + ((p.1 : ℚ) + 1))),
    by_key := semUpdateHit a.by_key (dedupe_key p.2) p.2,
    seen_lexical := a.seen_lexical,
    seen_semantic := insertSeen a.seen_semantic (dedupe_key p.2) }

def addScores (ps : List (Nat × SearchHit)) (s : List (String × ℚ)) : List (String × ℚ) :=
  ps.foldl (fun s p => addScore s (dedupe_key p.2) (1 / (60 + ((p.1 : ℚ) + 1)))) s

def orInserts (ps : List (Nat × SearchHit)) (b : List (String × SearchHit)) :
    List (String × SearchHit) :=
  ps.foldl (fun b p => orInsertHit b (dedupe_key p.2) p.2) b

def semUpdates (ps : List (Nat × SearchHit)) (b : List (String × SearchHit)) :
    List (String × SearchHit) :=
  ps.foldl (fun b p => semUpdateHit b (dedupe_key p.2) p.2) b

def addSeens (ps : List (Nat × SearchHit)) (seen : List String) : List String :=
  ps.foldl (fun s p => insertSeen s (dedupe_key p.2)) seen

/-- One list's reciprocal-rank contribution to a key (enumerated hits). -/
def rrfContrib (ps : List (Nat × SearchHit)) (key : String) : ℚ :=
  ((ps.filter fun p => dedupe_key p.2 = key).map
    (fun p => (1 : ℚ) / (60 + ((p.1 : ℚ) + 1)))).sum

theorem rrfSum_eq (lex sem : List SearchHit) (key : String) :
    rrfSum lex sem key = rrfContrib lex.enum key + rrfContrib sem.enum key := rfl

theorem lexFold_eq (ps : List (Nat × SearchHit)) (a : RrfAcc) :
    ps.foldl lexStep a =
      ⟨addScores ps a.scores, orInserts ps a.by_key, addSeens ps a.seen_lexical,
        a.seen_semantic⟩ := by
  induction ps generalizing a with
  | nil => rfl
  | cons p rest ih =>
    rw [List.foldl_cons, ih (lexStep a p)]
    rfl

theorem semFold_eq (ps : List (Nat × SearchHit)) (a : RrfAcc) :
    ps.foldl semStep a =
      ⟨addScores ps a.scores, semUpdates ps a.by_key, a.seen_lexical,
        addSeens ps a.seen_semantic⟩ := by
  induction ps generalizing a with
  | nil => rfl
  | cons p rest ih =>
    rw [List.foldl_cons, ih (semStep a p)]
    rfl

theorem rrfAcc_as_folds (lex sem : List SearchHit) :
    rrfAcc lex sem = sem.enum.foldl semStep (lex.enum.foldl lexStep ⟨[], [], [], []⟩) := rfl

theorem rrfAcc_eq (lex sem : List SearchHit) :
    rrfAcc lex sem =
      ⟨addScores sem.enum (addScores lex.enum []),
       semUpdates sem.enum (orInserts lex.enum []),
       addSeens lex.enum [],
       addSeens sem.enum []⟩ := by
  rw [rrfAcc_as_folds, lexFold_eq, semFold_eq]

theorem assocLookup_addScore_self (s : List (String × ℚ)) (key : String) (v : ℚ) :
    assocLookup (addScore s key v) key = some ((assocLookup s key).getD 0 + v) := by
  induction s with
  | nil => simp [addScore, assocLookup]
  | cons kv rest ih =>
    obtain ⟨k0, s0⟩ := kv
    by_cases hk : k0 = key
    · subst hk
      simp [addScore, assocLookup]
    · simp [addScore, assocLookup, hk, ih]

theorem assocLookup_addScore_other (s : List (String × ℚ)) (key k : String) (v : ℚ)
    (h : k ≠ key) :
    assocLookup (addScore s key v) k = assocLookup s k := by
  induction s with
  | nil => simp [addScore, assocLookup, Ne.symm h]
  | cons kv rest ih =>
    obtain ⟨k0, s0⟩ := kv
    by_cases hk : k0 = key
    · subst hk
      simp [addScore, assocLookup, Ne.symm h]
    · by_cases hk2 : k0 = k <;> simp [addScore, assocLookup, hk, hk2, h, ih]

theorem assocLookup_orInsertHit_self (b : List (String × SearchHit)) (key : String)
    (h : SearchHit) :
    assocLookup (orInsertHit b key h) key = some ((assocLookup b key).getD h) := by
  induction b with
  | nil => simp [orInsertHit, assocLookup]
  | cons kv rest ih =>
    obtain ⟨k0, e0⟩ := kv
    by_cases hk : k0 = key
    · subst hk
      simp [orInsertHit, assocLookup]
    · simp [orInsertHit, assocLookup, hk, ih]

theorem assocLookup_orInsertHit_other (b : List (String × SearchHit)) (key k : String)
    (h : SearchHit) (hne : k ≠ key) :
    assocLookup (orInsertHit b key h) k = assocLookup b k := by
  induction b with
  | nil => simp [orInsertHit, assocLookup, Ne.symm hne]
  | cons kv rest ih =>
    obtain ⟨k0, e0⟩ := kv
    by_cases hk : k0 = key
    · subst hk
      simp [orInsertHit, assocLookup, Ne.symm hne]
    · by_cases hk2 : k0 = k <;> simp [orInsertHit, assocLookup, hk, hk2, hne, ih]

theorem assocLookup_semUpdateHit_self (b : List (String × SearchHit)) (key : String)
    (h : SearchHit) :
    assocLookup (semUpdateHit b key h) key =
      some (match assocLookup b key with
            | some e => if e.source = "lexical" then { e with source := "hybrid" } else e
            | none => h) := by
  induction b with
  | nil => simp [semUpdateHit, assocLookup]
  | cons kv rest ih =>
    obtain ⟨k0, e0⟩ := kv
    by_cases hk : k0 = key
    · subst hk
      simp [semUpdateHit, assocLookup]
    · simp [semUpdateHit, assocLookup, hk, ih]

theorem assocLookup_semUpdateHit_other (b : List (String × SearchHit)) (key k : String)
    (h : SearchHit) (hne : k ≠ key) :
    assocLookup (semUpdateHit b key h) k = assocLookup b k := by
  induction b with
  | nil => simp [semUpdateHit, assocLookup, Ne.symm hne]
  | cons kv rest ih =>
    obtain ⟨k0, e0⟩ := kv
    by_cases hk : k0 = key
    · subst hk
      simp [semUpdateHit, assocLookup, Ne.symm hne]
    · by_cases hk2 : k0 = k <;> simp [semUpdateHit, assocLookup, hk, hk2, hne, ih]

theorem assocLookup_mem {α : Type} (s : List (String × α)) (k : String) (v : α)
    (h : assocLookup s k = some v) : (k, v) ∈ s := by
  induction s with
  | nil => exact absurd h (by simp [assocLookup])
  | cons kv rest ih =>
    obtain ⟨k0, v0⟩ := kv
    by_cases hk : k0 = k
    · subst hk
      rw [assocLookup, if_pos rfl] at h
      exact List.mem_cons.mpr (Or.inl (by rw [Option.some.inj h]))
    · rw [assocLookup, if_neg hk] at h
      exact List.mem_cons.mpr (Or.inr (ih h))

theorem assocLookup_of_mem_nodup {α : Type} (s : List (String × α)) (k : String) (v : α)
    (hnd : (s.map Prod.fst).Nodup) (hm : (k, v) ∈ s) : assocLookup s k = some v := by
  induction s with
  | nil => exact absurd hm (by simp)
  | cons kv rest ih =>
    obtain ⟨k0, v0⟩ := kv
    rw [List.map_cons, List.nodup_cons] at hnd
    rcases List.mem_cons.mp hm with h | h
    · rw [Prod.mk.injEq] at h
      rw [assocLookup, if_pos h.1.symm, h.2]
    · have hne : k0 ≠ k := by
        intro he
        exact hnd.1 (he ▸ (List.mem_map.mpr ⟨(k, v), h, rfl⟩))
      rw [assocLookup, if_neg hne]
      exact ih hnd.2 h

theorem addScores_cons (p : Nat × SearchHit) (ps : List (Nat × SearchHit))
    (s : List (String × ℚ)) :
    addScores (p :: ps) s =
      addScores ps (addScore s (dedupe_key p.2) (1 / (60 + ((p.1 : ℚ) + 1)))) := rfl

theorem orInserts_cons (p : Nat × SearchHit) (ps : List (Nat × SearchHit))
    (b : List (String × SearchHit)) :
    orInserts (p :: ps) b = orInserts ps (orInsertHit b (dedupe_key p.2) p.2) := rfl

theorem semUpdates_cons (p : Nat × SearchHit) (ps : List (Nat × SearchHit))
    (b : List (String × SearchHit)) :
    semUpdates (p :: ps) b = semUpdates ps (semUpdateHit b (dedupe_key p.2) p.2) := rfl

theorem addSeens_cons (p : Nat × SearchHit) (ps : List (Nat × SearchHit))
    (seen : List String) :
    addSeens (p :: ps) seen = addSeens ps (insertSeen seen (dedupe_key p.2)) := rfl

theorem rrfContrib_cons (p : Nat × SearchHit) (ps : List (Nat × SearchHit)) (key : String) :
    rrfContrib (p :: ps) key =
      if dedupe_key p.2 = key then 1 / (60 + ((p.1 : ℚ) + 1)) + rrfContrib ps key
      else rrfContrib ps key := by
  by_cases h : dedupe_key p.2 = key <;> simp [rrfContrib, List.filter_cons, h]

theorem rrfContrib_eq_zero (ps : List (Nat × SearchHit)) (key : String)
    (h : ∀ p ∈ ps, dedupe_key p.2 ≠ key) : rrfContrib ps key = 0 := by
  rw [rrfContrib, List.filter_eq_nil_iff.mpr (by intro p hp; simpa using h p hp)]
  rfl

theorem assocLookup_addScores_present (ps : List (Nat × SearchHit)) (s : List (String × ℚ))
    (k : String) (v : ℚ) (h : assocLookup s k = some v) :
    assocLookup (addScores ps s) k = some (v + rrfContrib ps k) := by
  induction ps generalizing s v with
  | nil =>
    rw [show addScores [] s = s from rfl, h, rrfContrib_eq_zero [] k (by intro p hp; cases hp)]
    rw [add_zero]
  | cons p rest ih =>
    rw [addScores_cons, rrfContrib_cons]
    by_cases hk : dedupe_key p.2 = k
    · subst hk
      rw [if_pos rfl]
      have h2 := assocLookup_addScore_self s (dedupe_key p.2) (1 / (60 + ((p.1 : ℚ) + 1)))
      rw [h, Option.getD_some] at h2
      rw [ih _ _ h2, add_assoc]
    · rw [if_neg hk]
      refine ih _ _ ?_
      rw [assocLookup_addScore_other _ _ _ _ (Ne.symm hk)]
      exact h

theorem assocLookup_addScores_absent (ps : List (Nat × SearchHit)) (s : List (String × ℚ))
    (k : String) (h : assocLookup s k = none)
    (hocc : ∀ p ∈ ps, dedupe_key p.2 ≠ k) :
    assocLookup (addScores ps s) k = none := by
  induction ps generalizing s with
  | nil => exact h
  | cons p rest ih =>
    rw [addScores_cons]
    refine ih _ ?_ (fun q hq => hocc q (List.mem_cons_of_mem _ hq))
    rw [assocLookup_addScore_other _ _ _ _
      (Ne.symm (hocc p (List.mem_cons_self _ _)))]
    exact h

theorem assocLookup_addScores_new (ps : List (Nat × SearchHit)) (s : List (String × ℚ))
    (k : String) (h : assocLookup s k = none)
    (hocc : ∃ p ∈ ps, dedupe_key p.2 = k) :
    assocLookup (addScores ps s) k = some (rrfContrib ps k) := by
  induction ps generalizing s with
  | nil =>
    obtain ⟨p, hp, -⟩ := hocc
    cases hp
  | cons p rest ih =>
    rw [addScores_cons, rrfContrib_cons]
    by_cases hk : dedupe_key p.2 = k
    · subst hk
      rw [if_pos rfl]
      have h2 := assocLookup_addScore_self s (dedupe_key p.2) (1 / (60 + ((p.1 : ℚ) + 1)))
      rw [h, Option.getD_none, zero_add] at h2
      exact assocLookup_addScores_present rest _ _ _ h2
    · rw [if_neg hk]
      obtain ⟨q, hq, hqk⟩ := hocc
      rcases List.mem_cons.mp hq with rfl | hq2
      · exact absurd hqk hk
      · refine ih _ ?_ ⟨q, hq2, hqk⟩
        rw [assocLookup_addScore_other _ _ _ _ (Ne.symm hk)]
        exact h

theorem scores_final_some (lex sem : List SearchHit) (k : String)
    (hocc : (∃ p ∈ lex.enum, dedupe_key p.2 = k) ∨ (∃ p ∈ sem.enum, dedupe_key p.2 = k)) :
    assocLookup (addScores sem.enum (addScores lex.enum [])) k =
      some (rrfSum lex sem k) := by
  rw [rrfSum_eq]
  by_cases hL : ∃ p ∈ lex.enum, dedupe_key p.2 = k
  · have h1 := assocLookup_addScores_new lex.enum [] k rfl hL
    exact assocLookup_addScores_present sem.enum _ _ _ h1
  · have hL2 : ∀ p ∈ lex.enum, dedupe_key p.2 ≠ k := by
      intro p hp hk
      exact hL ⟨p, hp, hk⟩
    have h1 := assocLookup_addScores_absent lex.enum [] k rfl hL2
    rcases hocc with h2 | hS
    · exact absurd h2 hL
    · rw [rrfContrib_eq_zero lex.enum k hL2, zero_add]
      exact assocLookup_addScores_new sem.enum _ _ h1 hS

theorem scores_final_none (lex sem : List SearchHit) (k : String)
    (hL : ∀ p ∈ lex.enum, dedupe_key p.2 ≠ k)
    (hS : ∀ p ∈ sem.enum, dedupe_key p.2 ≠ k) :
    assocLookup (addScores sem.enum (addScores lex.enum [])) k = none :=
  assocLookup_addScores_absent sem.enum _ _
    (assocLookup_addScores_absent lex.enum [] k rfl hL) hS

theorem addScore_keys (s : List (String × ℚ)) (key : String) (v : ℚ) :
    (addScore s key v).map Prod.fst =
      if key ∈ s.map Prod.fst then s.map Prod.fst else s.map Prod.fst ++ [key] := by
  induction s with
  | nil => simp [addScore]
  | cons kv rest ih =>
    obtain ⟨k0, s0⟩ := kv
    by_cases hk : k0 = key
    · subst hk
      simp [addScore]
    · by_cases hmem : key ∈ rest.map Prod.fst <;>
        simp [addScore, hk, Ne.symm hk, hmem, ih]

theorem addScores_nodup_keys (ps : List (Nat × SearchHit)) (s : List (String × ℚ))
    (h : (s.map Prod.fst).Nodup) : ((addScores ps s).map Prod.fst).Nodup := by
  induction ps generalizing s with
  | nil => exact h
  | cons p rest ih =>
    rw [addScores_cons]
    refine ih _ ?_
    rw [addScore_keys]
    by_cases hmem : dedupe_key p.2 ∈ s.map Prod.fst
    · rw [if_pos hmem]; exact h
    · rw [if_neg hmem]
      simp [List.nodup_append, h, hmem]

theorem mem_insertSeen (seen : List String) (key k : String) :
    k ∈ insertSeen seen key ↔ k ∈ seen ∨ k = key := by
  rw [insertSeen]
  by_cases h : key ∈ seen
  · rw [if_pos h]
    constructor
    · exact Or.inl
    · rintro (h2 | rfl)
      · exact h2
      · exact h
  · rw [if_neg h]
    simp

theorem mem_addSeens (ps : List (Nat × SearchHit)) (seen : List String) (k : String) :
    k ∈ addSeens ps seen ↔ k ∈ seen ∨ ∃ p ∈ ps, dedupe_key p.2 = k := by
  induction ps generalizing seen with
  | nil => simp [addSeens]
  | cons p rest ih =>
    rw [addSeens_cons, ih, mem_insertSeen]
    constructor
    · rintro ((h | h) | ⟨q, hq, hqk⟩)
      · exact Or.inl h
      · exact Or.inr ⟨p, List.mem_cons_self _ _, h.symm⟩
      · exact Or.inr ⟨q, List.mem_cons_of_mem _ hq, hqk⟩
    · rintro (h | ⟨q, hq, hqk⟩)
      · exact Or.inl (Or.inl h)
      · rcases List.mem_cons.mp hq with rfl | hq2
        · exact Or.inl (Or.inr hqk.symm)
        · exact Or.inr ⟨q, hq2, hqk⟩

theorem assocLookup_orInserts_present (ps : List (Nat × SearchHit))
    (b : List (String × SearchHit)) (k : String) (e : SearchHit)
    (h : assocLookup b k = some e) :
    assocLookup (orInserts ps b) k = some e := by
  induction ps generalizing b with
  | nil => exact h
  | cons p rest ih =>
    rw [orInserts_cons]
    refine ih _ ?_
    by_cases hk : dedupe_key p.2 = k
    · subst hk
      rw [assocLookup_orInsertHit_self, h, Option.getD_some]
    · rw [assocLookup_orInsertHit_other _ _ _ _ (Ne.symm hk)]
      exact h

theorem assocLookup_orInserts_untouched (ps : List (Nat × SearchHit))
    (b : List (String × SearchHit)) (k : String)
    (hocc : ∀ p ∈ ps, dedupe_key p.2 ≠ k) :
    assocLookup (orInserts ps b) k = assocLookup b k := by
  induction ps generalizing b with
  | nil => rfl
  | cons p rest ih =>
    rw [orInserts_cons, ih _ (fun q hq => hocc q (List.mem_cons_of_mem _ hq))]
    exact assocLookup_orInsertHit_other _ _ _ _
      (Ne.symm (hocc p (List.mem_cons_self _ _)))

theorem assocLookup_orInserts_new (ps : List (Nat × SearchHit))
    (b : List (String × SearchHit)) (k : String)
    (h : assocLookup b k = none) (hocc : ∃ p ∈ ps, dedupe_key p.2 = k) :
    ∃ p, p ∈ ps ∧ dedupe_key p.2 = k ∧ assocLookup (orInserts ps b) k = some p.2 := by
  induction ps generalizing b with
  | nil =>
    obtain ⟨p, hp, -⟩ := hocc
    cases hp
  | cons p rest ih =>
    by_cases hk : dedupe_key p.2 = k
    · refine ⟨p, List.mem_cons_self _ _, hk, ?_⟩
      rw [orInserts_cons]
      refine assocLookup_orInserts_present rest _ _ _ ?_
      subst hk
      rw [assocLookup_orInsertHit_self, h, Option.getD_none]
    · obtain ⟨q, hq, hqk⟩ := hocc
      rcases List.mem_cons.mp hq with rfl | hq2
      · exact absurd hqk hk
      · rw [orInserts_cons]
        obtain ⟨r, hr, hrk, hres⟩ := ih (orInsertHit b (dedupe_key p.2) p.2)
          (by rw [assocLookup_orInsertHit_other _ _ _ _ (Ne.symm hk)]; exact h)
          ⟨q, hq2, hqk⟩
        exact ⟨r, List.mem_cons_of_mem _ hr, hrk, hres⟩

theorem assocLookup_semUpdates_untouched (ps : List (Nat × SearchHit))
    (b : List (String × SearchHit)) (k : String)
    (hocc : ∀ p ∈ ps, dedupe_key p.2 ≠ k) :
    assocLookup (semUpdates ps b) k = assocLookup b k := by
  induction ps generalizing b with
  | nil => rfl
  | cons p rest ih =>
    rw [semUpdates_cons, ih _ (fun q hq => hocc q (List.mem_cons_of_mem _ hq))]
    exact assocLookup_semUpdateHit_other _ _ _ _
      (Ne.symm (hocc p (List.mem_cons_self _ _)))

theorem assocLookup_semUpdates_isSome (ps : List (Nat × SearchHit))
    (b : List (String × SearchHit)) (k : String) (e : SearchHit)
    (h : assocLookup b k = some e) :
    ∃ e', assocLookup (semUpdates ps b) k = some e' := by
  induction ps generalizing b e with
  | nil => exact ⟨e, h⟩
  | cons p rest ih =>
    rw [semUpdates_cons]
    by_cases hk : dedupe_key p.2 = k
    · subst hk
      refine ih _ (if e.source = "lexical" then { e with source := "hybrid" } else e) ?_
      rw [assocLookup_semUpdateHit_self, h]
    · refine ih _ e ?_
      rw [assocLookup_semUpdateHit_other _ _ _ _ (Ne.symm hk)]
      exact h

theorem assocLookup_semUpdates_keep (ps : List (Nat × SearchHit))
    (b : List (String × SearchHit)) (k : String) (e : SearchHit)
    (h : assocLookup b k = some e) (hsrc : e.source ≠ "lexical") :
    assocLookup (semUpdates ps b) k = some e := by
  induction ps generalizing b with
  | nil => exact h
  | cons p rest ih =>
    rw [semUpdates_cons]
    refine ih _ ?_
    by_cases hk : dedupe_key p.2 = k
    · subst hk
      rw [assocLookup_semUpdateHit_self, h]
      show some (if e.source = "lexical" then { e with source := "hybrid" } else e) = some e
      rw [if_neg hsrc]
    · rw [assocLookup_semUpdateHit_other _ _ _ _ (Ne.symm hk)]
      exact h

theorem assocLookup_semUpdates_new (ps : List (Nat × SearchHit))
    (b : List (String × SearchHit)) (k : String)
    (h : assocLookup b k = none)
    (hsrc : ∀ p ∈ ps, p.2.source ≠ "lexical")
    (hocc : ∃ p ∈ ps, dedupe_key p.2 = k) :
    ∃ p, p ∈ ps ∧ dedupe_key p.2 = k ∧
      assocLookup (semUpdates ps b) k = some p.2 := by
  induction ps generalizing b with
  | nil =>
    obtain ⟨p, hp, -⟩ := hocc
    cases hp
  | cons p rest ih =>
    by_cases hk : dedupe_key p.2 = k
    · refine ⟨p, List.mem_cons_self _ _, hk, ?_⟩
      rw [semUpdates_cons]
      refine assocLookup_semUpdates_keep rest _ _ _ ?_
        (hsrc p (List.mem_cons_self _ _))
      subst hk
      rw [assocLookup_semUpdateHit_self, h]
    · obtain ⟨q, hq, hqk⟩ := hocc
      rcases List.mem_cons.mp hq with rfl | hq2
      · exact absurd hqk hk
      · rw [semUpdates_cons]
        obtain ⟨r, hr, hrk, hres⟩ := ih (semUpdateHit b (dedupe_key p.2) p.2)
          (by rw [assocLookup_semUpdateHit_other _ _ _ _ (Ne.symm hk)]; exact h)
          (fun q' hq' => hsrc q' (List.mem_cons_of_mem _ hq'))
          ⟨q, hq2, hqk⟩
        exact ⟨r, List.mem_cons_of_mem _ hr, hrk, hres⟩

/-- Every association stored in `by_key` maps a key to a hit whose
deduplication key is that key. -/
def GoodB (b : List (String × SearchHit)) : Prop :=
  ∀ k e, assocLookup b k = some e → dedupe_key e = k

theorem goodB_nil : GoodB [] := by
  intro k e h
  exact absurd h (by simp [assocLookup])

theorem goodB_orInsertHit (b : List (String × SearchHit)) (key : String) (h : SearchHit)
    (hb : GoodB b) (hh : dedupe_key h = key) : GoodB (orInsertHit b key h) := by
  intro k e he
  by_cases hk : k = key
  · subst hk
    rw [assocLookup_orInsertHit_self] at he
    cases hlb : assocLookup b k with
    | none =>
      rw [hlb, Option.getD_none] at he
      rw [Option.some.inj he] at hh
      exact hh
    | some e0 =>
      rw [hlb, Option.getD_some] at he
      rw [← Option.some.inj he]
      exact hb _ _ hlb
  · rw [assocLookup_orInsertHit_other _ _ _ _ hk] at he
    exact hb _ _ he

theorem dedupe_key_set_source (e : SearchHit) (s : String) :
    dedupe_key { e with source := s } = dedupe_key e := rfl

theorem goodB_semUpdateHit (b : List (String × SearchHit)) (key : String) (h : SearchHit)
    (hb : GoodB b) (hh : dedupe_key h = key) : GoodB (semUpdateHit b key h) := by
  intro k e he
  by_cases hk : k = key
  · subst hk
    rw [assocLookup_semUpdateHit_self] at he
    cases hlb : assocLookup b k with
    | none =>
      rw [hlb] at he
      replace he : some h = some e := he
      rw [Option.some.inj he] at hh
      exact hh
    | some e0 =>
      rw [hlb] at he
      replace he : some (if e0.source = "lexical" then { e0 with source := "hybrid" }
        else e0) = some e := he
      rw [← Option.some.inj he]
      by_cases hsrc : e0.source = "lexical"
      · rw [if_pos hsrc, dedupe_key_set_source]
        exact hb _ _ hlb
      · rw [if_neg hsrc]
        exact hb _ _ hlb
  · rw [assocLookup_semUpdateHit_other _ _ _ _ hk] at he
    exact hb _ _ he

theorem goodB_orInserts (ps : List (Nat × SearchHit)) (b : List (String × SearchHit))
    (hb : GoodB b) : GoodB (orInserts ps b) := by
  induction ps generalizing b with
  | nil => exact hb
  | cons p rest ih =>
    rw [orInserts_cons]
    exact ih _ (goodB_orInsertHit _ _ _ hb rfl)

theorem goodB_semUpdates (ps : List (Nat × SearchHit)) (b : List (String × SearchHit))
    (hb : GoodB b) : GoodB (semUpdates ps b) := by
  induction ps generalizing b with
  | nil => exact hb
  | cons p rest ih =>
    rw [semUpdates_cons]
    exact ih _ (goodB_semUpdateHit _ _ _ hb rfl)

theorem snd_mem_of_mem_enum {l : List SearchHit} {p : Nat × SearchHit} (h : p ∈ l.enum) :
    p.2 ∈ l := by
  have := List.mem_map_of_mem Prod.snd h
  rwa [List.enum_map_snd] at this

theorem exists_enum_occ (l : List SearchHit) (k : String) :
    (∃ p ∈ l.enum, dedupe_key p.2 = k) ↔ ∃ a ∈ l, dedupe_key a = k := by
  constructor
  · rintro ⟨p, hp, hk⟩
    exact ⟨p.2, snd_mem_of_mem_enum hp, hk⟩
  · rintro ⟨a, ha, hk⟩
    have h2 : a ∈ l.enum.map Prod.snd := by rwa [List.enum_map_snd]
    obtain ⟨p, hp, hpa⟩ := List.mem_map.mp h2
    exact ⟨p, hp, by rw [hpa]; exact hk⟩

theorem by_key_of_lex (lex sem : List SearchHit) (k : String)
    (hL : ∃ p ∈ lex.enum, dedupe_key p.2 = k) :
    ∃ e, assocLookup (semUpdates sem.enum (orInserts lex.enum [])) k = some e ∧
      dedupe_key e = k := by
  obtain ⟨p, hp, hpk, hres⟩ := assocLookup_orInserts_new lex.enum [] k rfl hL
  obtain ⟨e', he'⟩ := assocLookup_semUpdates_isSome sem.enum _ _ _ hres
  exact ⟨e', he', goodB_semUpdates _ _ (goodB_orInserts _ _ goodB_nil) _ _ he'⟩

theorem by_key_lex_only (lex sem : List SearchHit) (k : String)
    (hlex : ∀ h ∈ lex, h.source = "lexical")
    (hL : ∃ p ∈ lex.enum, dedupe_key p.2 = k)
    (hS : ∀ p ∈ sem.enum, dedupe_key p.2 ≠ k) :
    ∃ e, assocLookup (semUpdates sem.enum (orInserts lex.enum [])) k = some e ∧
      dedupe_key e = k ∧ e.source = "lexical" := by
  obtain ⟨p, hp, hpk, hres⟩ := assocLookup_orInserts_new lex.enum [] k rfl hL
  refine ⟨p.2, ?_, hpk, hlex p.2 (snd_mem_of_mem_enum hp)⟩
  rw [assocLookup_semUpdates_untouched _ _ _ hS]
  exact hres

theorem by_key_sem_only (lex sem : List SearchHit) (k : String)
    (hsem : ∀ h ∈ sem, h.source = "semantic")
    (hL : ∀ p ∈ lex.enum, dedupe_key p.2 ≠ k)
    (hS : ∃ p ∈ sem.enum, dedupe_key p.2 = k) :
    ∃ e, assocLookup (semUpdates sem.enum (orInserts lex.enum [])) k = some e ∧
      dedupe_key e = k ∧ e.source = "semantic" := by
  have h0 : assocLookup (orInserts lex.enum []) k = none := by
    rw [assocLookup_orInserts_untouched _ _ _ hL]
    rfl
  obtain ⟨p, hp, hpk, hres⟩ := assocLookup_semUpdates_new sem.enum _ k h0
    (fun q hq => by
      rw [hsem q.2 (snd_mem_of_mem_enum hq)]
      decide)
    hS
  exact ⟨p.2, hres, hpk, hsem p.2 (snd_mem_of_mem_enum hp)⟩

theorem by_key_none (lex sem : List SearchHit) (k : String)
    (hL : ∀ p ∈ lex.enum, dedupe_key p.2 ≠ k)
    (hS : ∀ p ∈ sem.enum, dedupe_key p.2 ≠ k) :
    assocLookup (semUpdates sem.enum (orInserts lex.enum [])) k = none := by
  rw [assocLookup_semUpdates_untouched _ _ _ hS,
    assocLookup_orInserts_untouched _ _ _ hL]
  rfl

theorem rrfRanked_eq (lex sem : List SearchHit) :
    rrfRanked lex sem =
      (addScores sem.enum (addScores lex.enum [])).filterMap (fun p =>
        match assocLookup (semUpdates sem.enum (orInserts lex.enum [])) p.1 with
        | none => none
        | some hit =>
          some { (if p.1 ∈ addSeens lex.enum [] ∧ p.1 ∈ addSeens sem.enum [] then
                    { hit with source := "hybrid" }
                  else hit) with
                 score := 1000 - p.2 * 1000 }) := by
  rw [rrfRanked, rrfAcc_eq]

theorem rrfContrib_ge (l : List SearchHit) (key : String) (i : Nat) (b : SearchHit)
    (hi : l[i]? = some b) (hb : dedupe_key b = key) :
    1 / (60 + ((i : ℚ) + 1)) ≤ rrfContrib l.enum key := by
  have hmem : (i, b) ∈ l.enum := (List.mk_mem_enum_iff_getElem? ..).mpr hi
  have hfmem : (i, b) ∈ l.enum.filter (fun p => dedupe_key p.2 = key) :=
    List.mem_filter.mpr ⟨hmem, by simp [hb]⟩
  have hmf : (1 : ℚ) / (60 + ((i : ℚ) + 1)) ∈
      (l.enum.filter (fun p => dedupe_key p.2 = key)).map
        (fun p => (1 : ℚ) / (60 + ((p.1 : ℚ) + 1))) :=
    List.mem_map_of_mem _ hfmem
  refine List.single_le_sum ?_ _ hmf
  intro x hx
  obtain ⟨p, hp, rfl⟩ := List.mem_map.mp hx
  positivity

theorem rrfContrib_single (l : List SearchHit) (key : String) (i : Nat) (b : SearchHit)
    (hi : l[i]? = some b) (hb : dedupe_key b = key)
    (hcount : l.countP (fun h => dedupe_key h = key) = 1) :
    rrfContrib l.enum key = 1 / (60 + ((i : ℚ) + 1)) := by
  have hmem : (i, b) ∈ l.enum := (List.mk_mem_enum_iff_getElem? ..).mpr hi
  have hfmem : (i, b) ∈ l.enum.filter (fun p => dedupe_key p.2 = key) :=
    List.mem_filter.mpr ⟨hmem, by simp [hb]⟩
  have hlen : (l.enum.filter (fun p => dedupe_key p.2 = key)).length = 1 := by
    rw [← List.countP_eq_length_filter]
    have h2 := List.countP_map
      (fun h : SearchHit => decide (dedupe_key h = key)) Prod.snd l.enum
    rw [List.enum_map_snd] at h2
    rw [show (fun p : Nat × SearchHit => decide (dedupe_key p.2 = key)) =
      ((fun h : SearchHit => decide (dedupe_key h = key)) ∘ Prod.snd) from rfl]
    rw [← h2]
    exact hcount
  obtain ⟨x, hx⟩ := List.length_eq_one.mp hlen
  have hxe : (i, b) = x := List.mem_singleton.mp (hx ▸ hfmem)
  rw [rrfContrib, hx, ← hxe]
  simp

theorem filterMap_keys_nodup (f : String × ℚ → Option SearchHit)
    (s : List (String × ℚ)) (hnd : (s.map Prod.fst).Nodup)
    (hf : ∀ p h, f p = some h → dedupe_key h = p.1) :
    ((s.filterMap f).map dedupe_key).Nodup := by
  induction s with
  | nil => simp
  | cons p rest ih =>
    rw [List.map_cons, List.nodup_cons] at hnd
    rw [List.filterMap_cons]
    cases hfp : f p with
    | none => exact ih hnd.2
    | some h =>
      rw [List.map_cons, List.nodup_cons]
      refine ⟨?_, ih hnd.2⟩
      intro hmem2
      obtain ⟨h', hh', hdk⟩ := List.mem_map.mp hmem2
      obtain ⟨q, hq, hfq⟩ := List.mem_filterMap.mp hh'
      rw [hf q h' hfq, hf p h hfp] at hdk
      exact hnd.1 (hdk ▸ List.mem_map_of_mem Prod.fst hq)

theorem rrfRanked_fun_keys (lex sem : List SearchHit) :
    ∀ (p : String × ℚ) (h : SearchHit),
      (match assocLookup (semUpdates sem.enum (orInserts lex.enum [])) p.1 with
        | none => none
        | some hit =>
          some { (if p.1 ∈ addSeens lex.enum [] ∧ p.1 ∈ addSeens sem.enum [] then
                    { hit with source := "hybrid" }
                  else hit) with
                 score := 1000 - p.2 * 1000 }) = some h →
      dedupe_key h = p.1 := by
  intro p h hfp
  cases heq : assocLookup (semUpdates sem.enum (orInserts lex.enum [])) p.1 with
  | none =>
    rw [heq] at hfp
    replace hfp : (none : Option SearchHit) = some h := hfp
    cases hfp
  | some e =>
    rw [heq] at hfp
    replace hfp : some { (if p.1 ∈ addSeens lex.enum [] ∧ p.1 ∈ addSeens sem.enum [] then
        { e with source := "hybrid" }
      else e) with score := 1000 - p.2 * 1000 } = some h := hfp
    have hgood := goodB_semUpdates sem.enum _ (goodB_orInserts lex.enum [] goodB_nil)
      p.1 e heq
    rw [← Option.some.inj hfp]
    by_cases hc : p.1 ∈ addSeens lex.enum [] ∧ p.1 ∈ addSeens sem.enum []
    · rw [if_pos hc]
      exact hgood
    · rw [if_neg hc]
      exact hgood

/-- C7: `fuse_rrf`'s ranked list (before sorting and truncation) assigns
each deduplication key the score sum of `1/(60 + rank)` over its
occurrences in the lexical and semantic lists, reports the external
score `1000 − 1000·sum` (lower is better), marks a hit's source as
`hybrid` exactly when its key appears in both lists, and produces each
occurring key exactly once; a key occurring exactly once, at position
`i` of one list, gets sum `1/(60 + (i+1))`, and a key ranked at
position `i` in both lists always gets a strictly better (smaller)
external score than that. -/
theorem fuse_rrf_spec (lexical_hits semantic_hits : List SearchHit)
    (hlex : ∀ h ∈ lexical_hits, h.source = "lexical")
    (hsem : ∀ h ∈ semantic_hits, h.source = "semantic") :
    (∀ hit ∈ rrfRanked lexical_hits semantic_hits,
       hit.score = 1000 - rrfSum lexical_hits semantic_hits (dedupe_key hit) * 1000 ∧
       (hit.source = "hybrid" ↔
         (∃ a ∈ lexical_hits, dedupe_key a = dedupe_key hit) ∧
         (∃ b ∈ semantic_hits, dedupe_key b = dedupe_key hit))) ∧
    (∀ key, ((∃ a ∈ lexical_hits, dedupe_key a = key) ∨
             (∃ b ∈ semantic_hits, dedupe_key b = key)) →
       ∃ hit ∈ rrfRanked lexical_hits semantic_hits, dedupe_key hit = key) ∧
    ((rrfRanked lexical_hits semantic_hits).map dedupe_key).Nodup ∧
    (∀ (i : Nat) (b : SearchHit) (key : String),
       (lexical_hits[i]? = some b ∨ semantic_hits[i]? = some b) →
       dedupe_key b = key →
       lexical_hits.countP (fun h => dedupe_key h = key) +
         semantic_hits.countP (fun h => dedupe_key h = key) = 1 →
       rrfSum lexical_hits semantic_hits key = 1 / (60 + ((i : ℚ) + 1))) ∧
    (∀ (i : Nat) (a b : SearchHit) (key : String),
       lexical_hits[i]? = some a → semantic_hits[i]? = some b →
       dedupe_key a = key → dedupe_key b = key →
       1000 - rrfSum lexical_hits semantic_hits key * 1000 <
         1000 - (1 / (60 + ((i : ℚ) + 1))) * 1000) := by
  have hnd : ((addScores semantic_hits.enum
      (addScores lexical_hits.enum [])).map Prod.fst).Nodup :=
    addScores_nodup_keys _ _ (addScores_nodup_keys _ _ (by simp))
  refine ⟨?_, ?_, ?_, ?_, ?_⟩
  · intro hit hmem
    rw [rrfRanked_eq] at hmem
    obtain ⟨p, hp, hfp⟩ := List.mem_filterMap.mp hmem
    replace hfp : (match assocLookup
        (semUpdates semantic_hits.enum (orInserts lexical_hits.enum [])) p.1 with
      | none => none
      | some h0 =>
        some { (if p.1 ∈ addSeens lexical_hits.enum [] ∧
                    p.1 ∈ addSeens semantic_hits.enum [] then
                  { h0 with source := "hybrid" }
                else h0) with
               score := 1000 - p.2 * 1000 }) = some hit := hfp
    have hlook : assocLookup (addScores semantic_hits.enum
        (addScores lexical_hits.enum [])) p.1 = some p.2 :=
      assocLookup_of_mem_nodup _ _ _ hnd hp
    by_cases hL : ∃ q ∈ lexical_hits.enum, dedupe_key q.2 = p.1
    · by_cases hS : ∃ q ∈ semantic_hits.enum, dedupe_key q.2 = p.1
      · obtain ⟨e, he, hek⟩ := by_key_of_lex lexical_hits semantic_hits p.1 hL
        have hseen : p.1 ∈ addSeens lexical_hits.enum [] ∧
            p.1 ∈ addSeens semantic_hits.enum [] :=
          ⟨(mem_addSeens _ _ _).mpr (Or.inr hL), (mem_addSeens _ _ _).mpr (Or.inr hS)⟩
        rw [he] at hfp
        replace hfp : some { (if p.1 ∈ addSeens lexical_hits.enum [] ∧
            p.1 ∈ addSeens semantic_hits.enum [] then
              { e with source := "hybrid" }
            else e) with score := 1000 - p.2 * 1000 } = some hit := hfp
        rw [if_pos hseen] at hfp
        have hhit := (Option.some.inj hfp).symm
        have hval : p.2 = rrfSum lexical_hits semantic_hits p.1 :=
          Option.some.inj
            (hlook.symm.trans (scores_final_some _ _ _ (Or.inl hL)))
        have hdk : dedupe_key hit = p.1 := by
          rw [hhit]
          exact hek
        constructor
        · rw [hdk, ← hval, hhit]
        · rw [hdk, hhit]
          exact iff_of_true rfl
            ⟨(exists_enum_occ _ _).mp hL, (exists_enum_occ _ _).mp hS⟩
      · obtain ⟨e, he, hek, hsrc⟩ := by_key_lex_only lexical_hits semantic_hits p.1 hlex hL
          (fun q hq hk => hS ⟨q, hq, hk⟩)
        have hnseen : ¬ (p.1 ∈ addSeens lexical_hits.enum [] ∧
            p.1 ∈ addSeens semantic_hits.enum []) := by
          rintro ⟨-, h2⟩
          rcases (mem_addSeens _ _ _).mp h2 with h3 | h3
          · cases h3
          · exact hS h3
        rw [he] at hfp
        replace hfp : some { (if p.1 ∈ addSeens lexical_hits.enum [] ∧
            p.1 ∈ addSeens semantic_hits.enum [] then
              { e with source := "hybrid" }
            else e) with score := 1000 - p.2 * 1000 } = some hit := hfp
        rw [if_neg hnseen] at hfp
        have hhit := (Option.some.inj hfp).symm
        have hval : p.2 = rrfSum lexical_hits semantic_hits p.1 :=
          Option.some.inj
            (hlook.symm.trans (scores_final_some _ _ _ (Or.inl hL)))
        have hdk : dedupe_key hit = p.1 := by
          rw [hhit]
          exact hek
        constructor
        · rw [hdk, ← hval, hhit]
        · rw [hdk, hhit]
          refine iff_of_false ?_ ?_
          · intro hcon
            replace hcon : e.source = "hybrid" := hcon
            rw [hsrc] at hcon
            exact absurd hcon (by decide)
          · rintro ⟨-, hoccS⟩
            exact hS ((exists_enum_occ _ _).mpr hoccS)
    · by_cases hS : ∃ q ∈ semantic_hits.enum, dedupe_key q.2 = p.1
      · obtain ⟨e, he, hek, hsrc⟩ := by_key_sem_only lexical_hits semantic_hits p.1 hsem
          (fun q hq hk => hL ⟨q, hq, hk⟩) hS
        have hnseen : ¬ (p.1 ∈ addSeens lexical_hits.enum [] ∧
            p.1 ∈ addSeens semantic_hits.enum []) := by
          rintro ⟨h2, -⟩
          rcases (mem_addSeens _ _ _).mp h2 with h3 | h3
          · cases h3
          · exact hL h3
        rw [he] at hfp
        replace hfp : some { (if p.1 ∈ addSeens lexical_hits.enum [] ∧
            p.1 ∈ addSeens semantic_hits.enum [] then
              { e with source := "hybrid" }
            else e) with score := 1000 - p.2 * 1000 } = some hit := hfp
        rw [if_neg hnseen] at hfp
        have hhit := (Option.some.inj hfp).symm
        have hval : p.2 = rrfSum lexical_hits semantic_hits p.1 :=
          Option.some.inj
            (hlook.symm.trans (scores_final_some _ _ _ (Or.inr hS)))
        have hdk : dedupe_key hit = p.1 := by
          rw [hhit]
          exact hek
        constructor
        · rw [hdk, ← hval, hhit]
        · rw [hdk, hhit]
          refine iff_of_false ?_ ?_
          · intro hcon
            replace hcon : e.source = "hybrid" := hcon
            rw [hsrc] at hcon
            exact absurd hcon (by decide)
          · rintro ⟨hoccL, -⟩
            exact hL ((exists_enum_occ _ _).mpr hoccL)
      · have := scores_final_none lexical_hits semantic_hits p.1
          (fun q hq hk => hL ⟨q, hq, hk⟩) (fun q hq hk => hS ⟨q, hq, hk⟩)
        rw [hlook] at this
        cases this
  · intro key hocc
    have hoccE : (∃ p ∈ lexical_hits.enum, dedupe_key p.2 = key) ∨
        (∃ p ∈ semantic_hits.enum, dedupe_key p.2 = key) := by
      rcases hocc with h | h
      · exact Or.inl ((exists_enum_occ _ _).mpr h)
      · exact Or.inr ((exists_enum_occ _ _).mpr h)
    have hlook := scores_final_some lexical_hits semantic_hits key hoccE
    have hmem := assocLookup_mem _ _ _ hlook
    have hbk : ∃ e, assocLookup
        (semUpdates semantic_hits.enum (orInserts lexical_hits.enum [])) key = some e ∧
        dedupe_key e = key := by
      rcases hoccE with hL | hS
      · exact by_key_of_lex lexical_hits semantic_hits key hL
      · by_cases hL2 : ∃ p ∈ lexical_hits.enum, dedupe_key p.2 = key
        · exact by_key_of_lex lexical_hits semantic_hits key hL2
        · obtain ⟨e, he, hek, -⟩ := by_key_sem_only lexical_hits semantic_hits key hsem
            (fun q hq hk => hL2 ⟨q, hq, hk⟩) hS
          exact ⟨e, he, hek⟩
    obtain ⟨e, he, hek⟩ := hbk
    rw [rrfRanked_eq]
    by_cases hc : key ∈ addSeens lexical_hits.enum [] ∧
        key ∈ addSeens semantic_hits.enum []
    · refine ⟨{ { e with source := "hybrid" } with
          score := 1000 - rrfSum lexical_hits semantic_hits key * 1000 },
        List.mem_filterMap.mpr ⟨(key, rrfSum lexical_hits semantic_hits key), hmem, ?_⟩,
        ?_⟩
      · show (match assocLookup
            (semUpdates semantic_hits.enum (orInserts lexical_hits.enum [])) key with
          | none => none
          | some h0 =>
            some { (if key ∈ addSeens lexical_hits.enum [] ∧
                        key ∈ addSeens semantic_hits.enum [] then
                      { h0 with source := "hybrid" }
                    else h0) with
                   score := 1000 - rrfSum lexical_hits semantic_hits key * 1000 }) = _
        rw [he]
        show some { (if key ∈ addSeens lexical_hits.enum [] ∧
              key ∈ addSeens semantic_hits.enum [] then
            { e with source := "hybrid" }
          else e) with
            score := 1000 - rrfSum lexical_hits semantic_hits key * 1000 } = _
        rw [if_pos hc]
      · exact hek
    · refine ⟨{ e with
          score := 1000 - rrfSum lexical_hits semantic_hits key * 1000 },
        List.mem_filterMap.mpr ⟨(key, rrfSum lexical_hits semantic_hits key), hmem, ?_⟩,
        ?_⟩
      · show (match assocLookup
            (semUpdates semantic_hits.enum (orInserts lexical_hits.enum [])) key with
          | none => none
          | some h0 =>
            some { (if key ∈ addSeens lexical_hits.enum [] ∧
                        key ∈ addSeens semantic_hits.enum [] then
                      { h0 with source := "hybrid" }
                    else h0) with
                   score := 1000 - rrfSum lexical_hits semantic_hits key * 1000 }) = _
        rw [he]
        show some { (if key ∈ addSeens lexical_hits.enum [] ∧
              key ∈ addSeens semantic_hits.enum [] then
            { e with source := "hybrid" }
          else e) with
            score := 1000 - rrfSum lexical_hits semantic_hits key * 1000 } = _
        rw [if_neg hc]
      · exact hek
  · rw [rrfRanked_eq]
    exact filterMap_keys_nodup _ _ hnd (rrfRanked_fun_keys lexical_hits semantic_hits)
  · intro i b key hib hbk hcount
    rcases hib with hib | hib
    · have hpos : 0 < lexical_hits.countP (fun h => dedupe_key h = key) :=
        List.countP_pos_iff.mpr ⟨b, List.getElem?_mem hib, by simp [hbk]⟩
      have hLc : lexical_hits.countP (fun h => dedupe_key h = key) = 1 := by omega
      have hSc : semantic_hits.countP (fun h => dedupe_key h = key) = 0 := by omega
      have hS0 : ∀ p ∈ semantic_hits.enum, dedupe_key p.2 ≠ key := by
        intro p hp hk
        have := List.countP_eq_zero.mp hSc p.2 (snd_mem_of_mem_enum hp)
        simp [hk] at this
      rw [rrfSum_eq, rrfContrib_single lexical_hits key i b hib hbk hLc,
        rrfContrib_eq_zero _ _ hS0, add_zero]
    · have hpos : 0 < semantic_hits.countP (fun h => dedupe_key h = key) :=
        List.countP_pos_iff.mpr ⟨b, List.getElem?_mem hib, by simp [hbk]⟩
      have hSc : semantic_hits.countP (fun h => dedupe_key h = key) = 1 := by omega
      have hLc : lexical_hits.countP (fun h => dedupe_key h = key) = 0 := by omega
      have hL0 : ∀ p ∈ lexical_hits.enum, dedupe_key p.2 ≠ key := by
        intro p hp hk
        have := List.countP_eq_zero.mp hLc p.2 (snd_mem_of_mem_enum hp)
        simp [hk] at this
      rw [rrfSum_eq, rrfContrib_single semantic_hits key i b hib hbk hSc,
        rrfContrib_eq_zero _ _ hL0, zero_add]
  · intro i a b key hia hib hka hkb
    have hcl := rrfContrib_ge lexical_hits key i a hia hka
    have hcs := rrfContrib_ge semantic_hits key i b hib hkb
    have hw : (0 : ℚ) < 1 / (60 + ((i : ℚ) + 1)) := by positivity
    rw [rrfSum_eq]
    linarith

/-- A lexical hit used to exercise the fusion theorem. -/
def hitL : SearchHit :=
  { source := "lexical", kind := "chunk", file_id := 1, file_name := "f",
    relative_path := "p", absolute_path := "ap", heading_level := none,
    heading_text := none, heading_order := none, score := 5 }

/-- The same result surfaced by the semantic search. -/
def hitS : SearchHit := { hitL with source := "semantic" }

/-- A second, unrelated lexical hit. -/
def hitB : SearchHit :=
  { source := "lexical", kind := "file", file_id := 2, file_name := "g",
    relative_path := "q", absolute_path := "aq", heading_level := none,
    heading_text := none, heading_order := none, score := 7 }

/-- Witness for C7 at concrete inputs: fusing `[hitL]` with `[hitS]`
(the same result in both lists) produces a hybrid hit scored from the
key's reciprocal-rank sum, a single occurrence at position 0 sums to
`1/61`, and the doubly-ranked key's external score strictly beats it. -/
theorem fuse_rrf_witness :
    (∃ hit ∈ rrfRanked [hitL] [hitS],
       dedupe_key hit = dedupe_key hitL ∧
       hit.source = "hybrid" ∧
       hit.score = 1000 - rrfSum [hitL] [hitS] (dedupe_key hitL) * 1000) ∧
    rrfSum [hitB] [] (dedupe_key hitB) = 1 / (60 + (((0 : Nat) : ℚ) + 1)) ∧
    1000 - rrfSum [hitL] [hitS] (dedupe_key hitL) * 1000 <
      1000 - (1 / (60 + (((0 : Nat) : ℚ) + 1))) * 1000 := by
  have hlex1 : ∀ h ∈ [hitL], h.source = "lexical" := by
    intro x hx
    rw [List.mem_singleton.mp hx]
    rfl
  have hsem1 : ∀ h ∈ [hitS], h.source = "semantic" := by
    intro x hx
    rw [List.mem_singleton.mp hx]
    rfl
  have h := fuse_rrf_spec [hitL] [hitS] hlex1 hsem1
  have hBS : dedupe_key hitS = dedupe_key hitL := dedupe_key_set_source hitL "semantic"
  refine ⟨?_, ?_, ?_⟩
  · obtain ⟨hit, hmem, hdk⟩ := h.2.1 (dedupe_key hitL)
      (Or.inl ⟨hitL, List.mem_singleton_self _, rfl⟩)
    obtain ⟨hscore, hiff⟩ := h.1 hit hmem
    refine ⟨hit, hmem, hdk, ?_, ?_⟩
    · exact hiff.mpr
        ⟨⟨hitL, List.mem_singleton_self _, hdk.symm⟩,
         ⟨hitS, List.mem_singleton_self _, hBS.trans hdk.symm⟩⟩
    · rw [hscore, hdk]
  · have h2 := fuse_rrf_spec [hitB] []
      (by
        intro x hx
        rw [List.mem_singleton.mp hx]
        rfl)
      (by intro x hx; cases hx)
    exact h2.2.2.2.1 0 hitB (dedupe_key hitB) (Or.inl rfl) rfl (by simp)
  · exact h.2.2.2.2 0 hitL hitS (dedupe_key hitL) rfl rfl rfl hBS

/-! ### C8: zip rewrite atomicity -/

theorem Fs.set_self (fs : Fs) (p : String) (v : Option (List ZipEntry)) :
    Fs.set fs p v p = v := if_pos rfl

theorem Fs.set_other (fs : Fs) (p : String) (v : Option (List ZipEntry)) (q : String)
    (h : q ≠ p) : Fs.set fs p v q = fs q := if_neg h

theorem rewrite_eq_none (plan : FailurePlan) (fs : Fs) (capture_path : String)
    (replacements : List (String × List Nat)) (h : fs capture_path = none) :
    rewrite_docx_with_parts plan fs capture_path replacements =
      (.error "Could not open capture docx for update", fs) := by
  rw [rewrite_docx_with_parts, h]

theorem rewrite_eq_some (plan : FailurePlan) (fs : Fs) (capture_path : String)
    (replacements : List (String × List Nat)) (entries : List ZipEntry)
    (h : fs capture_path = some entries) :
    rewrite_docx_with_parts plan fs capture_path replacements =
      (if plan.zip_parse_fails then (.error "Could not read capture docx for update", fs)
       else if plan.create_temp_fails then
         (.error "Could not create temporary capture file", fs)
       else
         match processEntries plan replacements entries 0 [] [] with
         | (some e, written, _) =>
           (.error e, fs.set (temp_path_of capture_path) (some written))
         | (none, written, copied) =>
           match appendMissing plan copied replacements 0 written with
           | (some e, written') =>
             (.error e, fs.set (temp_path_of capture_path) (some written'))
           | (none, written') =>
             if plan.finish_fails then
               (.error "Could not finish capture zip rewrite",
                fs.set (temp_path_of capture_path) (some written'))
             else if !plan.rename_fails then
               (.ok (), ((fs.set (temp_path_of capture_path) (some written')).set
                 capture_path (some written')).set (temp_path_of capture_path) none)
             else if plan.remove_fails then
               (.error "Could not replace capture docx",
                fs.set (temp_path_of capture_path) (some written'))
             else
               if plan.rename2_fails then
                 (.error "Could not move updated capture docx into place",
                  (fs.set (temp_path_of capture_path) (some written')).set capture_path none)
               else
                 (.ok (),
                  (((fs.set (temp_path_of capture_path) (some written')).set
                      capture_path none).set capture_path (some written')).set
                    (temp_path_of capture_path) none)) := by
  rw [rewrite_docx_with_parts, h]

theorem rewrite_pe_err (plan : FailurePlan) (fs : Fs) (capture_path : String)
    (replacements : List (String × List Nat)) (entries : List ZipEntry)
    (e0 : String) (written : List ZipEntry) (copied : List String)
    (hfs : fs capture_path = some entries)
    (hz : ¬ plan.zip_parse_fails = true) (hct : ¬ plan.create_temp_fails = true)
    (hpe : processEntries plan replacements entries 0 [] [] = (some e0, written, copied)) :
    rewrite_docx_with_parts plan fs capture_path replacements =
      (.error e0, fs.set (temp_path_of capture_path) (some written)) := by
  rw [rewrite_eq_some plan fs capture_path replacements entries hfs,
    if_neg hz, if_neg hct, hpe]

theorem rewrite_am_err (plan : FailurePlan) (fs : Fs) (capture_path : String)
    (replacements : List (String × List Nat)) (entries : List ZipEntry)
    (written : List ZipEntry) (copied : List String)
    (e0 : String) (written' : List ZipEntry)
    (hfs : fs capture_path = some entries)
    (hz : ¬ plan.zip_parse_fails = true) (hct : ¬ plan.create_temp_fails = true)
    (hpe : processEntries plan replacements entries 0 [] [] = (none, written, copied))
    (ham : appendMissing plan copied replacements 0 written = (some e0, written')) :
    rewrite_docx_with_parts plan fs capture_path replacements =
      (.error e0, fs.set (temp_path_of capture_path) (some written')) := by
  rw [rewrite_eq_some plan fs capture_path replacements entries hfs,
    if_neg hz, if_neg hct, hpe]
  show (match appendMissing plan copied replacements 0 written with
        | (some e, written') =>
          ((.error e, fs.set (temp_path_of capture_path) (some written')) :
            Except String Unit × Fs)
        | (none, written') =>
          if plan.finish_fails then
            (.error "Could not finish capture zip rewrite",
             fs.set (temp_path_of capture_path) (some written'))
          else if !plan.rename_fails then
            (.ok (), ((fs.set (temp_path_of capture_path) (some written')).set
              capture_path (some written')).set (temp_path_of capture_path) none)
          else if plan.remove_fails then
            (.error "Could not replace capture docx",
             fs.set (temp_path_of capture_path) (some written'))
          else
            if plan.rename2_fails then
              (.error "Could not move updated capture docx into place",
               (fs.set (temp_path_of capture_path) (some written')).set capture_path none)
            else
              (.ok (),
               (((fs.set (temp_path_of capture_path) (some written')).set
                   capture_path none).set capture_path (some written')).set
                 (temp_path_of capture_path) none)) = _
  rw [ham]

theorem rewrite_tail (plan : FailurePlan) (fs : Fs) (capture_path : String)
    (replacements : List (String × List Nat)) (entries : List ZipEntry)
    (written : List ZipEntry) (copied : List String) (written' : List ZipEntry)
    (hfs : fs capture_path = some entries)
    (hz : ¬ plan.zip_parse_fails = true) (hct : ¬ plan.create_temp_fails = true)
    (hpe : processEntries plan replacements entries 0 [] [] = (none, written, copied))
    (ham : appendMissing plan copied replacements 0 written = (none, written')) :
    rewrite_docx_with_parts plan fs capture_path replacements =
      (if plan.finish_fails then
        (.error "Could not finish capture zip rewrite",
         fs.set (temp_path_of capture_path) (some written'))
      else if !plan.rename_fails then
        (.ok (), ((fs.set (temp_path_of capture_path) (some written')).set
          capture_path (some written')).set (temp_path_of capture_path) none)
      else if plan.remove_fails then
        (.error "Could not replace capture docx",
         fs.set (temp_path_of capture_path) (some written'))
      else
        if plan.rename2_fails then
          (.error "Could not move updated capture docx into place",
           (fs.set (temp_path_of capture_path) (some written')).set capture_path none)
        else
          (.ok (),
           (((fs.set (temp_path_of capture_path) (some written')).set
               capture_path none).set capture_path (some written')).set
             (temp_path_of capture_path) none)) := by
  rw [rewrite_eq_some plan fs capture_path replacements entries hfs,
    if_neg hz, if_neg hct, hpe]
  show (match appendMissing plan copied replacements 0 written with
        | (some e, written') =>
          ((.error e, fs.set (temp_path_of capture_path) (some written')) :
            Except String Unit × Fs)
        | (none, written') =>
          if plan.finish_fails then
            (.error "Could not finish capture zip rewrite",
             fs.set (temp_path_of capture_path) (some written'))
          else if !plan.rename_fails then
            (.ok (), ((fs.set (temp_path_of capture_path) (some written')).set
              capture_path (some written')).set (temp_path_of capture_path) none)
          else if plan.remove_fails then
            (.error "Could not replace capture docx",
             fs.set (temp_path_of capture_path) (some written'))
          else
            if plan.rename2_fails then
              (.error "Could not move updated capture docx into place",
               (fs.set (temp_path_of capture_path) (some written')).set capture_path none)
            else
              (.ok (),
               (((fs.set (temp_path_of capture_path) (some written')).set
                   capture_path none).set capture_path (some written')).set
                 (temp_path_of capture_path) none)) = _
  rw [ham]

/-- C8 (amended): `rewrite_docx_with_parts` touches only the capture path
and its `docx.tmp` temporary; on error the original file is unchanged,
except on the remove-then-rename fallback (first rename failed, the
remove succeeded, the second rename failed), where the original has been
deleted and is gone. -/
theorem rewrite_docx_spec (plan : FailurePlan) (fs : Fs) (capture_path : String)
    (replacements : List (String × List Nat))
    (htemp : temp_path_of capture_path ≠ capture_path) :
    (∀ q, q ≠ capture_path → q ≠ temp_path_of capture_path →
       (rewrite_docx_with_parts plan fs capture_path replacements).2 q = fs q) ∧
    (∀ e, (rewrite_docx_with_parts plan fs capture_path replacements).1 = .error e →
       (rewrite_docx_with_parts plan fs capture_path replacements).2 capture_path =
           fs capture_path ∨
         ((rewrite_docx_with_parts plan fs capture_path replacements).2 capture_path =
            none ∧
          plan.rename_fails = true ∧ plan.remove_fails = false ∧
          plan.rename2_fails = true)) := by
  cases hfs : fs capture_path with
  | none =>
    rw [rewrite_eq_none plan fs capture_path replacements hfs]
    exact ⟨fun q h1 h2 => rfl, fun e he => Or.inl hfs⟩
  | some entries =>
    by_cases hz : plan.zip_parse_fails = true
    · rw [rewrite_eq_some plan fs capture_path replacements entries hfs, if_pos hz]
      exact ⟨fun q h1 h2 => rfl, fun e he => Or.inl hfs⟩
    · by_cases hct : plan.create_temp_fails = true
      · rw [rewrite_eq_some plan fs capture_path replacements entries hfs,
          if_neg hz, if_pos hct]
        exact ⟨fun q h1 h2 => rfl, fun e he => Or.inl hfs⟩
      · rcases hpe : processEntries plan replacements entries 0 [] [] with ⟨o, written, copied⟩
        cases o with
        | some e0 =>
          rw [rewrite_pe_err plan fs capture_path replacements entries e0 written copied
            hfs hz hct hpe]
          refine ⟨fun q h1 h2 => Fs.set_other _ _ _ _ h2, fun e he => Or.inl ?_⟩
          show Fs.set fs (temp_path_of capture_path) (some written) capture_path =
            some entries
          rw [Fs.set_other _ _ _ _ (Ne.symm htemp)]
          exact hfs
        | none =>
          rcases ham : appendMissing plan copied replacements 0 written with ⟨o2, written'⟩
          cases o2 with
          | some e0 =>
            rw [rewrite_am_err plan fs capture_path replacements entries written copied
              e0 written' hfs hz hct hpe ham]
            refine ⟨fun q h1 h2 => Fs.set_other _ _ _ _ h2, fun e he => Or.inl ?_⟩
            show Fs.set fs (temp_path_of capture_path) (some written') capture_path =
              some entries
            rw [Fs.set_other _ _ _ _ (Ne.symm htemp)]
            exact hfs
          | none =>
            rw [rewrite_tail plan fs capture_path replacements entries written copied
              written' hfs hz hct hpe ham]
            by_cases hf : plan.finish_fails = true
            · rw [if_pos hf]
              refine ⟨fun q h1 h2 => Fs.set_other _ _ _ _ h2, fun e he => Or.inl ?_⟩
              show Fs.set fs (temp_path_of capture_path) (some written') capture_path =
                some entries
              rw [Fs.set_other _ _ _ _ (Ne.symm htemp)]
              exact hfs
            · rw [if_neg hf]
              by_cases hr : plan.rename_fails = true
              · have hnr : ¬ ((!plan.rename_fails) = true) := by
                  rw [hr]
                  simp
                rw [if_neg hnr]
                by_cases hm : plan.remove_fails = true
                · rw [if_pos hm]
                  refine ⟨fun q h1 h2 => Fs.set_other _ _ _ _ h2, fun e he => Or.inl ?_⟩
                  show Fs.set fs (temp_path_of capture_path) (some written') capture_path =
                    some entries
                  rw [Fs.set_other _ _ _ _ (Ne.symm htemp)]
                  exact hfs
                · rw [if_neg hm]
                  by_cases h2f : plan.rename2_fails = true
                  · rw [if_pos h2f]
                    refine ⟨fun q h1 h2 => ?_,
                      fun e he => Or.inr ⟨?_, hr, Bool.not_eq_true _ ▸ hm, h2f⟩⟩
                    · show ((fs.set (temp_path_of capture_path) (some written')).set
                        capture_path none) q = fs q
                      rw [Fs.set_other _ _ _ _ h1, Fs.set_other _ _ _ _ h2]
                    · show ((fs.set (temp_path_of capture_path) (some written')).set
                        capture_path none) capture_path = none
                      exact Fs.set_self _ _ _
                  · rw [if_neg h2f]
                    refine ⟨fun q h1 h2 => ?_, fun e he => ?_⟩
                    · show ((((fs.set (temp_path_of capture_path) (some written')).set
                          capture_path none).set capture_path (some written')).set
                          (temp_path_of capture_path) none) q = fs q
                      rw [Fs.set_other _ _ _ _ h2, Fs.set_other _ _ _ _ h1,
                        Fs.set_other _ _ _ _ h1, Fs.set_other _ _ _ _ h2]
                    · replace he : (Except.ok () : Except String Unit) = .error e := he
                      cases he
              · have hrf : plan.rename_fails = false :=
                  Bool.not_eq_true plan.rename_fails ▸ hr
                have hnr : (!plan.rename_fails) = true := by
                  rw [hrf]
                  rfl
                rw [if_pos hnr]
                refine ⟨fun q h1 h2 => ?_, fun e he => ?_⟩
                · show (((fs.set (temp_path_of capture_path) (some written')).set
                      capture_path (some written')).set
                      (temp_path_of capture_path) none) q = fs q
                  rw [Fs.set_other _ _ _ _ h2, Fs.set_other _ _ _ _ h1,
                    Fs.set_other _ _ _ _ h2]
                · replace he : (Except.ok () : Except String Unit) = .error e := he
                  cases he

/-- The failure plan of the C8 counterexample: the first rename fails,
the remove succeeds, the second rename fails. -/
def planC8 : FailurePlan :=
  { zip_parse_fails := false, create_temp_fails := false,
    entry_fails := fun _ => false, append_fails := fun _ => false,
    finish_fails := false, rename_fails := true, remove_fails := false,
    rename2_fails := true }

/-- A one-entry capture archive. -/
def entryC8 : ZipEntry := { name := "word/document.xml", is_dir := false, data := [1, 2] }

/-- A file system holding only the capture file. -/
def fsC8 : Fs := fun p => if p = "root/Cap.docx" then some [entryC8] else none

set_option maxRecDepth 2000 in
/-- C8 counterexample: on the remove-then-rename fallback
(`rename` fails, `remove` succeeds, the second `rename` fails)
`rewrite_docx_with_parts` returns an error yet the original capture file
has been deleted: the claim that on error the original is unchanged is
false. -/
theorem rewrite_docx_counterexample :
    fsC8 "root/Cap.docx" = some [entryC8] ∧
    (rewrite_docx_with_parts planC8 fsC8 "root/Cap.docx" []).1 =
      .error "Could not move updated capture docx into place" ∧
    (rewrite_docx_with_parts planC8 fsC8 "root/Cap.docx" []).2 "root/Cap.docx" = none := by
  refine ⟨by decide, by decide, by decide⟩

set_option maxRecDepth 2000 in
/-- Witness for C8's amended theorem at the counterexample input: the
temporary path differs from the capture path, an unrelated path is
untouched, and the error leaves the capture entry either unchanged or
deleted exactly on the rename-remove-rename2 fallback. -/
theorem rewrite_docx_witness :
    temp_path_of "root/Cap.docx" ≠ "root/Cap.docx" ∧
    (rewrite_docx_with_parts planC8 fsC8 "root/Cap.docx" []).2 "root/other.txt" =
      fsC8 "root/other.txt" ∧
    ((rewrite_docx_with_parts planC8 fsC8 "root/Cap.docx" []).2 "root/Cap.docx" =
        fsC8 "root/Cap.docx" ∨
      ((rewrite_docx_with_parts planC8 fsC8 "root/Cap.docx" []).2 "root/Cap.docx" = none ∧
       planC8.rename_fails = true ∧ planC8.remove_fails = false ∧
       planC8.rename2_fails = true)) := by
  have h := rewrite_docx_spec planC8 fsC8 "root/Cap.docx" [] (by decide)
  exact ⟨by decide, h.1 "root/other.txt" (by decide) (by decide),
    h.2 "Could not move updated capture docx into place" (by decide)⟩

/-! ### C9: `move_capture_heading` with equal source and target orders -/

theorem preview_events_none (extract : List ZipEntry → Option (List FileHeading)) (fs : Fs)
    (croot ntarget : String) (hfs : fs (capture_docx_path croot ntarget) = none) :
    capture_target_preview_for_path extract fs croot ntarget =
      ({ relative_path := ntarget, absolute_path := capture_docx_path croot ntarget,
         exists_flag := false, heading_count := 0, headings := [] },
       [FsEvent.stat (capture_docx_path croot ntarget)]) := by
  show (match fs (capture_docx_path croot ntarget) with
    | none =>
      (({ relative_path := ntarget, absolute_path := capture_docx_path croot ntarget,
          exists_flag := false, heading_count := 0, headings := [] } :
          CaptureTargetPreview),
       [FsEvent.stat (capture_docx_path croot ntarget)])
    | some zip =>
      ({ relative_path := ntarget, absolute_path := capture_docx_path croot ntarget,
         exists_flag := true,
         heading_count :=
           (((extract zip).getD []).mergeSort fun l r => l.order ≤ r.order).length,
         headings := ((extract zip).getD []).mergeSort fun l r => l.order ≤ r.order },
       [FsEvent.stat (capture_docx_path croot ntarget),
        FsEvent.openRead (capture_docx_path croot ntarget)])) = _
  rw [hfs]

theorem preview_events_some (extract : List ZipEntry → Option (List FileHeading)) (fs : Fs)
    (croot ntarget : String) (zip : List ZipEntry)
    (hfs : fs (capture_docx_path croot ntarget) = some zip) :
    capture_target_preview_for_path extract fs croot ntarget =
      ({ relative_path := ntarget, absolute_path := capture_docx_path croot ntarget,
         exists_flag := true,
         heading_count :=
           (((extract zip).getD []).mergeSort fun l r => l.order ≤ r.order).length,
         headings := ((extract zip).getD []).mergeSort fun l r => l.order ≤ r.order },
       [FsEvent.stat (capture_docx_path croot ntarget),
        FsEvent.openRead (capture_docx_path croot ntarget)]) := by
  show (match fs (capture_docx_path croot ntarget) with
    | none =>
      (({ relative_path := ntarget, absolute_path := capture_docx_path croot ntarget,
          exists_flag := false, heading_count := 0, headings := [] } :
          CaptureTargetPreview),
       [FsEvent.stat (capture_docx_path croot ntarget)])
    | some zip =>
      ({ relative_path := ntarget, absolute_path := capture_docx_path croot ntarget,
         exists_flag := true,
         heading_count :=
           (((extract zip).getD []).mergeSort fun l r => l.order ≤ r.order).length,
         headings := ((extract zip).getD []).mergeSort fun l r => l.order ≤ r.order },
       [FsEvent.stat (capture_docx_path croot ntarget),
        FsEvent.openRead (capture_docx_path croot ntarget)])) = _
  rw [hfs]

theorem move_eq_preview (M : CharModel)
    (canon : String → Except String String)
    (extract : List ZipEntry → Option (List FileHeading))
    (rest : String → String → Fs → Except String CaptureTargetPreview × List FsEvent × Fs)
    (fs : Fs) (root_path target_path : String) (so tgt : Int)
    (croot : String) (ntarget : List Char)
    (hc : canon root_path = .ok croot)
    (hn : normalize_capture_target_path M (some target_path.data) = .ok ntarget)
    (heq : so = tgt) :
    move_capture_heading M canon extract rest fs root_path target_path so tgt =
      (.ok (capture_target_preview_for_path extract fs croot ⟨ntarget⟩).1,
       (capture_target_preview_for_path extract fs croot ⟨ntarget⟩).2, fs) := by
  rw [move_capture_heading, hc]
  show (match normalize_capture_target_path M (some target_path.data) with
    | .error e => ((.error e : Except String CaptureTargetPreview), ([] : List FsEvent), fs)
    | .ok normalized_target =>
      if so = tgt then
        (.ok (capture_target_preview_for_path extract fs croot ⟨normalized_target⟩).1,
         (capture_target_preview_for_path extract fs croot ⟨normalized_target⟩).2, fs)
      else rest croot ⟨normalized_target⟩ fs) = _
  rw [hn]
  show (if so = tgt then
      (.ok (capture_target_preview_for_path extract fs croot ⟨ntarget⟩).1,
       (capture_target_preview_for_path extract fs croot ⟨ntarget⟩).2, fs)
    else rest croot ⟨ntarget⟩ fs) = _
  rw [if_pos heq]

/-- C9 (amended): when `source_heading_order` equals
`target_heading_order` (and the root canonicalizes, and the target path
normalizes), `move_capture_heading` returns the current preview of the
target document and changes no file: the only file-system observations
are a `stat` of the target's absolute path and — when the file exists —
the read that parses it for the preview; when the target file does not
exist the call still succeeds with a single `stat` and no read. -/
theorem move_capture_heading_spec (M : CharModel)
    (canon : String → Except String String)
    (extract : List ZipEntry → Option (List FileHeading))
    (rest : String → String → Fs → Except String CaptureTargetPreview × List FsEvent × Fs)
    (fs : Fs) (root_path target_path : String) (so tgt : Int)
    (croot : String) (ntarget : List Char)
    (hc : canon root_path = .ok croot)
    (hn : normalize_capture_target_path M (some target_path.data) = .ok ntarget)
    (heq : so = tgt) :
    move_capture_heading M canon extract rest fs root_path target_path so tgt =
      (.ok (capture_target_preview_for_path extract fs croot ⟨ntarget⟩).1,
       (capture_target_preview_for_path extract fs croot ⟨ntarget⟩).2, fs) ∧
    (∀ ev ∈ (capture_target_preview_for_path extract fs croot ⟨ntarget⟩).2,
       ev = FsEvent.stat (capture_docx_path croot ⟨ntarget⟩) ∨
       ev = FsEvent.openRead (capture_docx_path croot ⟨ntarget⟩)) ∧
    (fs (capture_docx_path croot ⟨ntarget⟩) = none →
       (capture_target_preview_for_path extract fs croot ⟨ntarget⟩).2 =
         [FsEvent.stat (capture_docx_path croot ⟨ntarget⟩)]) := by
  refine ⟨move_eq_preview M canon extract rest fs root_path target_path so tgt
    croot ntarget hc hn heq, ?_, ?_⟩
  · intro ev hev
    cases hfs : fs (capture_docx_path croot ⟨ntarget⟩) with
    | none =>
      rw [preview_events_none extract fs croot ⟨ntarget⟩ hfs] at hev
      exact Or.inl (List.mem_singleton.mp hev)
    | some zip =>
      rw [preview_events_some extract fs croot ⟨ntarget⟩ zip hfs] at hev
      rcases List.mem_cons.mp hev with h | h
      · exact Or.inl h
      · exact Or.inr (List.mem_singleton.mp h)
  · intro hfs
    rw [preview_events_none extract fs croot ⟨ntarget⟩ hfs]

/-- The canonicalize-folder oracle of the C9 scenarios: every folder
canonicalizes to itself. -/
def canonC9 : String → Except String String := fun s => .ok s

/-- The preview parser of the C9 scenarios: no headings. -/
def extractC9 : List ZipEntry → Option (List FileHeading) := fun _ => some []

/-- The body after the early return; never entered in the C9 scenarios. -/
def restC9 : String → String → Fs → Except String CaptureTargetPreview × List FsEvent × Fs :=
  fun _ _ fs => (.error "rest", [], fs)

/-- A file system holding the capture target. -/
def fsC9some : Fs := fun p => if p = "/root/Cap.docx" then some [] else none

/-- An empty file system. -/
def fsC9none : Fs := fun _ => none

/-- C9 counterexample: with the target file present and
`source_heading_order = target_heading_order`, the trace of
`move_capture_heading` contains an `openRead` of the target — the claim
that the preview is produced `without opening` the target file is
false. -/
theorem move_capture_heading_counterexample :
    fsC9some "/root/Cap.docx" = some [] ∧
    FsEvent.openRead "/root/Cap.docx" ∈
      (move_capture_heading asciiModel canonC9 extractC9 restC9 fsC9some
        "/root" "Cap.docx" 1 1).2.1 := by
  refine ⟨rfl, ?_⟩
  have h := move_eq_preview asciiModel canonC9 extractC9 restC9 fsC9some
    "/root" "Cap.docx" 1 1 "/root" "Cap.docx".data rfl rfl rfl
  rw [h]
  have h2 := preview_events_some extractC9 fsC9some "/root" ⟨"Cap.docx".data⟩ [] rfl
  show FsEvent.openRead "/root/Cap.docx" ∈
    (capture_target_preview_for_path extractC9 fsC9some "/root" ⟨"Cap.docx".data⟩).2
  rw [h2]
  show FsEvent.openRead "/root/Cap.docx" ∈
    [FsEvent.stat "/root/Cap.docx", FsEvent.openRead "/root/Cap.docx"]
  exact List.mem_cons_of_mem _ (List.mem_singleton_self _)

/-- Witness for C9's amended theorem at a missing target: the call
succeeds with the current (empty) preview, leaves the file system
untouched, and the only observation is a `stat`. -/
theorem move_capture_heading_witness :
    move_capture_heading asciiModel canonC9 extractC9 restC9 fsC9none
      "/root" "Cap.docx" 2 2 =
      (.ok (capture_target_preview_for_path extractC9 fsC9none "/root" "Cap.docx").1,
       (capture_target_preview_for_path extractC9 fsC9none "/root" "Cap.docx").2,
       fsC9none) ∧
    (capture_target_preview_for_path extractC9 fsC9none "/root" "Cap.docx").2 =
      [FsEvent.stat "/root/Cap.docx"] := by
  have h := move_capture_heading_spec asciiModel canonC9 extractC9 restC9 fsC9none
    "/root" "Cap.docx" 2 2 "/root" "Cap.docx".data rfl rfl rfl
  exact ⟨h.1, h.2.2 rfl⟩

/-! ### C10: `build_chunks` emission orders and chunk id distinctness -/

theorem toDigitsCore_append (fuel : Nat) :
    ∀ (n : Nat) (ds : List Char),
      Nat.toDigitsCore 10 fuel n ds = Nat.toDigitsCore 10 fuel n [] ++ ds := by
  induction fuel with
  | zero => intro n ds; rfl
  | succ f ih =>
    intro n ds
    show (if n / 10 = 0 then Nat.digitChar (n % 10) :: ds
        else Nat.toDigitsCore 10 f (n / 10) (Nat.digitChar (n % 10) :: ds)) =
      (if n / 10 = 0 then Nat.digitChar (n % 10) :: ([] : List Char)
        else Nat.toDigitsCore 10 f (n / 10) [Nat.digitChar (n % 10)]) ++ ds
    by_cases hz : n / 10 = 0
    · rw [if_pos hz, if_pos hz]
      rfl
    · rw [if_neg hz, if_neg hz, ih (n / 10) (Nat.digitChar (n % 10) :: ds),
        ih (n / 10) [Nat.digitChar (n % 10)], List.append_assoc]
      rfl

theorem digitsValue_concat (xs : List Char) (c : Char) :
    digitsValue (xs ++ [c]) = 10 * digitsValue xs + (c.toNat - 48) := by
  rw [digitsValue, digitsValue, List.foldl_append]
  rfl

theorem digitChar_val (d : Nat) (h : d < 10) : (Nat.digitChar d).toNat - 48 = d := by
  interval_cases d <;> rfl

theorem toDigitsCore_val (fuel : Nat) :
    ∀ n, n < fuel → digitsValue (Nat.toDigitsCore 10 fuel n []) = n := by
  induction fuel with
  | zero => intro n h; exact absurd h (Nat.not_lt_zero n)
  | succ f ih =>
    intro n h
    show digitsValue (if n / 10 = 0 then [Nat.digitChar (n % 10)]
      else Nat.toDigitsCore 10 f (n / 10) [Nat.digitChar (n % 10)]) = n
    by_cases hz : n / 10 = 0
    · rw [if_pos hz, show [Nat.digitChar (n % 10)] = [] ++ [Nat.digitChar (n % 10)] from rfl,
        digitsValue_concat, digitChar_val (n % 10) (Nat.mod_lt _ (by norm_num))]
      show 10 * 0 + n % 10 = n
      omega
    · rw [if_neg hz, toDigitsCore_append f (n / 10) [Nat.digitChar (n % 10)],
        digitsValue_concat, digitChar_val (n % 10) (Nat.mod_lt _ (by norm_num)),
        ih (n / 10) (by
          have h1 : 0 < n := by
            rcases Nat.eq_zero_or_pos n with rfl | h1
            · exact absurd rfl hz
            · exact h1
          have h2 : n / 10 < n := Nat.div_lt_self h1 (by norm_num)
          omega)]
      omega

theorem toDigits_inj {n m : Nat} (h : Nat.toDigits 10 n = Nat.toDigits 10 m) : n = m := by
  have h1 := toDigitsCore_val (n + 1) n (Nat.lt_succ_self n)
  have h2 := toDigitsCore_val (m + 1) m (Nat.lt_succ_self m)
  replace h1 : digitsValue (Nat.toDigits 10 n) = n := h1
  replace h2 : digitsValue (Nat.toDigits 10 m) = m := h2
  rw [h] at h1
  exact h1.symm.trans h2

theorem repr_data_inj {n m : Nat} (h : (Nat.repr n).data = (Nat.repr m).data) : n = m :=
  toDigits_inj h

theorem toString_int_data_inj {i j : Int} (h1 : 0 ≤ i) (h2 : 0 ≤ j)
    (h : (toString i).data = (toString j).data) : i = j := by
  obtain ⟨n, rfl⟩ := Int.eq_ofNat_of_zero_le h1
  obtain ⟨m, rfl⟩ := Int.eq_ofNat_of_zero_le h2
  have h3 : (Nat.repr n).data = (Nat.repr m).data := h
  rw [repr_data_inj h3]

theorem chunk_id_inj (root_id file_id : Int) {o1 o2 : Int} (h1 : 0 ≤ o1) (h2 : 0 ≤ o2)
    (h : chunk_id root_id file_id o1 = chunk_id root_id file_id o2) : o1 = o2 := by
  refine toString_int_data_inj h1 h2 ?_
  have hd := congrArg String.data h
  rw [chunk_id, chunk_id] at hd
  simp only [String.data_append] at hd
  exact List.append_cancel_left hd

/-- The running invariant of `build_chunks`: the next order is one past
the accumulated chunk count, the accumulated orders are `1..len` in
emission order, and every accumulated chunk has nonempty text. -/
def ChunksInv (chunks : List ParsedChunk) (co : Int) : Prop :=
  co = (chunks.length : Int) + 1 ∧
  (∀ i (h : i < chunks.length), (chunks.get ⟨i, h⟩).chunk_order = (i : Int) + 1) ∧
  (∀ c ∈ chunks, c.chunk_text ≠ [])

theorem chunksInv_append (chunks : List ParsedChunk) (co : Int) (x : ParsedChunk)
    (hinv : ChunksInv chunks co) (hx : x.chunk_order = co) (ht : x.chunk_text ≠ []) :
    ChunksInv (chunks ++ [x]) (co + 1) := by
  obtain ⟨hco, hord, hne⟩ := hinv
  refine ⟨?_, ?_, ?_⟩
  · rw [hco, List.length_append, List.length_singleton]
    push_cast
    ring
  · intro i h
    have hlen : i < chunks.length + 1 := by
      rw [List.length_append, List.length_singleton] at h
      exact h
    by_cases hi : i < chunks.length
    · rw [List.get_append i hi]
      exact hord i hi
    · have hieq : i = chunks.length := by omega
      subst hieq
      have hg2 : (chunks ++ [x]).get ⟨chunks.length, h⟩ = x :=
        List.getElem_concat_length chunks x chunks.length rfl _
      rw [hg2, hx, hco]
  · intro c hc
    rcases List.mem_append.mp hc with h | h
    · exact hne c h
    · rw [List.mem_singleton.mp h]
      exact ht

theorem flushFoldGo (ho hl : Option Int) (ht author : Option (List Char)) :
    ∀ (L : List (List Char)) (chunks : List ParsedChunk) (co : Int),
      (∀ t ∈ L, t ≠ []) → ChunksInv chunks co →
      ChunksInv
        (L.foldl (fun (state : List ParsedChunk × Int) chunk_text =>
          (state.1 ++ [{ chunk_order := state.2, heading_order := ho,
                         heading_level := hl, heading_text := ht,
                         author_text := author, chunk_text := chunk_text }],
           state.2 + 1)) (chunks, co)).1
        (L.foldl (fun (state : List ParsedChunk × Int) chunk_text =>
          (state.1 ++ [{ chunk_order := state.2, heading_order := ho,
                         heading_level := hl, heading_text := ht,
                         author_text := author, chunk_text := chunk_text }],
           state.2 + 1)) (chunks, co)).2 := by
  intro L
  induction L with
  | nil =>
    intro chunks co hL hinv
    exact hinv
  | cons t rest ih =>
    intro chunks co hL hinv
    rw [List.foldl_cons]
    exact ih
      (chunks ++ [{ chunk_order := co, heading_order := ho, heading_level := hl,
                    heading_text := ht, author_text := author, chunk_text := t }])
      (co + 1)
      (fun u hu => hL u (List.mem_cons_of_mem _ hu))
      (chunksInv_append chunks co _ hinv rfl (hL t (List.mem_cons_self _ _)))

theorem flush_section_inv (M : CharModel) (chunks : List ParsedChunk) (co : Int)
    (lines : List (List Char)) (ho hl : Option Int) (ht author : Option (List Char))
    (hinv : ChunksInv chunks co) :
    ChunksInv (flush_section M chunks co lines ho hl ht author).1
      (flush_section M chunks co lines ho hl ht author).2 := by
  rw [flush_section]
  by_cases h0 : lines = []
  · rw [if_pos h0]
    exact hinv
  · rw [if_neg h0]
    exact flushFoldGo ho hl ht author
      (split_text_into_chunks M (List.intercalate ['\n'] lines)) chunks co
      (fun t htm => split_chunks_ne M _ t htm) hinv

theorem buildChunksGo_skip (M : CharModel) (p : ParsedParagraph)
    (rest : List ParsedParagraph) (chunks : List ParsedChunk) (co : Int)
    (ho hl : Option Int) (ht author : Option (List Char)) (lines : List (List Char))
    (htext : trimChars M p.text = []) :
    buildChunksGo M (p :: rest) chunks co ho hl ht author lines =
      buildChunksGo M rest chunks co ho hl ht author lines := by
  show (if trimChars M p.text = [] then
      buildChunksGo M rest chunks co ho hl ht author lines
    else
      match p.heading_level with
      | some level =>
        buildChunksGo M rest
          ((flush_section M chunks co lines ho hl ht author).1 ++
            [{ chunk_order := (flush_section M chunks co lines ho hl ht author).2,
               heading_order := some p.order, heading_level := some level,
               heading_text := some (trimChars M p.text), author_text := none,
               chunk_text := trimChars M p.text }])
          ((flush_section M chunks co lines ho hl ht author).2 + 1)
          (some p.order) (some level) (some (trimChars M p.text)) none []
      | none =>
        buildChunksGo M rest chunks co ho hl ht
          (if author.isNone ∧ is_probable_author_line M (trimChars M p.text)
           then some (trimChars M p.text) else author)
          (lines ++ [trimChars M p.text])) = _
  rw [if_pos htext]

theorem buildChunksGo_heading (M : CharModel) (p : ParsedParagraph)
    (rest : List ParsedParagraph) (chunks : List ParsedChunk) (co : Int)
    (ho hl : Option Int) (ht author : Option (List Char)) (lines : List (List Char))
    (level : Int)
    (htext : ¬ trimChars M p.text = []) (hlev : p.heading_level = some level) :
    buildChunksGo M (p :: rest) chunks co ho hl ht author lines =
      buildChunksGo M rest
        ((flush_section M chunks co lines ho hl ht author).1 ++
          [{ chunk_order := (flush_section M chunks co lines ho hl ht author).2,
             heading_order := some p.order, heading_level := some level,
             heading_text := some (trimChars M p.text), author_text := none,
             chunk_text := trimChars M p.text }])
        ((flush_section M chunks co lines ho hl ht author).2 + 1)
        (some p.order) (some level) (some (trimChars M p.text)) none [] := by
  show (if trimChars M p.text = [] then
      buildChunksGo M rest chunks co ho hl ht author lines
    else
      match p.heading_level with
      | some level =>
        buildChunksGo M rest
          ((flush_section M chunks co lines ho hl ht author).1 ++
            [{ chunk_order := (flush_section M chunks co lines ho hl ht author).2,
               heading_order := some p.order, heading_level := some level,
               heading_text := some (trimChars M p.text), author_text := none,
               chunk_text := trimChars M p.text }])
          ((flush_section M chunks co lines ho hl ht author).2 + 1)
          (some p.order) (some level) (some (trimChars M p.text)) none []
      | none =>
        buildChunksGo M rest chunks co ho hl ht
          (if author.isNone ∧ is_probable_author_line M (trimChars M p.text)
           then some (trimChars M p.text) else author)
          (lines ++ [trimChars M p.text])) = _
  rw [if_neg htext, hlev]

theorem buildChunksGo_body (M : CharModel) (p : ParsedParagraph)
    (rest : List ParsedParagraph) (chunks : List ParsedChunk) (co : Int)
    (ho hl : Option Int) (ht author : Option (List Char)) (lines : List (List Char))
    (htext : ¬ trimChars M p.text = []) (hlev : p.heading_level = none) :
    buildChunksGo M (p :: rest) chunks co ho hl ht author lines =
      buildChunksGo M rest chunks co ho hl ht
        (if author.isNone ∧ is_probable_author_line M (trimChars M p.text)
         then some (trimChars M p.text) else author)
        (lines ++ [trimChars M p.text]) := by
  show (if trimChars M p.text = [] then
      buildChunksGo M rest chunks co ho hl ht author lines
    else
      match p.heading_level with
      | some level =>
        buildChunksGo M rest
          ((flush_section M chunks co lines ho hl ht author).1 ++
            [{ chunk_order := (flush_section M chunks co lines ho hl ht author).2,
               heading_order := some p.order, heading_level := some level,
               heading_text := some (trimChars M p.text), author_text := none,
               chunk_text := trimChars M p.text }])
          ((flush_section M chunks co lines ho hl ht author).2 + 1)
          (some p.order) (some level) (some (trimChars M p.text)) none []
      | none =>
        buildChunksGo M rest chunks co ho hl ht
          (if author.isNone ∧ is_probable_author_line M (trimChars M p.text)
           then some (trimChars M p.text) else author)
          (lines ++ [trimChars M p.text])) = _
  rw [if_neg htext, hlev]

theorem buildChunksGo_inv (M : CharModel) :
    ∀ (ps : List ParsedParagraph) (chunks : List ParsedChunk) (co : Int)
      (ho hl : Option Int) (ht author : Option (List Char)) (lines : List (List Char)),
      ChunksInv chunks co →
      (∀ i (h : i < (buildChunksGo M ps chunks co ho hl ht author lines).length),
        ((buildChunksGo M ps chunks co ho hl ht author lines).get ⟨i, h⟩).chunk_order =
          (i : Int) + 1) ∧
      (∀ c ∈ buildChunksGo M ps chunks co ho hl ht author lines, c.chunk_text ≠ []) := by
  intro ps
  induction ps with
  | nil =>
    intro chunks co ho hl ht author lines hinv
    have h := flush_section_inv M chunks co lines ho hl ht author hinv
    exact ⟨h.2.1, h.2.2⟩
  | cons p rest ih =>
    intro chunks co ho hl ht author lines hinv
    by_cases htext : trimChars M p.text = []
    · rw [buildChunksGo_skip M p rest chunks co ho hl ht author lines htext]
      exact ih chunks co ho hl ht author lines hinv
    · cases hlev : p.heading_level with
      | some level =>
        rw [buildChunksGo_heading M p rest chunks co ho hl ht author lines level
          htext hlev]
        refine ih _ _ _ _ _ _ _ ?_
        exact chunksInv_append _ _ _
          (flush_section_inv M chunks co lines ho hl ht author hinv) rfl htext
      | none =>
        rw [buildChunksGo_body M p rest chunks co ho hl ht author lines htext hlev]
        exact ih _ _ _ _ _ _ _ hinv

/-- C10: the chunks emitted by `build_chunks` carry `chunk_order` values
that are exactly `1, 2, 3, …` in emission order, with no repeats or
gaps; every emitted `chunk_text` is nonempty; and for any root and file
ids the derived chunk ids `"root:file:chunk_order"` are pairwise
distinct within the file. -/
theorem build_chunks_invariant (M : CharModel) (paragraphs : List ParsedParagraph) :
    (∀ i (h : i < (build_chunks M paragraphs).length),
       ((build_chunks M paragraphs).get ⟨i, h⟩).chunk_order = (i : Int) + 1) ∧
    (∀ c ∈ build_chunks M paragraphs, c.chunk_text ≠ []) ∧
    (∀ root_id file_id : Int,
       ((build_chunks M paragraphs).map
          (fun c => chunk_id root_id file_id c.chunk_order)).Nodup) := by
  have h : (∀ i (hh : i < (build_chunks M paragraphs).length),
        ((build_chunks M paragraphs).get ⟨i, hh⟩).chunk_order = (i : Int) + 1) ∧
      (∀ c ∈ build_chunks M paragraphs, c.chunk_text ≠ []) :=
    buildChunksGo_inv M paragraphs [] 1 none none none none []
      ⟨by norm_num, fun i hi => absurd hi (Nat.not_lt_zero i), fun c hc => absurd hc
        (List.not_mem_nil c)⟩
  refine ⟨h.1, h.2, ?_⟩
  intro root_id file_id
  rw [List.nodup_iff_injective_get]
  intro a b hab
  rw [List.get_map, List.get_map] at hab
  rw [h.1 a.1 (by simpa using a.2), h.1 b.1 (by simpa using b.2)] at hab
  have h2 := chunk_id_inj root_id file_id
    (by positivity) (by positivity) hab
  have h3 : (a.1 : Int) = (b.1 : Int) := by omega
  exact Fin.ext (by exact_mod_cast h3)

/-- A concrete body paragraph. -/
def pW : ParsedParagraph :=
  { order := 1, text := "Hello world".data, heading_level := none,
    style_label := none, is_f8_cite := false }

/-- Witness for C10 on a one-paragraph file: one chunk, order 1,
nonempty text, distinct ids. -/
theorem build_chunks_witness :
    (build_chunks asciiModel [pW]).length = 1 ∧
    ((build_chunks asciiModel [pW]).get ⟨0, by decide⟩).chunk_order = ((0 : Nat) : Int) + 1 ∧
    ((build_chunks asciiModel [pW]).get ⟨0, by decide⟩).chunk_text ≠ [] ∧
    ((build_chunks asciiModel [pW]).map (fun c => chunk_id 5 7 c.chunk_order)).Nodup := by
  have h := build_chunks_invariant asciiModel [pW]
  exact ⟨by decide, h.1 0 (by decide), h.2.1 _ (List.get_mem ..), h.2.2 5 7⟩

end BetterDebate
